import Mathlib

/-!
# Offline NER+NED evaluation: a shallow embedding of `evaluate_main.cpp`

The definitions below follow `src/offline_evaluation/evaluate_main.cpp` and the
`tokenlize` helper of `src/offline_evaluation/utils.hpp`.

Conventions of the embedding:

* `std::string` is `String`.  The only characters the program inspects are the
  ASCII delimiter `\` and the ASCII letter `Q`; splitting at an ASCII byte and
  testing the first byte against an ASCII letter agree with the same operations
  on the characters of a UTF-8 string.
* `int`, `size_t`, `uint64_t` and `unsigned int` values are `Nat` (`Int` for the
  counters of `statsBIOES`), without wrap-around.  Token indices and the
  per-sentence counts are bounded by the number of tokens of one sentence; the
  counters that live across sentences are bounded by the number of tokens of
  the input, so the results about them are about inputs that keep them below
  `2^31` (`int`) and `2^64` (`uint64_t`).
* `double` is `Double`: the non-negative binary64 numbers, `+∞` and NaN, with the
  conversion from an unsigned integer, `+`, `*` and `/` rounded to nearest, ties
  to even.  `computeF1` is the one place where the wrap-around of `uint64_t`
  is kept: its sums `tp + fp` and `tp + fn` are taken modulo `2^64`.
* An out-of-range `operator[]` on a `std::vector` is undefined behaviour in the
  source; the embedding returns `none` there.
-/

namespace NerNed

/-! ## utils.hpp -/

/-- The `while (std::getline(iss, token, del))` loop of `tokenlize`: `token`
holds the characters read since the last delimiter.  A delimiter closes the
token (also an empty one); the end of the input closes it only when at least
one character was read. -/
def tokenlizeAux (del : Char) : List Char → List Char → List String
  | [], token => if token = [] then [] else [String.mk token]
  | c :: cs, token =>
    if c = del then String.mk token :: tokenlizeAux del cs []
    else tokenlizeAux del cs (token ++ [c])

/-- The function `tokenlize(in, del)` of `utils.hpp`. -/
def tokenlize (s : String) (del : Char) : List String :=
  tokenlizeAux del s.data []

/-! ## evaluate_main.cpp -/

def NERNED_CORRECT : Nat := 0
def NERNED_WRONG : Nat := 1
def NERNED_MISMATCH : Nat := 2

/-- The table `flagBitMap`; `operator[]` of `std::unordered_map` yields `0` for
a key that is not in the table. -/
def flagBitMap (key : String) : Nat :=
  if key = "S_fp" then 1 <<< 0
  else if key = "B_fp" then 1 <<< 1
  else if key = "I_fp" then 1 <<< 2
  else if key = "E_fp" then 1 <<< 3
  else if key = "O_fp" then 1 <<< 4
  else if key = "S_fn" then 1 <<< 5
  else if key = "B_fn" then 1 <<< 6
  else if key = "I_fn" then 1 <<< 7
  else if key = "E_fn" then 1 <<< 8
  else if key = "O_fn" then 1 <<< 9
  else 0

/-- The function `getBIOES(word, nextWord, wordFields, nextWordFields)`; the two
vectors are scratch space that no caller reads afterwards. -/
def getBIOES (word nextWord : String) : String :=
  let wordFields := tokenlize word '\\'
  let BIOES := if wordFields.length < 3 then "O" else wordFields.getD 2 ""
  let nextWordFields := tokenlize nextWord '\\'
  let nextBIOES := if nextWordFields.length < 3 then "O" else nextWordFields.getD 2 ""
  if BIOES = "O" then BIOES
  else if BIOES = "I" then (if nextBIOES = "I" then "I" else "E")
  else (if nextBIOES = "I" then "B" else "S")

/-! ## Values of type `double` -/

/-- The values of type `double` that `evaluate` computes with, all of which are
non-negative.  `fin m b` is the finite value `m * 2^b / 2^1074`: the binary64
numbers are the `fin m b` with `m < 2^53` and `b ≤ 2045`, the smallest positive
one is `fin 1 0 = 2^-1074` and the largest is `fin (2^53 - 1) 2045`.  `inf` is
`+∞` and `nan` is a NaN. -/
inductive Double where
  | fin (m b : Nat)
  | inf
  | nan
deriving DecidableEq, Repr

/-- The position of the highest set bit of `n < 2^(2^i)`, by bisection: with
`k = 2^(i-1)`, when `n` has a set bit at position `k` or above, the answer is
`k` plus the answer for `n >>> k`. -/
def log2Steps : Nat → Nat → Nat
  | 0, _ => 0
  | i + 1, n =>
    if n >>> (1 <<< i) = 0 then log2Steps i n
    else (1 <<< i) + log2Steps i (n >>> (1 <<< i))

/-- The first `j ≥ i` with `n < 2^(2^j)`; the first argument bounds the number
of steps. -/
def log2Level : Nat → Nat → Nat → Nat
  | 0, i, _ => i
  | f + 1, i, n => if n >>> (1 <<< i) = 0 then i else log2Level f (i + 1) n

/-- The position of the highest set bit of `n`, `0` for `n = 0`. -/
def ilog2 (n : Nat) : Nat := log2Steps (log2Level n 0 n) n

/-- The integer nearest to `a / b`, the even one of the two when `a / b` lies
half-way between two integers. -/
def roundEven (a b : Nat) : Nat :=
  let q := a / b
  let r := a % b
  if 2 * r < b then q
  else if b < 2 * r then q + 1
  else if q % 2 = 0 then q else q + 1

/-- The `double` nearest to `n / d / 2^1074` in the rounding mode of the
machine, round to nearest with ties to even: the result is a multiple of `2^b`
over `2^1074`, where `b = 0` below `2^-1021` and the multiplier has 53 bits
above; a result of `2^1024` or more is `+∞`. -/
def Double.round (n d : Nat) : Double :=
  let b := ilog2 (n / d) - 52
  let m := roundEven n (d <<< b)
  let b := if m = 1 <<< 53 then b + 1 else b
  let m := if m = 1 <<< 53 then 1 <<< 52 else m
  if 2045 < b then Double.inf else Double.fin m b

/-- The conversion of an unsigned integer to `double`. -/
def Double.ofNat (n : Nat) : Double := Double.round (n <<< 1074) 1

/-- The sum `x + y` of two values of type `double`. -/
def Double.add : Double → Double → Double
  | Double.nan, _ => Double.nan
  | _, Double.nan => Double.nan
  | Double.inf, _ => Double.inf
  | _, Double.inf => Double.inf
  | Double.fin m1 b1, Double.fin m2 b2 => Double.round ((m1 <<< b1) + (m2 <<< b2)) 1

/-- The product `x * y` of two values of type `double`. -/
def Double.mul : Double → Double → Double
  | Double.nan, _ => Double.nan
  | _, Double.nan => Double.nan
  | Double.inf, Double.inf => Double.inf
  | Double.inf, Double.fin m _ => if m = 0 then Double.nan else Double.inf
  | Double.fin m _, Double.inf => if m = 0 then Double.nan else Double.inf
  | Double.fin m1 b1, Double.fin m2 b2 =>
    Double.round ((m1 <<< b1) * (m2 <<< b2)) (1 <<< 1074)

/-- The quotient `x / y` of two values of type `double`. -/
def Double.div : Double → Double → Double
  | Double.nan, _ => Double.nan
  | _, Double.nan => Double.nan
  | Double.inf, Double.inf => Double.nan
  | Double.inf, Double.fin _ _ => Double.inf
  | Double.fin _ _, Double.inf => Double.fin 0 0
  | Double.fin m1 b1, Double.fin m2 b2 =>
    if m2 = 0 then (if m1 = 0 then Double.nan else Double.inf)
    else Double.round ((m1 <<< b1) <<< 1074) (m2 <<< b2)

/-- The rational number a finite `double` stands for. -/
def Double.value : Double → Option ℚ
  | Double.fin m b => some ((m : ℚ) * 2 ^ b / 2 ^ 1074)
  | _ => none

/-- The function `computeF1(tp, fp, fn)` (lines 65-78).  The arguments are
`uint64_t` values, the sums `tp + fp` and `tp + fn` are formed in `uint64_t`,
and the quotients, the product and the sum are formed in `double`;
`Double.fin (1 <<< 52) 1022` is `1.0` and `Double.fin 0 0` is `0.0`. -/
def computeF1 (tp fp fn : Nat) : Double :=
  if tp = 0 ∧ fp = 0 ∧ fn = 0 then Double.fin (1 <<< 52) 1022
  else if tp = 0 then Double.fin 0 0
  else
    let p := Double.div (Double.ofNat tp) (Double.ofNat ((tp + fp) % 2 ^ 64))
    let r := Double.div (Double.ofNat tp) (Double.ofNat ((tp + fn) % 2 ^ 64))
    Double.div (Double.mul (Double.mul p r) (Double.ofNat 2)) (Double.add p r)

/-- An entity span `std::tuple<int, int, string>`: index of the first token,
index of the last token, identifier. -/
structure Span where
  head : Nat
  tail : Nat
  id : String
deriving DecidableEq, Repr

/-- The expression `s.substr(pos, len)`. -/
def substr (s : String) (pos len : Nat) : String :=
  String.mk ((s.data.drop pos).take len)

/-- The test `id.substr(0, 1) == "Q"`. -/
def inKB (id : String) : Bool :=
  decide (substr id 0 1 = "Q")

/-- The map `statsBIOES`: symbol, then one of `"tp"`, `"fp"`, `"fn"`. -/
abbrev StatsBIOES := String → String → Int

/-- The statement `statsBIOES[sym][key] += 1`. -/
def bump (m : StatsBIOES) (sym key : String) : StatsBIOES :=
  fun a b => if a = sym ∧ b = key then m a b + 1 else m a b

/-- The two `if`s that update one open entity and its span list from the symbol
of token `i` (lines 162-170 for the gold side, 172-180 for the predicted
side). -/
def updateEntity (i : Nat) (BIOES id : String) (entity : Span) (spans : List Span) :
    Span × List Span :=
  let entity := if BIOES = "B" ∨ BIOES = "S" then { entity with head := i, id := id } else entity
  if BIOES = "E" ∨ BIOES = "S" then
    ({ entity with tail := i }, spans ++ [{ entity with tail := i }])
  else (entity, spans)

/-- The variables the token loop of one sentence reads and writes. -/
structure LoopState where
  statsBIOES : StatsBIOES
  flags : Nat
  truthEntity : Span
  algEntity : Span
  truths : List Span
  algs : List Span

/-- The body of the token loop (lines 144-180) at index `i`. The identifier
lookups `tokenlize(word, '\\')[2]` are out of range for a token with fewer than
three fields. -/
def tokenStep (i : Nat) (algWord algNext truthWord truthNext : String) (st : LoopState) :
    Option LoopState :=
  let algBIOES := getBIOES algWord algNext
  let truthBIOES := getBIOES truthWord truthNext
  match (tokenlize algWord '\\')[2]?, (tokenlize truthWord '\\')[2]? with
  | some algId, some truthId =>
    let statsBIOES :=
      if algBIOES = truthBIOES then bump st.statsBIOES algBIOES "tp"
      else bump (bump st.statsBIOES algBIOES "fp") truthBIOES "fn"
    let flags :=
      if algBIOES = truthBIOES then st.flags
      else (st.flags ||| flagBitMap (algBIOES ++ "_fp")) ||| flagBitMap (truthBIOES ++ "_fn")
    let t := updateEntity i truthBIOES truthId st.truthEntity st.truths
    let a := updateEntity i algBIOES algId st.algEntity st.algs
    some { statsBIOES := statsBIOES, flags := flags,
           truthEntity := t.1, algEntity := a.1, truths := t.2, algs := a.2 }
  | _, _ => none

/-- The token loop `for (i = 0; i < algWords.size() - 1; i++)`, run from index
`i` on the words from index `i` on (both sequences end with the dummy tail): it
stops when the current word is the last one. -/
def tokenLoop : Nat → List String → List String → LoopState → Option LoopState
  | i, algWord :: algRest, truthWord :: truthRest, st =>
    match algRest, truthRest with
    | algNext :: _, truthNext :: _ =>
      (tokenStep i algWord algNext truthWord truthNext st).bind
        (tokenLoop (i + 1) algRest truthRest)
    | _, _ => some st
  | _, _, _, st => some st

/-- The variables of the two alignment passes. -/
structure AlignState where
  j : Nat
  macroTp : Nat
  macroFp : Nat
  macroFn : Nat
  debug : Nat
  sentenceCorrect : Bool
deriving DecidableEq, Repr

/-- The loop `while (std::get<1>(spans[j]) < head && j < spans.size() - 1) j++`.
The first argument bounds the number of iterations; `forward` passes
`spans.length - j`, which is `0` exactly when `spans[j]` is out of range. -/
def forwardLoop (spans : List Span) (head : Nat) : Nat → Nat → Option Nat
  | 0, _ => none
  | n + 1, j =>
    match spans[j]? with
    | none => none
    | some s =>
      if s.tail < head ∧ j < spans.length - 1 then forwardLoop spans head n (j + 1)
      else some j

def forward (spans : List Span) (head : Nat) (j : Nat) : Option Nat :=
  forwardLoop spans head (spans.length - j) j

/-- The body of the first pass (lines 187-218) for the predicted span `e`. -/
def fpStep (truths : List Span) (st : AlignState) (e : Span) : Option AlignState :=
  if !inKB e.id then some st
  else if truths.length = 0 then
    some { st with macroFp := st.macroFp + 1, sentenceCorrect := false }
  else
    match forward truths e.head st.j with
    | none => none
    | some j =>
      match truths[j]? with
      | none => none
      | some t =>
        if t.head = e.head ∧ t.tail = e.tail ∧ t.id = e.id then
          some { st with j := j, macroTp := st.macroTp + 1 }
        else if t.head ≤ e.head ∧ t.tail ≥ e.tail ∧ substr t.id 0 1 ≠ "Q" then
          some { st with j := j }
        else
          some { st with j := j, macroFp := st.macroFp + 1, sentenceCorrect := false }

/-- The first pass `for (auto e : algs)`. -/
def fpPass (truths : List Span) : List Span → AlignState → Option AlignState
  | [], st => some st
  | e :: es, st => (fpStep truths st e).bind (fpPass truths es)

/-- The body of the second pass (lines 225-252) for the gold span `e`. -/
def fnStep (algs : List Span) (st : AlignState) (e : Span) : Option AlignState :=
  if !inKB e.id then some st
  else if algs.length = 0 then
    some { st with macroFn := st.macroFn + 1, sentenceCorrect := false }
  else
    match forward algs e.head st.j with
    | none => none
    | some j =>
      match algs[j]? with
      | none => none
      | some a =>
        if a.head = e.head ∧ a.tail = e.tail ∧ a.id = e.id then
          some { st with j := j, debug := st.debug + 1 }
        else
          some { st with j := j, macroFn := st.macroFn + 1, sentenceCorrect := false }

/-- The second pass `for (auto e : truths)`. -/
def fnPass (algs : List Span) : List Span → AlignState → Option AlignState
  | [], st => some st
  | e :: es, st => (fnStep algs st e).bind (fnPass algs es)

/-- Both passes (lines 185-253): `j = 0`, the pass over `algs`, `j = 0` and
`debug = 0`, the pass over `truths`. -/
def align (truths algs : List Span) : Option AlignState :=
  (fpPass truths algs
    { j := 0, macroTp := 0, macroFp := 0, macroFn := 0, debug := 0, sentenceCorrect := true }).bind
    fun st => fnPass algs truths { st with j := 0, debug := 0 }

/-- The code written to the verdict log for a scored sentence (lines 255-261). -/
def verdictCode (al : AlignState) : Nat :=
  if al.sentenceCorrect then NERNED_CORRECT else NERNED_WRONG

/-- The token `"du\\mm\\y"` pushed at the end of both sequences. -/
def dummyTail : String := "du\\mm\\y"

/-- The state in which the token loop of a sentence starts. -/
def initLoop (statsBIOES : StatsBIOES) : LoopState :=
  { statsBIOES := statsBIOES, flags := 0,
    truthEntity := ⟨0, 0, ""⟩, algEntity := ⟨0, 0, ""⟩, truths := [], algs := [] }

/-- Lines 132-181 for a sentence whose sequences have the same length: the
dummy tail is pushed on both and the token loop runs from index `0`. -/
def extract (statsBIOES : StatsBIOES) (truthWords algWords : List String) : Option LoopState :=
  tokenLoop 0 (algWords ++ [dummyTail]) (truthWords ++ [dummyTail]) (initLoop statsBIOES)

/-- Lines 132-253 for one sentence: the token loop, then the two passes. -/
def scoreSentence (statsBIOES : StatsBIOES) (truthWords algWords : List String) :
    Option (LoopState × AlignState) :=
  (extract statsBIOES truthWords algWords).bind fun lp =>
    (align lp.truths lp.algs).bind fun al => some (lp, al)

/-- One input line as `getNextLine` delivers it. -/
structure Record where
  lineIdx : Nat
  linePos : Nat
  truthWords : List String
  algWords : List String

/-- The variables of `evaluate` that live across sentences; `fNerNed` and `fNer`
are the lines written so far: line index, byte offset, code. -/
structure EvalState where
  statsBIOES : StatsBIOES
  num_total : Nat
  num_correct : Nat
  num_wrong : Nat
  num_mismatch : Nat
  microTp : Nat
  microFp : Nat
  microFn : Nat
  macroF1InKB : Double
  fNerNed : List (Nat × Nat × Nat)
  fNer : List (Nat × Nat × Nat)

/-- The state before the first line is read (lines 94-114). -/
def initEval : EvalState :=
  { statsBIOES := fun _ _ => 0, num_total := 0, num_correct := 0, num_wrong := 0,
    num_mismatch := 0, microTp := 0, microFp := 0, microFn := 0,
    macroF1InKB := Double.fin 0 0,
    fNerNed := [], fNer := [] }

/-- The body of the `while (getNextLine(...))` loop (lines 119-267). -/
def evaluateRecord (st : EvalState) (r : Record) : Option EvalState :=
  let st := { st with num_total := st.num_total + 1 }
  if r.algWords.length ≠ r.truthWords.length then
    some { st with
      fNerNed := st.fNerNed ++ [(r.lineIdx, r.linePos, NERNED_MISMATCH)],
      num_mismatch := st.num_mismatch + 1 }
  else
    match scoreSentence st.statsBIOES r.truthWords r.algWords with
    | none => none
    | some (lp, al) =>
      some { statsBIOES := lp.statsBIOES,
             num_total := st.num_total,
             num_correct := if al.sentenceCorrect then st.num_correct + 1 else st.num_correct,
             num_wrong := if al.sentenceCorrect then st.num_wrong else st.num_wrong + 1,
             num_mismatch := st.num_mismatch,
             microTp := st.microTp + al.macroTp,
             microFp := st.microFp + al.macroFp,
             microFn := st.microFn + al.macroFn,
             macroF1InKB :=
               Double.add st.macroF1InKB (computeF1 al.macroTp al.macroFp al.macroFn),
             fNerNed := st.fNerNed ++
               [(r.lineIdx, r.linePos,
                 verdictCode al)],
             fNer := st.fNer ++ [(r.lineIdx, r.linePos, lp.flags)] }

/-- The `while (getNextLine(...))` loop over the lines of the input. -/
def evaluateLoop : List Record → EvalState → Option EvalState
  | [], st => some st
  | r :: rs, st => (evaluateRecord st r).bind (evaluateLoop rs)

/-- Lines 270-271: the micro and the macro F1 written to the report. -/
def finalize (st : EvalState) : Double × Double :=
  (computeF1 st.microTp st.microFp st.microFn,
   Double.div st.macroF1InKB (Double.ofNat (st.num_total - st.num_mismatch)))

/-! ## Notions used to state the properties -/

/-- The marker of a token: its third backslash-separated field, `"O"` when the
token has fewer than three fields. -/
def markerOf (word : String) : String :=
  ((tokenlize word '\\')[2]?).getD "O"

/-- The token has a marker field: at least three backslash-separated fields. -/
def hasMarker (word : String) : Prop :=
  3 ≤ (tokenlize word '\\').length

instance (word : String) : Decidable (hasMarker word) := by
  unfold hasMarker; infer_instance

/-- The number of spans of a list whose identifier starts with `Q`. -/
def countInKB (spans : List Span) : Nat :=
  (spans.filter fun e => inKB e.id).length

/-- The span `t` contains the span `e`. -/
def contains (t e : Span) : Prop :=
  t.head ≤ e.head ∧ e.tail ≤ t.tail

instance (t e : Span) : Decidable (contains t e) := by
  unfold contains; infer_instance

/-- Some gold span without the `Q` prefix contains the span `e`: the condition
of the out-of-KB branch of the first pass (lines 211-214), searched in the whole
gold list. -/
def carvedOut (truths : List Span) (e : Span) : Prop :=
  ∃ t ∈ truths, inKB t.id = false ∧ contains t e

instance (truths : List Span) (e : Span) : Decidable (carvedOut truths e) := by
  unfold carvedOut; infer_instance

/-- The symbol `getBIOES` derives from the marker `m` of a token and the
marker `n` of its successor. -/
def decodeMarker (m n : String) : String :=
  if m = "O" then "O"
  else if m = "I" then (if n = "I" then "I" else "E")
  else (if n = "I" then "B" else "S")

/-- Every `I` marker of the list directly follows a marker that is not `O`, where
`prev` is the marker before the first one of the list. -/
def consistentFrom (prev : String) : List String → Bool
  | [] => true
  | m :: ms => (!decide (m = "I") || !decide (prev = "O")) && consistentFrom m ms

/-- Every `I`-marked token of the sentence is directly preceded by a token whose
marker is not `O`; the first token has no predecessor, so it is not `I`-marked. -/
def Consistent (markers : List String) : Prop :=
  consistentFrom "O" markers = true

instance (markers : List String) : Decidable (Consistent markers) := by
  unfold Consistent; infer_instance

/-- The maximal entity runs of a marker sequence whose first marker has index
`i`: one span per marker that is neither `O` nor `I`, from its index to the index
of the last of the `I` markers that directly follow it, with that marker as
identifier. -/
def entityRuns (i : Nat) : List String → List Span
  | [] => []
  | m :: ms =>
    if m = "O" ∨ m = "I" then entityRuns (i + 1) ms
    else ⟨i, i + (ms.takeWhile fun x => decide (x = "I")).length, m⟩ :: entityRuns (i + 1) ms

/-- The spans one side of the token loop pushes from index `i` on, as a function
of the markers from index `i` on and of the open entity; the successor of the
last marker is the marker `y` of the dummy tail. -/
def emitted : Nat → List String → Span → List Span
  | _, [], _ => []
  | i, m :: ms, entity =>
    (updateEntity i (decodeMarker m (ms.headD "y")) m entity []).2 ++
      emitted (i + 1) ms (updateEntity i (decodeMarker m (ms.headD "y")) m entity []).1

/-- A span list is ordered: every span has `head ≤ tail` and starts after the
span before it ends. -/
def Ordered (spans : List Span) : Prop :=
  List.Chain' (fun a b : Span => a.tail < b.head) spans ∧ ∀ s ∈ spans, s.head ≤ s.tail

/-- Some span of the list equals `e` in start index, end index and identifier. -/
def matched (spans : List Span) (e : Span) : Prop :=
  ∃ t ∈ spans, t.head = e.head ∧ t.tail = e.tail ∧ t.id = e.id

instance (spans : List Span) (e : Span) : Decidable (matched spans e) := by
  unfold matched; infer_instance

/-- Full reconciliation, true positives: the predicted in-KB spans equal to some
gold span. -/
def tpFull (algs truths : List Span) : Nat :=
  algs.countP fun e => inKB e.id && decide (matched truths e)

/-- Full reconciliation, false negatives: the gold in-KB spans equal to no
predicted span. -/
def fnFull (algs truths : List Span) : Nat :=
  truths.countP fun e => inKB e.id && !decide (matched algs e)

/-- Full reconciliation, false positives: the predicted in-KB spans that equal
no gold span and are not contained in a gold span without the `Q` prefix. -/
def fpFull (algs truths : List Span) : Nat :=
  algs.countP fun e => inKB e.id && !decide (matched truths e) && !decide (carvedOut truths e)

/-- Every span before position `j` ends before `h`. -/
def Behind (spans : List Span) (j h : Nat) : Prop :=
  ∀ s ∈ spans.take j, s.tail < h

/-- The symbols the token loop derives for the tokens of one side: the symbol of
token `k` is `getBIOES(words[k], words[k+1])`, where the successor of the last
token is the dummy tail.  The dummy tail itself gets no symbol. -/
def decoded : List String → List String
  | [] => []
  | w :: ws => getBIOES w (ws.headD dummyTail) :: decoded ws

/-- The symbol and the marker of every token of one side, in order. -/
def symbolPairs : List String → List (String × String)
  | [] => []
  | w :: ws => (getBIOES w (ws.headD dummyTail), markerOf w) :: symbolPairs ws

/-- One side of the token loop (lines 162-170 or 172-180 over all tokens) as a
function of the symbols and identifiers of the tokens from index `i` on: the
open entity and the span list after the last token. -/
def runSide : Nat → List (String × String) → Span × List Span → Span × List Span
  | _, [], p => p
  | i, (b, id) :: rest, p => runSide (i + 1) rest (updateEntity i b id p.1 p.2)

/-- Every `B` of the symbol list is followed by an `E` or an `S`: no span is
open after the last symbol. -/
def NoOpen (syms : List String) : Prop :=
  ∀ k : Nat, syms[k]? = some "B" →
    ∃ k' : Nat, k < k' ∧ (syms[k']? = some "E" ∨ syms[k']? = some "S")

/-- Token `i` decodes to `E` while no span is open: every `B` before `i` is
followed, before `i`, by an `E` or an `S`. -/
def DanglingEnd (syms : List String) (i : Nat) : Prop :=
  syms[i]? = some "E" ∧
  ∀ k < i, syms[k]? = some "B" → ∃ k' < i, k < k' ∧ (syms[k']? = some "E" ∨ syms[k']? = some "S")

instance (syms : List String) (i : Nat) : Decidable (DanglingEnd syms i) := by
  unfold DanglingEnd; infer_instance

/-- The span pushed last before token `i`: the last span of the list that ends
before `i`, and the initial value `(0, 0, "")` of the entity variable when there
is none. -/
def lastBefore (spans : List Span) (i : Nat) : Span :=
  ((spans.filter fun s => decide (s.tail < i)).getLast?).getD ⟨0, 0, ""⟩

/-- Lines 152-159 over the tokens of a sentence, flags: every pair is the
predicted and the gold symbol of one token. -/
def flagsFold (flags : Nat) : List (String × String) → Nat
  | [] => flags
  | (a, t) :: rest =>
    flagsFold
      (if a = t then flags
       else (flags ||| flagBitMap (a ++ "_fp")) ||| flagBitMap (t ++ "_fn")) rest

/-- Lines 152-159 over the tokens of a sentence, counters: every pair is the
predicted and the gold symbol of one token. -/
def statsFold (m : StatsBIOES) : List (String × String) → StatsBIOES
  | [] => m
  | (a, t) :: rest =>
    statsFold (if a = t then bump m a "tp" else bump (bump m a "fp") t "fn") rest

/-- The five symbols. -/
def symbolsBIOES : List String := ["S", "B", "I", "E", "O"]

/-- The ten keys of `flagBitMap`. -/
def flagKeys : List String :=
  ["S_fp", "B_fp", "I_fp", "E_fp", "O_fp", "S_fn", "B_fn", "I_fn", "E_fn", "O_fn"]

/-- The position of the bit `flagBitMap[sym + "_fp"]` for the five symbols. -/
def fpBit (sym : String) : Nat :=
  if sym = "S" then 0 else if sym = "B" then 1 else if sym = "I" then 2
  else if sym = "E" then 3 else 4

/-- The position of the bit `flagBitMap[sym + "_fn"]` for the five symbols. -/
def fnBit (sym : String) : Nat :=
  if sym = "S" then 5 else if sym = "B" then 6 else if sym = "I" then 7
  else if sym = "E" then 8 else 9

/-- The record is scored: its gold and predicted token counts are equal. -/
def isScored (r : Record) : Bool :=
  decide (r.algWords.length = r.truthWords.length)

/-- The scored records of an input, in order. -/
def scoredRecords (rs : List Record) : List Record :=
  rs.filter isScored

/-- The counts `(tp, fp, fn)` of the two passes on the sentence of a record. -/
def countsOf (r : Record) : Nat × Nat × Nat :=
  ((scoreSentence (fun _ _ => 0) r.truthWords r.algWords).map
    fun p => (p.2.macroTp, p.2.macroFp, p.2.macroFn)).getD (0, 0, 0)

/-- The left-to-right sum in `double` of a list of values, from `0.0`. -/
def sumDouble (xs : List Double) : Double := xs.foldl Double.add (Double.fin 0 0)

/-- The rationals `k * 2^b` with `k ≤ 2^53`: the numerators over `2^1074` of the
numbers with at most 53 significant bits that are multiples of `2^-1074`. -/
def OnGrid (g : ℚ) : Prop := ∃ k b : Nat, k ≤ 2 ^ 53 ∧ g = (k : ℚ) * 2 ^ b

/-- The rationals `k * 2^b / 2^1074` with `k ≤ 2^53`: the values of the finite
numbers of type `double` and their continuation above the largest one. -/
def Representable (x : ℚ) : Prop :=
  ∃ k b : Nat, k ≤ 2 ^ 53 ∧ x = (k : ℚ) * 2 ^ b / 2 ^ 1074

/-- The rational `v` is representable and no representable number is nearer to `x`. -/
def Nearest (v x : ℚ) : Prop :=
  Representable v ∧ ∀ g, Representable g → |v - x| ≤ |g - x|

/-- The rational `v` lies between `lo * x` and `hi * x`. -/
def Within (lo hi v x : ℚ) : Prop := lo * x ≤ v ∧ v ≤ hi * x

/-- Precision `tp / (tp + fp)`. -/
def precisionOf (tp fp : Nat) : ℚ := (tp : ℚ) / ((tp : ℚ) + (fp : ℚ))

/-- Recall `tp / (tp + fn)`. -/
def recallOf (tp fn : Nat) : ℚ := (tp : ℚ) / ((tp : ℚ) + (fn : ℚ))

/-- The harmonic mean of two rationals. -/
def harmonicMean (p r : ℚ) : ℚ := 2 / (p⁻¹ + r⁻¹)

/-! ## Rounding to `double` -/

theorem log2Steps_spec : ∀ (i n : Nat), 0 < n → n < 2 ^ 2 ^ i →
    2 ^ log2Steps i n ≤ n ∧ n < 2 ^ (log2Steps i n + 1) := by
  intro i
  induction i with
  | zero =>
    intro n h1 h2
    have : n = 1 := by
      have : n < 2 := by simpa using h2
      omega
    subst this
    simp [log2Steps]
  | succ i ih =>
    intro n h1 h2
    have hP : 0 < 2 ^ 2 ^ i := Nat.two_pow_pos _
    have hsq : 2 ^ 2 ^ (i + 1) = 2 ^ 2 ^ i * 2 ^ 2 ^ i := by
      rw [← pow_add, pow_succ]; congr 1; omega
    simp only [log2Steps, Nat.shiftLeft_eq, one_mul, Nat.shiftRight_eq_div_pow]
    split_ifs with h
    · have hlt : n < 2 ^ 2 ^ i := by
        by_contra hc
        have := Nat.div_pos (Nat.le_of_not_lt hc) hP
        omega
      exact ih n h1 hlt
    · have hpos : 0 < n / 2 ^ 2 ^ i := Nat.pos_of_ne_zero h
      have hlt : n / 2 ^ 2 ^ i < 2 ^ 2 ^ i := by
        apply Nat.div_lt_of_lt_mul
        rw [← hsq]; exact h2
      obtain ⟨a, b⟩ := ih (n / 2 ^ 2 ^ i) hpos hlt
      constructor
      · calc 2 ^ (2 ^ i + log2Steps i (n / 2 ^ 2 ^ i))
            = 2 ^ 2 ^ i * 2 ^ log2Steps i (n / 2 ^ 2 ^ i) := pow_add _ _ _
          _ ≤ 2 ^ 2 ^ i * (n / 2 ^ 2 ^ i) := Nat.mul_le_mul_left _ a
          _ ≤ n := Nat.mul_div_le n _
      · calc n < 2 ^ 2 ^ i * (n / 2 ^ 2 ^ i + 1) := Nat.lt_mul_div_succ n hP
          _ ≤ 2 ^ 2 ^ i * 2 ^ (log2Steps i (n / 2 ^ 2 ^ i) + 1) :=
              Nat.mul_le_mul_left _ b
          _ = 2 ^ (2 ^ i + log2Steps i (n / 2 ^ 2 ^ i) + 1) := by
              rw [← pow_add]; congr 1

theorem log2Level_spec : ∀ (f i n : Nat), n < 2 ^ 2 ^ (i + f) →
    n < 2 ^ 2 ^ log2Level f i n := by
  intro f
  induction f with
  | zero => intro i n h; simpa [log2Level] using h
  | succ f ih =>
    intro i n h
    simp only [log2Level, Nat.shiftLeft_eq, one_mul, Nat.shiftRight_eq_div_pow]
    split_ifs with c
    · by_contra hc
      have := Nat.div_pos (Nat.le_of_not_lt hc) (Nat.two_pow_pos (2 ^ i))
      omega
    · apply ih
      have : i + 1 + f = i + (f + 1) := by omega
      rw [this]; exact h

/-- The value `ilog2 n` is the position of the highest set bit of a positive `n`. -/
theorem ilog2_spec (n : Nat) (h : 0 < n) : 2 ^ ilog2 n ≤ n ∧ n < 2 ^ (ilog2 n + 1) := by
  apply log2Steps_spec _ n h
  apply log2Level_spec
  rw [Nat.zero_add]
  calc n < 2 ^ n := Nat.lt_two_pow n
    _ ≤ 2 ^ 2 ^ n := Nat.pow_le_pow_right (by norm_num) (Nat.lt_two_pow n).le

theorem ilog2_zero : ilog2 0 = 0 := by decide

theorem nearest_of_cases (q : Nat) (ρ k : ℚ) (h0 : 0 ≤ ρ) (h1 : ρ < 1)
    (hk : (k = q ∧ ρ ≤ 1 / 2) ∨ (k = q + 1 ∧ 1 / 2 ≤ ρ)) :
    |k - (q + ρ)| ≤ 1 / 2 ∧ ∀ g : Nat, |k - (q + ρ)| ≤ |(g : ℚ) - (q + ρ)| := by
  have hg : ∀ g : Nat, ρ ≤ |(g : ℚ) - (q + ρ)| ∨ 1 - ρ ≤ |(g : ℚ) - (q + ρ)| := by
    intro g
    rcases Nat.lt_or_ge q g with h | h
    · right
      have h' : (q : ℚ) + 1 ≤ g := by exact_mod_cast h
      have : (0 : ℚ) ≤ (g : ℚ) - (q + ρ) := by linarith
      rw [abs_of_nonneg this]; linarith
    · left
      have h' : (g : ℚ) ≤ q := by exact_mod_cast h
      have : (g : ℚ) - (q + ρ) ≤ 0 := by linarith
      rw [abs_of_nonpos this]; linarith
  rcases hk with ⟨rfl, h2⟩ | ⟨rfl, h2⟩
  · have e : |(q : ℚ) - (q + ρ)| = ρ := by
      have : (q : ℚ) - (q + ρ) ≤ 0 := by linarith
      rw [abs_of_nonpos this]; ring
    rw [e]
    refine ⟨h2, fun g => ?_⟩
    rcases hg g with h | h <;> linarith
  · have e : |(q : ℚ) + 1 - (q + ρ)| = 1 - ρ := by
      have : (0 : ℚ) ≤ (q : ℚ) + 1 - (q + ρ) := by linarith
      rw [abs_of_nonneg this]; ring
    rw [e]
    refine ⟨by linarith, fun g => ?_⟩
    rcases hg g with h | h <;> linarith

/-- The value `roundEven a b` is an integer nearest to `a / b`: it is at most `1/2`
away, and no integer is nearer. -/
theorem roundEven_spec (a b : Nat) (hb : 0 < b) :
    |(roundEven a b : ℚ) - (a : ℚ) / b| ≤ 1 / 2 ∧
    ∀ g : Nat, |(roundEven a b : ℚ) - (a : ℚ) / b| ≤ |(g : ℚ) - (a : ℚ) / b| := by
  have hbq : (0 : ℚ) < b := by exact_mod_cast hb
  have hdm : (a : ℚ) = (b : ℚ) * (a / b : Nat) + (a % b : Nat) := by
    exact_mod_cast (Nat.div_add_mod a b).symm
  have hr : ((a % b : Nat) : ℚ) < b := by exact_mod_cast Nat.mod_lt a hb
  have hy : (a : ℚ) / b = ((a / b : Nat) : ℚ) + ((a % b : Nat) : ℚ) / b := by
    rw [div_eq_iff hbq.ne', add_mul, div_mul_cancel₀ _ hbq.ne']
    linarith
  rw [hy]
  have h0 : (0 : ℚ) ≤ ((a % b : Nat) : ℚ) / b := by positivity
  have h1 : ((a % b : Nat) : ℚ) / b < 1 := (div_lt_one hbq).mpr hr
  apply nearest_of_cases _ _ _ h0 h1
  unfold roundEven
  simp only
  split_ifs with c1 c2 c3
  · left
    refine ⟨rfl, ?_⟩
    rw [div_le_iff₀ hbq]
    have : (2 : ℚ) * ((a % b : Nat) : ℚ) < b := by exact_mod_cast c1
    linarith
  · right
    refine ⟨by push_cast; ring, ?_⟩
    rw [le_div_iff₀ hbq]
    have : (b : ℚ) < 2 * ((a % b : Nat) : ℚ) := by exact_mod_cast c2
    linarith
  · left
    refine ⟨rfl, ?_⟩
    rw [div_le_iff₀ hbq]
    have : (2 : ℚ) * ((a % b : Nat) : ℚ) ≤ b := by exact_mod_cast (Nat.le_of_not_lt c2)
    linarith
  · right
    refine ⟨by push_cast; ring, ?_⟩
    rw [le_div_iff₀ hbq]
    have : (b : ℚ) ≤ 2 * ((a % b : Nat) : ℚ) := by exact_mod_cast (Nat.le_of_not_lt c1)
    linarith

theorem cast_two_pow (j : Nat) : ((2 ^ j : Nat) : ℚ) = (2 : ℚ) ^ j := by
  push_cast; rfl

theorem div_cast_bounds (n d : Nat) (hd : 0 < d) :
    ((n / d : Nat) : ℚ) ≤ (n : ℚ) / d ∧ (n : ℚ) / d < ((n / d : Nat) : ℚ) + 1 := by
  have hdq : (0 : ℚ) < d := by exact_mod_cast hd
  have hdm : (n : ℚ) = (d : ℚ) * (n / d : Nat) + (n % d : Nat) := by
    exact_mod_cast (Nat.div_add_mod n d).symm
  have hr : ((n % d : Nat) : ℚ) < d := by exact_mod_cast Nat.mod_lt n hd
  have hr0 : (0 : ℚ) ≤ ((n % d : Nat) : ℚ) := by positivity
  constructor
  · rw [le_div_iff₀ hdq]; nlinarith
  · rw [div_lt_iff₀ hdq]; nlinarith

theorem round_core (n d : Nat) (hd : 0 < d) :
    (n : ℚ) / d < 2 ^ (ilog2 (n / d) - 52 + 53) ∧
    (0 < ilog2 (n / d) - 52 → (2 : ℚ) ^ (ilog2 (n / d) - 52 + 52) ≤ (n : ℚ) / d) ∧
    |(roundEven n (d * 2 ^ (ilog2 (n / d) - 52)) : ℚ) * 2 ^ (ilog2 (n / d) - 52) - (n : ℚ) / d|
      ≤ 2 ^ (ilog2 (n / d) - 52) / 2 ∧
    (∀ g, OnGrid g →
      |(roundEven n (d * 2 ^ (ilog2 (n / d) - 52)) : ℚ) * 2 ^ (ilog2 (n / d) - 52) - (n : ℚ) / d|
        ≤ |g - (n : ℚ) / d|) := by
  obtain ⟨hq1, hq2⟩ := div_cast_bounds n d hd
  set y : ℚ := (n : ℚ) / d with hy
  set q0 := n / d with hq0
  set b0 := ilog2 q0 - 52 with hb0
  have hdq : (0 : ℚ) < d := by exact_mod_cast hd
  have hpow : (0 : ℚ) < 2 ^ b0 := by positivity
  -- bounds
  have hup : y < 2 ^ (b0 + 53) := by
    rcases Nat.eq_zero_or_pos q0 with h0 | hpos
    · rw [h0] at hq2
      have : (1 : ℚ) ≤ 2 ^ (b0 + 53) := one_le_pow₀ (by norm_num)
      simp only [Nat.cast_zero, zero_add] at hq2
      linarith
    · have h1 := (ilog2_spec q0 hpos).2
      have h2 : 2 ^ (ilog2 q0 + 1) ≤ 2 ^ (b0 + 53) :=
        Nat.pow_le_pow_right (by norm_num) (by omega)
      have h3 : q0 + 1 ≤ 2 ^ (b0 + 53) := by omega
      have h4 : ((q0 : ℚ) + 1) ≤ 2 ^ (b0 + 53) := by exact_mod_cast h3
      linarith
  have hlo : 0 < b0 → (2 : ℚ) ^ (b0 + 52) ≤ y := by
    intro hb
    have hpos : 0 < q0 := by
      rcases Nat.eq_zero_or_pos q0 with h0 | hpos
      · rw [h0, ilog2_zero] at hb0; omega
      · exact hpos
    have h1 := (ilog2_spec q0 hpos).1
    have h2 : b0 + 52 = ilog2 q0 := by omega
    rw [h2]
    have h4 : ((2 : ℚ) ^ ilog2 q0) ≤ q0 := by exact_mod_cast h1
    linarith
  -- the scaled nearest-integer property
  have hbpos : 0 < d * 2 ^ b0 := Nat.mul_pos hd (Nat.two_pow_pos b0)
  obtain ⟨r1, r2⟩ := roundEven_spec n (d * 2 ^ b0) hbpos
  set k := roundEven n (d * 2 ^ b0) with hk
  have hz : (n : ℚ) / ((d * 2 ^ b0 : Nat) : ℚ) = y / 2 ^ b0 := by
    rw [hy]; push_cast; rw [div_div]
  rw [hz] at r1 r2
  have scale : ∀ x : ℚ, |x * 2 ^ b0 - y| = 2 ^ b0 * |x - y / 2 ^ b0| := by
    intro x
    have : x * 2 ^ b0 - y = 2 ^ b0 * (x - y / 2 ^ b0) := by field_simp
    rw [this, abs_mul, abs_of_pos hpow]
  have near : ∀ G : Nat, |(k : ℚ) * 2 ^ b0 - y| ≤ |(G : ℚ) * 2 ^ b0 - y| := by
    intro G
    rw [scale, scale]
    exact mul_le_mul_of_nonneg_left (r2 G) hpow.le
  refine ⟨hup, hlo, ?_, ?_⟩
  · rw [scale]
    calc 2 ^ b0 * |(k : ℚ) - y / 2 ^ b0| ≤ 2 ^ b0 * (1 / 2) :=
          mul_le_mul_of_nonneg_left r1 hpow.le
      _ = 2 ^ b0 / 2 := by ring
  · rintro g ⟨k', b', hk', rfl⟩
    rcases Nat.lt_or_ge b' b0 with hlt | hge
    · have hb : 0 < b0 := by omega
      have h1 := hlo hb
      have h2 : ((k' : ℚ)) * 2 ^ b' ≤ 2 ^ (b0 + 52) := by
        have e1 : (k' : ℚ) ≤ 2 ^ 53 := by exact_mod_cast hk'
        have e2 : (2 : ℚ) ^ 53 * 2 ^ b' ≤ 2 ^ (b0 + 52) := by
          rw [← pow_add]
          exact pow_le_pow_right₀ (by norm_num) (by omega)
        have e3 : (k' : ℚ) * 2 ^ b' ≤ 2 ^ 53 * 2 ^ b' :=
          mul_le_mul_of_nonneg_right e1 (by positivity)
        linarith
      have h3 := near (2 ^ 52)
      have h4 : ((2 ^ 52 : Nat) : ℚ) * 2 ^ b0 = 2 ^ (b0 + 52) := by
        rw [cast_two_pow, ← pow_add, Nat.add_comm]
      rw [h4] at h3
      have h5 : |(2 : ℚ) ^ (b0 + 52) - y| = y - 2 ^ (b0 + 52) := by
        rw [abs_of_nonpos (by linarith)]; ring
      have h6 : |(k' : ℚ) * 2 ^ b' - y| = y - (k' : ℚ) * 2 ^ b' := by
        rw [abs_of_nonpos (by linarith)]; ring
      rw [h6]; rw [h5] at h3; linarith
    · have h3 := near (k' * 2 ^ (b' - b0))
      have h4 : ((k' * 2 ^ (b' - b0) : Nat) : ℚ) * 2 ^ b0 = (k' : ℚ) * 2 ^ b' := by
        push_cast; rw [mul_assoc, ← pow_add]; congr 2; omega
      rw [h4] at h3
      exact h3

theorem onGrid_pow (j : Nat) : OnGrid ((2 : ℚ) ^ j) :=
  ⟨1, j, Nat.one_le_two_pow, by simp⟩

/-- Rounding of `n / d` below `2^2097`: the result is finite, `m * 2^b` with
`m < 2^53` and `b ≤ 2045`, no number of the grid is nearer to `n / d`, and from
`2^52` on the error is at most the `2^-53`-th part of `n / d`. -/
theorem round_spec (n d : Nat) (hd : 0 < d) (hlt : (n : ℚ) / d < 2 ^ 2097) :
    ∃ m b : Nat, Double.round n d = Double.fin m b ∧ m < 2 ^ 53 ∧ b ≤ 2045 ∧
      (∀ g, OnGrid g → |(m : ℚ) * 2 ^ b - (n : ℚ) / d| ≤ |g - (n : ℚ) / d|) ∧
      ((2 : ℚ) ^ 52 ≤ (n : ℚ) / d →
        |(m : ℚ) * 2 ^ b - (n : ℚ) / d| ≤ (n : ℚ) / d / 2 ^ 53) := by
  obtain ⟨c1, c2, c3, c4⟩ := round_core n d hd
  set y : ℚ := (n : ℚ) / d with hy
  set b0 := ilog2 (n / d) - 52 with hb0
  set k := roundEven n (d * 2 ^ b0) with hk
  have hy0 : 0 ≤ y := div_nonneg (Nat.cast_nonneg _) (Nat.cast_nonneg _)
  have hb0le : b0 ≤ 2044 := by
    by_contra hc
    have hb : 0 < b0 := by omega
    have h1 := c2 hb
    have h2 : (2 : ℚ) ^ 2097 ≤ 2 ^ (b0 + 52) :=
      pow_le_pow_right₀ (by norm_num) (by omega)
    exact absurd (lt_of_le_of_lt (le_trans h2 h1) hlt) (lt_irrefl _)
  have hk53 : k ≤ 2 ^ 53 := by
    by_contra hc
    have h1 : 2 ^ 53 + 1 ≤ k := by omega
    have h2 : ((2 : ℚ) ^ 53 + 1) ≤ k := by exact_mod_cast h1
    have h3 := c4 _ ⟨2 ^ 53, b0, Nat.le_refl _, rfl⟩
    have hp : (0 : ℚ) < 2 ^ b0 := by positivity
    have h4 : y < ((2 ^ 53 : Nat) : ℚ) * 2 ^ b0 := by
      rw [cast_two_pow, ← pow_add]
      have : b0 + 53 = 53 + b0 := by omega
      rw [← this]; exact c1
    have h5 : ((2 ^ 53 : Nat) : ℚ) * 2 ^ b0 < (k : ℚ) * 2 ^ b0 := by
      apply mul_lt_mul_of_pos_right _ hp
      rw [cast_two_pow]; linarith
    rw [abs_of_pos (by linarith), abs_of_pos (by linarith)] at h3
    linarith
  have hrel : (2 : ℚ) ^ 52 ≤ y → |(k : ℚ) * 2 ^ b0 - y| ≤ y / 2 ^ 53 := by
    intro hn
    refine le_trans c3 ?_
    rw [le_div_iff₀ (by positivity)]
    rcases Nat.eq_zero_or_pos b0 with h0 | hpos
    · rw [h0]; norm_num; linarith
    · have h1 := c2 hpos
      have e : (2 : ℚ) ^ b0 / 2 * 2 ^ 53 = 2 ^ (b0 + 52) := by
        rw [pow_add]; norm_num; ring
      rw [e]; exact h1
  have hround : Double.round n d =
      if 2045 < (if k = 2 ^ 53 then b0 + 1 else b0) then Double.inf
      else Double.fin (if k = 2 ^ 53 then 2 ^ 52 else k) (if k = 2 ^ 53 then b0 + 1 else b0) := by
    simp only [Double.round, Nat.shiftLeft_eq, one_mul, hk, hb0]
  rw [hround]
  by_cases hkk : k = 2 ^ 53
  · simp only [hkk, if_true]
    have hnot : ¬ (2045 < b0 + 1) := by omega
    simp only [hnot, if_false]
    refine ⟨2 ^ 52, b0 + 1, rfl, by norm_num, by omega, ?_, ?_⟩
    · have e : ((2 ^ 52 : Nat) : ℚ) * 2 ^ (b0 + 1) = (k : ℚ) * 2 ^ b0 := by
        rw [hkk]; push_cast; rw [pow_succ]; ring
      rw [e]; exact c4
    · have e : ((2 ^ 52 : Nat) : ℚ) * 2 ^ (b0 + 1) = (k : ℚ) * 2 ^ b0 := by
        rw [hkk]; push_cast; rw [pow_succ]; ring
      rw [e]; exact hrel
  · simp only [hkk, if_false]
    have hnot : ¬ (2045 < b0) := by omega
    simp only [hnot, if_false]
    exact ⟨k, b0, rfl, by omega, by omega, c4, hrel⟩

theorem representable_iff (x : ℚ) : Representable x ↔ OnGrid (x * 2 ^ 1074) := by
  have hS : (0 : ℚ) < 2 ^ 1074 := by positivity
  constructor
  · rintro ⟨k, b, hk, rfl⟩
    exact ⟨k, b, hk, by rw [div_mul_cancel₀ _ hS.ne']⟩
  · rintro ⟨k, b, hk, h⟩
    exact ⟨k, b, hk, by rw [← h, mul_div_cancel_right₀ _ hS.ne']⟩

/-- Rounding in terms of values: when `n / d / 2^1074 = x` is below `2^1023`, the
result is finite, its value is a representable number nearest to `x`, and for
`x` in the normal range the error is at most the `2^-53`-th part of `x`. -/
theorem round_value (n d : Nat) (x : ℚ) (hd : 0 < d)
    (hx : (n : ℚ) / d = x * 2 ^ 1074) (hlt : x < 2 ^ 1023) :
    ∃ v, (Double.round n d).value = some v ∧ Nearest v x ∧
      (1 / 2 ^ 1022 ≤ x → |v - x| ≤ x / 2 ^ 53) := by
  have hS : (0 : ℚ) < 2 ^ 1074 := by positivity
  have hsum : (1023 + 1074 : Nat) = 2097 := rfl
  have hy : (n : ℚ) / d < 2 ^ 2097 := by
    rw [hx, ← hsum, pow_add]
    exact mul_lt_mul_of_pos_right hlt hS
  obtain ⟨m, b, e1, _, _, e4, e5⟩ := round_spec n d hd hy
  rw [hx] at e4 e5
  have conv : ∀ w : ℚ, |w / 2 ^ 1074 - x| = |w - x * 2 ^ 1074| / 2 ^ 1074 := by
    intro w
    have : w / 2 ^ 1074 - x = (w - x * 2 ^ 1074) / 2 ^ 1074 := by
      rw [sub_div, mul_div_cancel_right₀ _ hS.ne']
    rw [this, abs_div, abs_of_pos hS]
  refine ⟨(m : ℚ) * 2 ^ b / 2 ^ 1074, by rw [e1]; rfl, ⟨⟨m, b, by omega, rfl⟩, ?_⟩, ?_⟩
  · rintro g ⟨k, b', hk, rfl⟩
    rw [conv, conv]
    exact div_le_div_of_nonneg_right (e4 _ ⟨k, b', hk, rfl⟩) hS.le
  · intro hn
    have h52 : (52 + 1022 : Nat) = 1074 := rfl
    have hn' : (2 : ℚ) ^ 52 ≤ x * 2 ^ 1074 := by
      rw [← h52, pow_add]
      have hp : (0 : ℚ) < 2 ^ 1022 := by positivity
      have : 1 ≤ x * 2 ^ 1022 := by
        rw [div_le_iff₀ hp] at hn; exact hn
      calc (2 : ℚ) ^ 52 = 2 ^ 52 * 1 := by ring
        _ ≤ 2 ^ 52 * (x * 2 ^ 1022) := mul_le_mul_of_nonneg_left this (by positivity)
        _ = x * (2 ^ 52 * 2 ^ 1022) := by ring
    rw [conv]
    have := e5 hn'
    calc |(m : ℚ) * 2 ^ b - x * 2 ^ 1074| / 2 ^ 1074
        ≤ (x * 2 ^ 1074 / 2 ^ 53) / 2 ^ 1074 := div_le_div_of_nonneg_right this hS.le
      _ = x / 2 ^ 53 := by
          rw [div_div, mul_comm ((2 : ℚ) ^ 53), ← div_div, mul_div_cancel_right₀ _ hS.ne']

theorem value_eq_some {a : Double} {x : ℚ} (h : a.value = some x) :
    ∃ m b : Nat, a = Double.fin m b ∧ (m : ℚ) * 2 ^ b = x * 2 ^ 1074 := by
  have hS : (0 : ℚ) < 2 ^ 1074 := by positivity
  cases a with
  | fin m b =>
    simp only [Double.value, Option.some.injEq] at h
    exact ⟨m, b, rfl, by rw [← h, div_mul_cancel₀ _ hS.ne']⟩
  | inf => simp only [Double.value] at h; cases h
  | nan => simp only [Double.value] at h; cases h

theorem Representable.nonneg {x : ℚ} (h : Representable x) : 0 ≤ x := by
  obtain ⟨k, b, _, rfl⟩ := h
  positivity

theorem value_nonneg {a : Double} {x : ℚ} (h : a.value = some x) : 0 ≤ x := by
  obtain ⟨m, b, _, e⟩ := value_eq_some h
  have hS : (0 : ℚ) < 2 ^ 1074 := by positivity
  have : 0 ≤ x * 2 ^ 1074 := by
    rw [← e]; exact mul_nonneg (Nat.cast_nonneg _) (pow_nonneg (by norm_num) _)
  exact nonneg_of_mul_nonneg_left this hS

theorem representable_nat (n : Nat) (h : n ≤ 2 ^ 53) : Representable (n : ℚ) :=
  ⟨n, 1074, h, by rw [mul_div_assoc, div_self (by positivity), mul_one]⟩

theorem representable_two_pow (j : Nat) : Representable ((2 : ℚ) ^ j) :=
  ⟨1, j + 1074, Nat.one_le_two_pow, by
    rw [Nat.cast_one, one_mul, pow_add, mul_div_assoc, div_self (by positivity), mul_one]⟩

theorem representable_inv_two_pow (j : Nat) (h : j ≤ 1074) :
    Representable (1 / (2 : ℚ) ^ j) :=
  ⟨1, 1074 - j, Nat.one_le_two_pow, by
    rw [Nat.cast_one, one_mul, div_eq_div_iff (by positivity) (by positivity), one_mul,
      ← pow_add]
    congr 1; omega⟩

theorem Representable.two_mul {g : ℚ} (h : Representable g) : Representable (2 * g) := by
  obtain ⟨k, b, hk, rfl⟩ := h
  exact ⟨k, b + 1, hk, by rw [pow_succ]; ring⟩

/-- Rounding does not cross a representable number above. -/
theorem Nearest.le {v x g : ℚ} (h : Nearest v x) (hg : Representable g) (hxg : x ≤ g) :
    v ≤ g := by
  by_contra hc
  have h1 := h.2 g hg
  rw [abs_of_nonneg (by linarith), abs_of_nonneg (by linarith)] at h1
  linarith

/-- Rounding does not cross a representable number below. -/
theorem Nearest.ge {v x g : ℚ} (h : Nearest v x) (hg : Representable g) (hgx : g ≤ x) :
    g ≤ v := by
  by_contra hc
  have h1 := h.2 g hg
  rw [abs_of_nonpos (by linarith), abs_of_nonpos (by linarith)] at h1
  linarith

/-- Rounding leaves a representable number as it is. -/
theorem Nearest.eq_self {v x : ℚ} (h : Nearest v x) (hx : Representable x) : v = x :=
  le_antisymm (h.le hx (le_refl _)) (h.ge hx (le_refl _))

/-- Rounding is monotone. -/
theorem Nearest.le_of_lt {v1 x1 v2 x2 : ℚ} (h1 : Nearest v1 x1) (h2 : Nearest v2 x2)
    (hlt : x1 < x2) : v1 ≤ v2 := by
  by_contra hc
  have hv : v2 < v1 := lt_of_not_le hc
  have a1 := sq_le_sq.mpr (h1.2 v2 h2.1)
  have a2 := sq_le_sq.mpr (h2.2 v1 h1.1)
  nlinarith

/-- The conversion of an integer below `2^1023` rounds it to a nearest `double`. -/
theorem ofNat_spec (n : Nat) (hlt : (n : ℚ) < 2 ^ 1023) :
    ∃ v, (Double.ofNat n).value = some v ∧ Nearest v n ∧
      (1 / 2 ^ 1022 ≤ (n : ℚ) → |v - n| ≤ (n : ℚ) / 2 ^ 53) := by
  apply round_value (n <<< 1074) 1 n Nat.one_pos _ hlt
  simp only [Nat.shiftLeft_eq, Nat.cast_mul, Nat.cast_pow, Nat.cast_ofNat, Nat.cast_one,
    div_one]

/-- The sum of two finite values rounds the exact sum to a nearest `double`. -/
theorem add_spec {a b : Double} {x y : ℚ} (ha : a.value = some x) (hb : b.value = some y)
    (hlt : x + y < 2 ^ 1023) :
    ∃ v, (a.add b).value = some v ∧ Nearest v (x + y) ∧
      (1 / 2 ^ 1022 ≤ x + y → |v - (x + y)| ≤ (x + y) / 2 ^ 53) := by
  obtain ⟨m1, b1, rfl, e1⟩ := value_eq_some ha
  obtain ⟨m2, b2, rfl, e2⟩ := value_eq_some hb
  apply round_value _ 1 (x + y) Nat.one_pos _ hlt
  simp only [Nat.shiftLeft_eq, Nat.cast_mul, Nat.cast_pow, Nat.cast_ofNat, Nat.cast_one,
    div_one, Nat.cast_add, e1, e2]
  ring

/-- The product of two finite values rounds the exact product to a nearest `double`. -/
theorem mul_spec {a b : Double} {x y : ℚ} (ha : a.value = some x) (hb : b.value = some y)
    (hlt : x * y < 2 ^ 1023) :
    ∃ v, (a.mul b).value = some v ∧ Nearest v (x * y) ∧
      (1 / 2 ^ 1022 ≤ x * y → |v - x * y| ≤ x * y / 2 ^ 53) := by
  obtain ⟨m1, b1, rfl, e1⟩ := value_eq_some ha
  obtain ⟨m2, b2, rfl, e2⟩ := value_eq_some hb
  have hS : (0 : ℚ) < 2 ^ 1074 := by positivity
  apply round_value _ (1 <<< 1074) (x * y) (by rw [Nat.shiftLeft_eq]; positivity) _ hlt
  simp only [Nat.shiftLeft_eq, Nat.cast_mul, Nat.cast_pow, Nat.cast_ofNat, Nat.cast_one,
    one_mul, e1, e2]
  rw [div_eq_iff hS.ne']
  ring

/-- The quotient of two finite values, the second not `0`, rounds the exact
quotient to a nearest `double`. -/
theorem div_spec {a b : Double} {x y : ℚ} (ha : a.value = some x) (hb : b.value = some y)
    (hy : y ≠ 0) (hlt : x / y < 2 ^ 1023) :
    ∃ v, (a.div b).value = some v ∧ Nearest v (x / y) ∧
      (1 / 2 ^ 1022 ≤ x / y → |v - x / y| ≤ x / y / 2 ^ 53) := by
  obtain ⟨m1, b1, rfl, e1⟩ := value_eq_some ha
  obtain ⟨m2, b2, rfl, e2⟩ := value_eq_some hb
  have hS : (0 : ℚ) < 2 ^ 1074 := by positivity
  have hm2 : m2 ≠ 0 := by
    rintro rfl
    simp only [Nat.cast_zero, zero_mul] at e2
    rcases mul_eq_zero.mp e2.symm with h | h
    · exact hy h
    · exact hS.ne' h
  have hd : 0 < m2 <<< b2 := by
    rw [Nat.shiftLeft_eq]; exact Nat.mul_pos (Nat.pos_of_ne_zero hm2) (Nat.two_pow_pos _)
  have hdiv : (Double.fin m1 b1).div (Double.fin m2 b2) =
      Double.round ((m1 <<< b1) <<< 1074) (m2 <<< b2) := by
    simp only [Double.div, hm2, if_false]
  rw [hdiv]
  apply round_value _ _ (x / y) hd _ hlt
  simp only [Nat.shiftLeft_eq, Nat.cast_mul, Nat.cast_pow, Nat.cast_ofNat, e1, e2]
  field_simp
  ring

theorem small_range {x : ℚ} (hlo : 1 / 2 ^ 128 ≤ x) (hhi : x ≤ 2 ^ 64) :
    x < 2 ^ 1023 ∧ 1 / 2 ^ 1022 ≤ x := by
  constructor
  · exact lt_of_le_of_lt hhi (pow_lt_pow_right₀ one_lt_two (by norm_num))
  · refine le_trans ?_ hlo
    exact one_div_le_one_div_of_le (by positivity)
      (pow_le_pow_right₀ one_le_two (by norm_num))

theorem within_of_abs {v x : ℚ} (h : |v - x| ≤ x / 2 ^ 53) :
    Within (1 - 1 / 2 ^ 53) (1 + 1 / 2 ^ 53) v x := by
  obtain ⟨h1, h2⟩ := abs_le.mp h
  constructor
  · have : (1 - 1 / 2 ^ 53) * x = x - x / 2 ^ 53 := by ring
    rw [this]; linarith
  · have : (1 + 1 / 2 ^ 53) * x = x + x / 2 ^ 53 := by ring
    rw [this]; linarith

theorem Within.trans {l1 h1 l2 h2 v w x : ℚ} (a : Within l1 h1 v x) (b : Within l2 h2 w v)
    (hl2 : 0 ≤ l2) (hh2 : 0 ≤ h2) : Within (l2 * l1) (h2 * h1) w x := by
  constructor
  · calc l2 * l1 * x = l2 * (l1 * x) := by ring
      _ ≤ l2 * v := mul_le_mul_of_nonneg_left a.1 hl2
      _ ≤ w := b.1
  · calc w ≤ h2 * v := b.2
      _ ≤ h2 * (h1 * x) := mul_le_mul_of_nonneg_left a.2 hh2
      _ = h2 * h1 * x := by ring

theorem Within.mul {l1 h1 l2 h2 v w x y : ℚ} (a : Within l1 h1 v x) (b : Within l2 h2 w y)
    (hl1 : 0 ≤ l1) (hl2 : 0 ≤ l2) (hx : 0 ≤ x) (hy : 0 ≤ y) :
    Within (l1 * l2) (h1 * h2) (v * w) (x * y) := by
  have hv : 0 ≤ v := le_trans (mul_nonneg hl1 hx) a.1
  have hw : 0 ≤ w := le_trans (mul_nonneg hl2 hy) b.1
  constructor
  · calc l1 * l2 * (x * y) = (l1 * x) * (l2 * y) := by ring
      _ ≤ v * w := mul_le_mul a.1 b.1 (mul_nonneg hl2 hy) hv
  · calc v * w ≤ (h1 * x) * (h2 * y) := mul_le_mul a.2 b.2 hw (le_trans hv a.2)
      _ = h1 * h2 * (x * y) := by ring

theorem Within.div {l1 h1 l2 h2 v w x y : ℚ} (a : Within l1 h1 v x) (b : Within l2 h2 w y)
    (hl1 : 0 ≤ l1) (hl2 : 0 < l2) (hx : 0 ≤ x) (hy : 0 < y) :
    Within (l1 / h2) (h1 / l2) (v / w) (x / y) := by
  have hv : 0 ≤ v := le_trans (mul_nonneg hl1 hx) a.1
  have hw : 0 < w := lt_of_lt_of_le (mul_pos hl2 hy) b.1
  have hh2 : 0 < h2 := by
    by_contra hc
    have : h2 * y ≤ 0 := mul_nonpos_of_nonpos_of_nonneg (not_lt.mp hc) hy.le
    linarith [b.2]
  constructor
  · calc l1 / h2 * (x / y) = (l1 * x) / (h2 * y) := by field_simp
      _ ≤ v / (h2 * y) := div_le_div_of_nonneg_right a.1 (mul_pos hh2 hy).le
      _ ≤ v / w := div_le_div_of_nonneg_left hv hw b.2
  · calc v / w ≤ (h1 * x) / w := div_le_div_of_nonneg_right a.2 hw.le
      _ ≤ (h1 * x) / (l2 * y) :=
          div_le_div_of_nonneg_left (le_trans hv a.2) (mul_pos hl2 hy) b.1
      _ = h1 / l2 * (x / y) := by field_simp

theorem Within.add {lo hi v w x y : ℚ} (a : Within lo hi v x) (b : Within lo hi w y) :
    Within lo hi (v + w) (x + y) := by
  constructor
  · have : lo * (x + y) = lo * x + lo * y := by ring
    rw [this]; linarith [a.1, b.1]
  · have : hi * (x + y) = hi * x + hi * y := by ring
    rw [this]; linarith [a.2, b.2]

theorem Within.refl (x : ℚ) : Within 1 1 x x := ⟨by simp, by simp⟩

theorem Within.weaken {l1 h1 l2 h2 v x : ℚ} (a : Within l1 h1 v x) (hx : 0 ≤ x)
    (hl : l2 ≤ l1) (hh : h1 ≤ h2) : Within l2 h2 v x :=
  ⟨le_trans (mul_le_mul_of_nonneg_right hl hx) a.1,
   le_trans a.2 (mul_le_mul_of_nonneg_right hh hx)⟩

theorem ofNat_small (n : Nat) (h1 : 1 ≤ n) (h2 : n < 2 ^ 64) :
    ∃ v, (Double.ofNat n).value = some v ∧ Nearest v n ∧
      Within (1 - 1 / 2 ^ 53) (1 + 1 / 2 ^ 53) v n ∧ 1 ≤ v ∧ v ≤ 2 ^ 64 := by
  have hn1 : (1 : ℚ) ≤ n := by exact_mod_cast h1
  have hn2 : (n : ℚ) ≤ 2 ^ 64 := by exact_mod_cast h2.le
  have hr := small_range (le_trans (by norm_num) hn1) hn2
  obtain ⟨v, e, nr, rel⟩ := ofNat_spec n hr.1
  refine ⟨v, e, nr, within_of_abs (rel hr.2), ?_, ?_⟩
  · have h := nr.ge (representable_nat 1 (by norm_num)) (by simpa using hn1)
    simpa using h
  · exact nr.le (representable_two_pow 64) hn2

theorem div_small {a b : Double} {x y : ℚ} (ha : a.value = some x) (hb : b.value = some y)
    (hy : 0 < y) (hlo : 1 / 2 ^ 128 ≤ x / y) (hhi : x / y ≤ 2 ^ 64) :
    ∃ v, (a.div b).value = some v ∧ Nearest v (x / y) ∧
      Within (1 - 1 / 2 ^ 53) (1 + 1 / 2 ^ 53) v (x / y) := by
  have hr := small_range hlo hhi
  obtain ⟨v, e, nr, rel⟩ := div_spec ha hb hy.ne' hr.1
  exact ⟨v, e, nr, within_of_abs (rel hr.2)⟩

theorem mul_small {a b : Double} {x y : ℚ} (ha : a.value = some x) (hb : b.value = some y)
    (hlo : 1 / 2 ^ 128 ≤ x * y) (hhi : x * y ≤ 2 ^ 64) :
    ∃ v, (a.mul b).value = some v ∧ Nearest v (x * y) ∧
      Within (1 - 1 / 2 ^ 53) (1 + 1 / 2 ^ 53) v (x * y) := by
  have hr := small_range hlo hhi
  obtain ⟨v, e, nr, rel⟩ := mul_spec ha hb hr.1
  exact ⟨v, e, nr, within_of_abs (rel hr.2)⟩

theorem add_small {a b : Double} {x y : ℚ} (ha : a.value = some x) (hb : b.value = some y)
    (hlo : 1 / 2 ^ 128 ≤ x + y) (hhi : x + y ≤ 2 ^ 64) :
    ∃ v, (a.add b).value = some v ∧ Nearest v (x + y) ∧
      Within (1 - 1 / 2 ^ 53) (1 + 1 / 2 ^ 53) v (x + y) := by
  have hr := small_range hlo hhi
  obtain ⟨v, e, nr, rel⟩ := add_spec ha hb hr.1
  exact ⟨v, e, nr, within_of_abs (rel hr.2)⟩

theorem ofNat_mono {n1 n2 : Nat} {v1 v2 : ℚ} (h : n1 ≤ n2)
    (e1 : (Double.ofNat n1).value = some v1) (e2 : (Double.ofNat n2).value = some v2)
    (a1 : Nearest v1 n1) (a2 : Nearest v2 n2) : v1 ≤ v2 := by
  rcases Nat.eq_or_lt_of_le h with rfl | hlt
  · rw [e1] at e2
    exact le_of_eq (Option.some.inj e2)
  · exact a1.le_of_lt a2 (by exact_mod_cast hlt)

/-- The quotient `(double) tp / (tp + k)` without wrap-around: a `double` in
`[2^-64, 1]`, equal to `1` for `k = 0`, within three roundings of `tp / (tp + k)`. -/
theorem ratio_small (tp k : Nat) (h0 : 0 < tp) (h1 : tp + k < 2 ^ 64) :
    ∃ v, (Double.div (Double.ofNat tp) (Double.ofNat (tp + k))).value = some v ∧
      Representable v ∧ 1 / 2 ^ 64 ≤ v ∧ v ≤ 1 ∧ (k = 0 → v = 1) ∧
      Within ((1 - 1 / 2 ^ 53) * ((1 - 1 / 2 ^ 53) / (1 + 1 / 2 ^ 53)))
        ((1 + 1 / 2 ^ 53) * ((1 + 1 / 2 ^ 53) / (1 - 1 / 2 ^ 53))) v
        ((tp : ℚ) / ((tp + k : Nat) : ℚ)) := by
  obtain ⟨va, ea, na, wa, la, ua⟩ := ofNat_small tp h0 (by omega)
  obtain ⟨vs, es, ns, ws, ls, us⟩ := ofNat_small (tp + k) (by omega) h1
  have hle : va ≤ vs := ofNat_mono (Nat.le_add_right tp k) ea es na ns
  have hvs : 0 < vs := by linarith
  have hq1 : va / vs ≤ 1 := (div_le_one hvs).mpr hle
  have hq0 : 1 / 2 ^ 64 ≤ va / vs := by
    rw [div_le_div_iff₀ (by positivity) hvs]
    calc 1 * vs ≤ 1 * 2 ^ 64 := by linarith
      _ ≤ va * 2 ^ 64 := mul_le_mul_of_nonneg_right la (by positivity)
  obtain ⟨v, e, nr, w⟩ := div_small ea es hvs
    (le_trans (one_div_le_one_div_of_le (by positivity)
      (pow_le_pow_right₀ one_le_two (by norm_num))) hq0)
    (le_trans hq1 (one_le_pow₀ one_le_two))
  have htp : (0 : ℚ) < tp := by exact_mod_cast h0
  have hs : (0 : ℚ) < ((tp + k : Nat) : ℚ) := by exact_mod_cast (by omega : 0 < tp + k)
  refine ⟨v, e, nr.1, nr.ge (representable_inv_two_pow 64 (by norm_num)) hq0, ?_, ?_, ?_⟩
  · have h := nr.le (representable_nat 1 (by norm_num)) (by simpa using hq1)
    simpa using h
  · intro hk
    subst hk
    rw [Nat.add_zero, ea] at es
    have hva : va = vs := Option.some.inj es
    have h1' : va / vs = 1 := by rw [hva]; exact div_self hvs.ne'
    rw [h1'] at nr
    have h := nr.eq_self (by simpa using representable_nat 1 (by norm_num))
    exact h
  · exact (Within.div wa ws (by norm_num) (by norm_num) htp.le hs).trans w
      (by norm_num) (by norm_num)

theorem harmonic_closed_form (tp fp fn : Nat) (h0 : 0 < tp) :
    (tp : ℚ) / ((tp + fp : Nat) : ℚ) * ((tp : ℚ) / ((tp + fn : Nat) : ℚ)) * 2 /
        ((tp : ℚ) / ((tp + fp : Nat) : ℚ) + (tp : ℚ) / ((tp + fn : Nat) : ℚ)) =
      2 * (tp : ℚ) / (2 * (tp : ℚ) + (fp : ℚ) + (fn : ℚ)) := by
  have htp : (0 : ℚ) < tp := by exact_mod_cast h0
  have hfp : (0 : ℚ) ≤ fp := Nat.cast_nonneg _
  have hfn : (0 : ℚ) ≤ fn := Nat.cast_nonneg _
  have e1 : ((tp : ℚ) + fp) ≠ 0 := by positivity
  have e2 : ((tp : ℚ) + fn) ≠ 0 := by positivity
  have e3 : (2 * (tp : ℚ) + fp + fn) ≠ 0 := by positivity
  push_cast
  field_simp
  ring

/-- The value of `computeF1` for `tp > 0` without wrap-around: a finite `double` in
`(0, 1]`, equal to `1` for `fp = fn = 0`, within a relative `2^-49` of
`2 * tp / (2 * tp + fp + fn)`. -/
theorem computeF1_pos_value (tp fp fn : Nat) (h0 : 0 < tp) (h1 : tp + fp < 2 ^ 64)
    (h2 : tp + fn < 2 ^ 64) :
    ∃ v, (computeF1 tp fp fn).value = some v ∧ 0 < v ∧ v ≤ 1 ∧
      (fp = 0 → fn = 0 → v = 1) ∧
      Within (1 - 1 / 2 ^ 49) (1 + 1 / 2 ^ 49) v
        (2 * (tp : ℚ) / (2 * (tp : ℚ) + (fp : ℚ) + (fn : ℚ))) := by
  obtain ⟨vp, ep, rp, lp, up, op, wp⟩ := ratio_small tp fp h0 h1
  obtain ⟨vr, er, rr, lr, ur, or, wr⟩ := ratio_small tp fn h0 h2
  have htp : (0 : ℚ) < tp := by exact_mod_cast h0
  have hs1 : (0 : ℚ) < ((tp + fp : Nat) : ℚ) := by exact_mod_cast (by omega : 0 < tp + fp)
  have hs2 : (0 : ℚ) < ((tp + fn : Nat) : ℚ) := by exact_mod_cast (by omega : 0 < tp + fn)
  have hP : (0 : ℚ) < (tp : ℚ) / ((tp + fp : Nat) : ℚ) := div_pos htp hs1
  have hR : (0 : ℚ) < (tp : ℚ) / ((tp + fn : Nat) : ℚ) := div_pos htp hs2
  have hvp : 0 < vp := lt_of_lt_of_le (by positivity) lp
  have hvr : 0 < vr := lt_of_lt_of_le (by positivity) lr
  -- the product
  have hm0 : 1 / 2 ^ 128 ≤ vp * vr := by
    calc (1 : ℚ) / 2 ^ 128 = 1 / 2 ^ 64 * (1 / 2 ^ 64) := by norm_num
      _ ≤ vp * vr := mul_le_mul lp lr (by positivity) hvp.le
  have hm1 : vp * vr ≤ 1 := by
    calc vp * vr ≤ 1 * 1 := mul_le_mul up ur hvr.le (by norm_num)
      _ = 1 := by norm_num
  obtain ⟨vM, eM, nM, wM⟩ := mul_small ep er hm0 (le_trans hm1 (one_le_pow₀ one_le_two))
  have hMp : vM ≤ vp := nM.le rp (by nlinarith)
  have hMr : vM ≤ vr := nM.le rr (by nlinarith)
  have hM0 : 1 / 2 ^ 128 ≤ vM := nM.ge (representable_inv_two_pow 128 (by norm_num)) hm0
  -- the factor 2
  obtain ⟨v2, e2, n2, _, _, _⟩ := ofNat_small 2 (by norm_num) (by norm_num)
  have hv2 : v2 = 2 := by
    have h := n2.eq_self (representable_nat 2 (by norm_num))
    simpa using h
  rw [hv2] at e2
  have hn0 : 1 / 2 ^ 128 ≤ vM * 2 := by linarith
  have hn1 : vM * 2 ≤ 2 ^ 64 := by
    have : vM ≤ 1 := le_trans hMp up
    have : (2 : ℚ) ≤ 2 ^ 64 := by norm_num
    linarith
  obtain ⟨vN, eN, nN, _⟩ := mul_small eM e2 hn0 hn1
  have hN : vN = vM * 2 := by
    apply nN.eq_self
    have h := nM.1.two_mul
    rwa [mul_comm] at h
  rw [hN] at eN
  -- the sum
  have hd0 : 1 / 2 ^ 128 ≤ vp + vr := by linarith
  have hd1 : vp + vr ≤ 2 := by linarith
  obtain ⟨vD, eD, nD, wD⟩ := add_small ep er hd0
    (le_trans hd1 (by norm_num))
  have hDlo : vM * 2 ≤ vD := by
    apply nD.ge
    · have h := nM.1.two_mul
      rwa [mul_comm] at h
    · linarith
  have hDhi : vD ≤ 2 := by
    have h := nD.le (representable_nat 2 (by norm_num)) (by simpa using hd1)
    simpa using h
  have hvD : 0 < vD := by
    have : (0 : ℚ) < 1 / 2 ^ 128 := by positivity
    linarith
  -- the quotient
  have hq1 : vM * 2 / vD ≤ 1 := (div_le_one hvD).mpr hDlo
  have hq0 : 1 / 2 ^ 128 ≤ vM * 2 / vD := by
    rw [div_le_div_iff₀ (by positivity) hvD]
    have : (1 : ℚ) * vD ≤ 2 := by linarith
    have h3 : (2 : ℚ) ≤ vM * 2 * 2 ^ 128 := by
      have : 1 ≤ vM * 2 ^ 128 := by
        have h4 := mul_le_mul_of_nonneg_right hM0 (by positivity : (0 : ℚ) ≤ 2 ^ 128)
        rwa [div_mul_cancel₀ _ (by positivity : (2 : ℚ) ^ 128 ≠ 0)] at h4
      linarith
    linarith
  obtain ⟨vF, eF, nF, wF⟩ := div_small eN eD hvD hq0 (le_trans hq1 (one_le_pow₀ one_le_two))
  have hc : computeF1 tp fp fn =
      Double.div (Double.mul (Double.mul
        (Double.div (Double.ofNat tp) (Double.ofNat (tp + fp)))
        (Double.div (Double.ofNat tp) (Double.ofNat (tp + fn)))) (Double.ofNat 2))
      (Double.add (Double.div (Double.ofNat tp) (Double.ofNat (tp + fp)))
        (Double.div (Double.ofNat tp) (Double.ofNat (tp + fn)))) := by
    simp only [computeF1, Nat.pos_iff_ne_zero.mp h0, false_and, if_false,
      Nat.mod_eq_of_lt h1, Nat.mod_eq_of_lt h2]
  refine ⟨vF, by rw [hc]; exact eF, ?_, ?_, ?_, ?_⟩
  · have h := nF.ge (representable_inv_two_pow 128 (by norm_num)) hq0
    have : (0 : ℚ) < 1 / 2 ^ 128 := by positivity
    linarith
  · have h := nF.le (representable_nat 1 (by norm_num)) (by simpa using hq1)
    simpa using h
  · intro hfp hfn
    have e1 := op hfp
    have e2' := or hfn
    subst e1 e2'
    have hM : vM = 1 := by
      have h := nM.eq_self (by simpa using representable_nat 1 (by norm_num))
      simpa using h
    subst hM
    have hD : vD = 2 := by
      have h := nD.eq_self (by
        have := representable_nat 2 (by norm_num)
        norm_num at this ⊢
        exact this)
      norm_num at h
      exact h
    subst hD
    have h := nF.eq_self (by simpa using representable_nat 1 (by norm_num))
    simpa using h
  · rw [← harmonic_closed_form tp fp fn h0]
    have wPR := Within.mul wp wr (by norm_num) (by norm_num) hP.le hR.le
    have wM2 := wPR.trans wM (by norm_num) (by norm_num)
    have wN := Within.mul wM2 (Within.refl 2) (by norm_num) (by norm_num)
      (mul_pos hP hR).le (by norm_num)
    have wS := Within.add wp wr
    have wD2 := wS.trans wD (by norm_num) (by norm_num)
    have wQ := Within.div wN wD2 (by norm_num) (by norm_num)
      (mul_nonneg (mul_pos hP hR).le (by norm_num)) (add_pos hP hR)
    have wF2 := wQ.trans wF (by norm_num) (by norm_num)
    exact wF2.weaken (div_nonneg (mul_nonneg (mul_pos hP hR).le (by norm_num))
      (add_pos hP hR).le) (by norm_num) (by norm_num)

/-! ## F1 from counts -/

theorem value_fin_zero : (Double.fin 0 0).value = some 0 := by
  simp [Double.value]

theorem value_one : (Double.fin (1 <<< 52) 1022).value = some 1 := by
  have h : ((1 <<< 52 : Nat) : ℚ) = 2 ^ 52 := by
    rw [Nat.shiftLeft_eq, one_mul, cast_two_pow]
  have hs : (52 + 1022 : Nat) = 1074 := rfl
  simp only [Double.value, h, Option.some.injEq]
  rw [← pow_add, hs]
  exact div_self (by positivity)

theorem value_fin_1021 (m : Nat) :
    (Double.fin m 1021).value = some ((m : ℚ) / 2 ^ 53) := by
  have hs : (1021 + 53 : Nat) = 1074 := rfl
  simp only [Double.value, Option.some.injEq]
  rw [div_eq_div_iff (by positivity) (by positivity), mul_assoc, ← pow_add, hs]

theorem computeF1_zero_tp (fp fn : Nat) (h : 0 < fp + fn) :
    computeF1 0 fp fn = Double.fin 0 0 := by
  have h3 : ¬ (fp = 0 ∧ fn = 0) := by omega
  simp [computeF1, h3]

theorem computeF1_zero : computeF1 0 0 0 = Double.fin (1 <<< 52) 1022 := by
  simp [computeF1]

theorem harmonicMean_closed_form (tp fp fn : Nat) (h : 0 < tp) :
    harmonicMean (precisionOf tp fp) (recallOf tp fn) =
      2 * (tp : ℚ) / (2 * (tp : ℚ) + (fp : ℚ) + (fn : ℚ)) := by
  have hpos : (0 : ℚ) < (tp : ℚ) := by exact_mod_cast h
  have htp : (tp : ℚ) ≠ 0 := ne_of_gt hpos
  have hfp : (0 : ℚ) ≤ (fp : ℚ) := by exact_mod_cast Nat.zero_le fp
  have hfn : (0 : ℚ) ≤ (fn : ℚ) := by exact_mod_cast Nat.zero_le fn
  have h1 : (tp : ℚ) + (fp : ℚ) ≠ 0 := by positivity
  have h2 : (tp : ℚ) + (fn : ℚ) ≠ 0 := by positivity
  have h3 : 2 * (tp : ℚ) + (fp : ℚ) + (fn : ℚ) ≠ 0 := by positivity
  have h5 : (tp : ℚ) + (fp : ℚ) + ((tp : ℚ) + (fn : ℚ)) ≠ 0 := by positivity
  simp only [harmonicMean, precisionOf, recallOf]
  field_simp
  ring

theorem abs_sub_le_of_within {v x : ℚ} (h : Within (1 - 1 / 2 ^ 49) (1 + 1 / 2 ^ 49) v x) :
    |v - x| ≤ x / 2 ^ 49 := by
  obtain ⟨h1, h2⟩ := h
  rw [abs_le]
  constructor
  · have : (1 - 1 / 2 ^ 49) * x = x - x / 2 ^ 49 := by ring
    rw [this] at h1; linarith
  · have : (1 + 1 / 2 ^ 49) * x = x + x / 2 ^ 49 := by ring
    rw [this] at h2; linarith

theorem computeF1_8_2_2 : computeF1 8 2 2 = Double.fin 7205759403792795 1021 := by
  decide

theorem div_4_5 :
    Double.div (Double.ofNat 4) (Double.ofNat 5) = Double.fin 7205759403792794 1021 := by
  decide

/-- C8, as the code has it: `computeF1` is `1.0` on `(0, 0, 0)` and `0.0` when
`tp = 0` and `fp + fn > 0`.  For `tp > 0` the harmonic mean of precision
`tp / (tp + fp)` and recall `tp / (tp + fn)` is `2 * tp / (2 * tp + fp + fn)`,
and when the sums `tp + fp` and `tp + fn` are below `2^64` the value of
`computeF1` is a finite `double` that differs from this harmonic mean by at most
its `2^-49`-th part.  The values at `(0, 0, 0)`, `(0, 5, 3)` and `(10, 0, 0)`
are `1`, `0` and `1`; the value at `(8, 2, 2)` is `7205759403792795 / 2^53`. -/
theorem computeF1_spec (tp fp fn : Nat) :
    (tp = 0 → fp = 0 → fn = 0 → (computeF1 tp fp fn).value = some 1) ∧
    (tp = 0 → 0 < fp + fn → (computeF1 tp fp fn).value = some 0) ∧
    (0 < tp →
      harmonicMean (precisionOf tp fp) (recallOf tp fn) =
        2 * (tp : ℚ) / (2 * (tp : ℚ) + (fp : ℚ) + (fn : ℚ)) ∧
      (tp + fp < 2 ^ 64 → tp + fn < 2 ^ 64 →
        ∃ v, (computeF1 tp fp fn).value = some v ∧
          |v - harmonicMean (precisionOf tp fp) (recallOf tp fn)| ≤
            harmonicMean (precisionOf tp fp) (recallOf tp fn) / 2 ^ 49)) ∧
    (computeF1 0 0 0).value = some 1 ∧ (computeF1 0 5 3).value = some 0 ∧
    (computeF1 10 0 0).value = some 1 ∧
    (computeF1 8 2 2).value = some (7205759403792795 / 2 ^ 53) := by
  refine ⟨?_, ?_, ?_, ?_, ?_, ?_, ?_⟩
  · intro h1 h2 h3
    subst h1 h2 h3
    rw [computeF1_zero]; exact value_one
  · intro h1 h2
    subst h1
    rw [computeF1_zero_tp fp fn h2]; exact value_fin_zero
  · intro h
    refine ⟨harmonicMean_closed_form tp fp fn h, fun h1 h2 => ?_⟩
    obtain ⟨v, e, _, _, _, w⟩ := computeF1_pos_value tp fp fn h h1 h2
    rw [harmonicMean_closed_form tp fp fn h]
    exact ⟨v, e, abs_sub_le_of_within w⟩
  · rw [computeF1_zero]; exact value_one
  · rw [computeF1_zero_tp 5 3 (by decide)]; exact value_fin_zero
  · obtain ⟨v, e, _, _, h1, _⟩ :=
      computeF1_pos_value 10 0 0 (by decide) (by decide) (by decide)
    rw [e, h1 rfl rfl]
  · rw [computeF1_8_2_2]
    have h := value_fin_1021 7205759403792795
    simpa using h

/-- The claim C8 fails at `(8, 2, 2)`: the value of `computeF1` is
`7205759403792795 / 2^53`, which is neither `4 / 5`, the harmonic mean of
precision and recall, nor the value of the `double` quotient `4.0 / 5.0`. -/
theorem computeF1_spec_counterexample :
    (computeF1 8 2 2).value = some (7205759403792795 / 2 ^ 53) ∧
    harmonicMean (precisionOf 8 2) (recallOf 8 2) = 4 / 5 ∧
    (computeF1 8 2 2).value ≠ some (4 / 5) ∧
    computeF1 8 2 2 ≠ Double.div (Double.ofNat 4) (Double.ofNat 5) := by
  have hv : (computeF1 8 2 2).value = some (7205759403792795 / 2 ^ 53) := by
    rw [computeF1_8_2_2]
    have h := value_fin_1021 7205759403792795
    simpa using h
  refine ⟨hv, ?_, ?_, ?_⟩
  · rw [harmonicMean_closed_form 8 2 2 (by decide)]; norm_num
  · rw [hv]; norm_num
  · rw [computeF1_8_2_2, div_4_5]; decide

/-- The third case of C8 at `(8, 2, 2)`. -/
theorem computeF1_spec_witness :
    0 < 8 ∧ 8 + 2 < 2 ^ 64 ∧
    ∃ v, (computeF1 8 2 2).value = some v ∧
      |v - harmonicMean (precisionOf 8 2) (recallOf 8 2)| ≤
        harmonicMean (precisionOf 8 2) (recallOf 8 2) / 2 ^ 49 :=
  ⟨by decide, by decide,
   ((computeF1_spec 8 2 2).2.2.1 (by decide)).2 (by decide) (by decide)⟩

/-! ## Tag decoding -/

/-- C9: with `m` the marker of the token and `n` the marker of its successor
(`"O"` for a token with fewer than three fields), `getBIOES` returns `"O"` when
`m = "O"`; when `m = "I"` it returns `"I"` if `n = "I"` and `"E"` otherwise; for
every other `m` it returns `"B"` if `n = "I"` and `"S"` otherwise. -/
theorem getBIOES_spec (word nextWord : String) :
    getBIOES word nextWord =
      if markerOf word = "O" then "O"
      else if markerOf word = "I" then (if markerOf nextWord = "I" then "I" else "E")
      else (if markerOf nextWord = "I" then "B" else "S") := by
  have key : ∀ l : List String,
      (if l.length < 3 then "O" else l.getD 2 "") = (l[2]?).getD "O" := by
    intro l
    rcases l with _ | ⟨a, _ | ⟨b, _ | ⟨c, l⟩⟩⟩ <;> simp
  simp only [getBIOES, markerOf, key]
  split_ifs <;> simp_all

/-! ## Records of unequal length -/

/-- C7: a record whose gold and predicted token counts differ adds `1` to
`num_total` and to `num_mismatch` and writes the verdict code `2`; the token-level
counters, the micro counts, the macro-F1 sum, `num_correct`, `num_wrong` and the
tagging-flag output stay as they were. -/
theorem evaluateRecord_mismatch (st : EvalState) (r : Record)
    (h : r.algWords.length ≠ r.truthWords.length) :
    ∃ st', evaluateRecord st r = some st' ∧
      st'.num_total = st.num_total + 1 ∧
      st'.num_mismatch = st.num_mismatch + 1 ∧
      st'.fNerNed = st.fNerNed ++ [(r.lineIdx, r.linePos, 2)] ∧
      st'.statsBIOES = st.statsBIOES ∧
      st'.microTp = st.microTp ∧ st'.microFp = st.microFp ∧ st'.microFn = st.microFn ∧
      st'.macroF1InKB = st.macroF1InKB ∧
      st'.num_correct = st.num_correct ∧ st'.num_wrong = st.num_wrong ∧
      st'.fNer = st.fNer := by
  simp [evaluateRecord, h, NERNED_MISMATCH]

/-- C7 on a record with three gold and four predicted tokens. -/
theorem evaluateRecord_mismatch_witness :
    (([ "a\\?\\O", "b\\?\\O", "c\\?\\O", "d\\?\\O" ] : List String).length ≠
      ([ "a\\?\\O", "b\\?\\O", "c\\?\\O" ] : List String).length) ∧
    ∃ st', evaluateRecord initEval
        ⟨7, 120, [ "a\\?\\O", "b\\?\\O", "c\\?\\O" ],
          [ "a\\?\\O", "b\\?\\O", "c\\?\\O", "d\\?\\O" ]⟩ = some st' ∧
      st'.num_total = initEval.num_total + 1 ∧
      st'.num_mismatch = initEval.num_mismatch + 1 ∧
      st'.fNerNed = initEval.fNerNed ++ [(7, 120, 2)] ∧
      st'.statsBIOES = initEval.statsBIOES ∧
      st'.microTp = initEval.microTp ∧ st'.microFp = initEval.microFp ∧
      st'.microFn = initEval.microFn ∧
      st'.macroF1InKB = initEval.macroF1InKB ∧
      st'.num_correct = initEval.num_correct ∧ st'.num_wrong = initEval.num_wrong ∧
      st'.fNer = initEval.fNer :=
  ⟨by decide,
   evaluateRecord_mismatch initEval
     ⟨7, 120, [ "a\\?\\O", "b\\?\\O", "c\\?\\O" ],
       [ "a\\?\\O", "b\\?\\O", "c\\?\\O", "d\\?\\O" ]⟩ (by decide)⟩

/-! ## Counts of the two passes: what holds for all span lists -/

theorem scoreSentence_eq_some {sb : StatsBIOES} {tw aw : List String} {lp : LoopState}
    {al : AlignState} (h : scoreSentence sb tw aw = some (lp, al)) :
    extract sb tw aw = some lp ∧ align lp.truths lp.algs = some al := by
  unfold scoreSentence at h
  cases hx : extract sb tw aw with
  | none => simp [hx] at h
  | some lp' =>
    simp only [hx, Option.some_bind] at h
    cases ha : align lp'.truths lp'.algs with
    | none => simp [ha] at h
    | some al' =>
      simp only [ha, Option.some_bind, Option.some.injEq, Prod.mk.injEq] at h
      obtain ⟨h1, h2⟩ := h
      subst h1; subst h2
      exact ⟨rfl, ha⟩

theorem align_eq_some {truths algs : List Span} {al : AlignState}
    (h : align truths algs = some al) :
    ∃ st, fpPass truths algs
        { j := 0, macroTp := 0, macroFp := 0, macroFn := 0, debug := 0,
          sentenceCorrect := true } = some st ∧
      fnPass algs truths { st with j := 0, debug := 0 } = some al := by
  unfold align at h
  cases hx : fpPass truths algs
      { j := 0, macroTp := 0, macroFp := 0, macroFn := 0, debug := 0,
        sentenceCorrect := true } with
  | none => simp [hx] at h
  | some st =>
    simp only [hx, Option.some_bind] at h
    exact ⟨st, rfl, h⟩

theorem fpStep_counts {truths : List Span} {st st' : AlignState} {e : Span}
    (h : fpStep truths st e = some st') :
    st'.macroFn = st.macroFn ∧ st'.debug = st.debug ∧
    (inKB e.id = false → st' = st) ∧
    (inKB e.id = true →
      st'.macroTp + st'.macroFp ≤ st.macroTp + st.macroFp + 1 ∧
      (¬ carvedOut truths e → st'.macroTp + st'.macroFp = st.macroTp + st.macroFp + 1)) := by
  unfold fpStep at h
  cases hk : inKB e.id with
  | false =>
    simp only [hk, Bool.not_false, if_true, Option.some.injEq] at h
    subst h
    simp
  | true =>
    simp only [hk, Bool.not_true, Bool.false_eq_true, if_false] at h
    by_cases h0 : truths.length = 0
    · simp only [h0, if_true, Option.some.injEq] at h
      subst h
      simp
      omega
    · simp only [h0, if_false] at h
      cases hf : forward truths e.head st.j with
      | none => simp [hf] at h
      | some j =>
        simp only [hf] at h
        cases ht : truths[j]? with
        | none => simp [ht] at h
        | some t =>
          simp only [ht] at h
          split_ifs at h with c1 c2
          · simp only [Option.some.injEq] at h
            subst h
            simp
            omega
          · simp only [Option.some.injEq] at h
            subst h
            refine ⟨rfl, rfl, by simp, fun _ => ⟨by simp, fun hc => ?_⟩⟩
            exfalso
            apply hc
            refine ⟨t, List.getElem?_mem ht, ?_, c2.1, c2.2.1⟩
            simpa [inKB] using c2.2.2
          · simp only [Option.some.injEq] at h
            subst h
            simp
            omega

theorem countInKB_cons (e : Span) (es : List Span) :
    countInKB (e :: es) = (if inKB e.id then 1 else 0) + countInKB es := by
  unfold countInKB
  by_cases h : inKB e.id = true
  · simp [List.filter_cons, h]; omega
  · simp [List.filter_cons, h]

theorem fpPass_counts (truths : List Span) :
    ∀ (es : List Span) (st st' : AlignState), fpPass truths es st = some st' →
      st'.macroFn = st.macroFn ∧ st'.debug = st.debug ∧
      st'.macroTp + st'.macroFp ≤ st.macroTp + st.macroFp + countInKB es ∧
      ((∀ e ∈ es, inKB e.id = true → ¬ carvedOut truths e) →
        st'.macroTp + st'.macroFp = st.macroTp + st.macroFp + countInKB es) := by
  intro es
  induction es with
  | nil =>
    intro st st' h
    simp only [fpPass, Option.some.injEq] at h
    subst h
    simp [countInKB]
  | cons e es ih =>
    intro st st' h
    simp only [fpPass] at h
    cases hs : fpStep truths st e with
    | none => simp [hs] at h
    | some st1 =>
      simp only [hs, Option.some_bind] at h
      obtain ⟨a1, a2, a3, a4⟩ := fpStep_counts hs
      obtain ⟨b1, b2, b3, b4⟩ := ih st1 st' h
      rw [countInKB_cons]
      cases hk : inKB e.id with
      | false =>
        have := a3 hk
        subst this
        simp only [Bool.false_eq_true, if_false, Nat.zero_add]
        refine ⟨b1, b2, b3, fun hall => b4 fun x hx => hall x (List.mem_cons_of_mem _ hx)⟩
      | true =>
        obtain ⟨c1, c2⟩ := a4 hk
        simp only [if_true]
        refine ⟨by omega, by omega, by omega, fun hall => ?_⟩
        have e1 := c2 (hall e (List.mem_cons_self _ _) hk)
        have e2 := b4 fun x hx => hall x (List.mem_cons_of_mem _ hx)
        omega

theorem fnStep_counts {algs : List Span} {st st' : AlignState} {e : Span}
    (h : fnStep algs st e = some st') :
    st'.macroTp = st.macroTp ∧ st'.macroFp = st.macroFp ∧
    (inKB e.id = false → st' = st) ∧
    (inKB e.id = true → st'.macroFn + st'.debug = st.macroFn + st.debug + 1) := by
  unfold fnStep at h
  cases hk : inKB e.id with
  | false =>
    simp only [hk, Bool.not_false, if_true, Option.some.injEq] at h
    subst h
    simp
  | true =>
    simp only [hk, Bool.not_true, Bool.false_eq_true, if_false] at h
    by_cases h0 : algs.length = 0
    · simp only [h0, if_true, Option.some.injEq] at h
      subst h
      simp
      omega
    · simp only [h0, if_false] at h
      cases hf : forward algs e.head st.j with
      | none => simp [hf] at h
      | some j =>
        simp only [hf] at h
        cases ht : algs[j]? with
        | none => simp [ht] at h
        | some t =>
          simp only [ht] at h
          split_ifs at h with c1
          · simp only [Option.some.injEq] at h
            subst h
            simp
            omega
          · simp only [Option.some.injEq] at h
            subst h
            simp
            omega

theorem fnPass_counts (algs : List Span) :
    ∀ (es : List Span) (st st' : AlignState), fnPass algs es st = some st' →
      st'.macroTp = st.macroTp ∧ st'.macroFp = st.macroFp ∧
      st'.macroFn + st'.debug = st.macroFn + st.debug + countInKB es := by
  intro es
  induction es with
  | nil =>
    intro st st' h
    simp only [fnPass, Option.some.injEq] at h
    subst h
    simp [countInKB]
  | cons e es ih =>
    intro st st' h
    simp only [fnPass] at h
    cases hs : fnStep algs st e with
    | none => simp [hs] at h
    | some st1 =>
      simp only [hs, Option.some_bind] at h
      obtain ⟨a1, a2, a3, a4⟩ := fnStep_counts hs
      obtain ⟨b1, b2, b3⟩ := ih st1 st' h
      rw [countInKB_cons]
      cases hk : inKB e.id with
      | false =>
        have := a3 hk
        subst this
        simp only [Bool.false_eq_true, if_false, Nat.zero_add]
        exact ⟨b1, b2, b3⟩
      | true =>
        have c := a4 hk
        simp only [if_true]
        refine ⟨by omega, by omega, by omega⟩

/-- The counts of a scored sentence, in terms of the two passes. -/
theorem align_counts {truths algs : List Span} {al : AlignState}
    (h : align truths algs = some al) :
    al.macroTp + al.macroFp ≤ countInKB algs ∧
    ((∀ e ∈ algs, inKB e.id = true → ¬ carvedOut truths e) →
      al.macroTp + al.macroFp = countInKB algs) ∧
    al.macroFn + al.debug = countInKB truths := by
  obtain ⟨st, h1, h2⟩ := align_eq_some h
  obtain ⟨a1, a2, a3, a4⟩ := fpPass_counts truths algs _ _ h1
  obtain ⟨b1, b2, b3⟩ := fnPass_counts algs truths _ _ h2
  simp only at a1 a2 a3 a4 b1 b2 b3
  refine ⟨by omega, fun hall => ?_, by omega⟩
  have := a4 hall
  omega

theorem fpStep_correct {truths : List Span} {st st' : AlignState} {e : Span}
    (h : fpStep truths st e = some st') :
    st.macroFp ≤ st'.macroFp ∧
    (st'.sentenceCorrect = true ↔ st.sentenceCorrect = true ∧ st'.macroFp = st.macroFp) := by
  unfold fpStep at h
  split_ifs at h with c1 c2
  · simp only [Option.some.injEq] at h
    subst h
    simp
  · simp only [Option.some.injEq] at h
    subst h
    simp
  · cases hf : forward truths e.head st.j with
    | none => simp [hf] at h
    | some j =>
      simp only [hf] at h
      cases ht : truths[j]? with
      | none => simp [ht] at h
      | some t =>
        simp only [ht] at h
        split_ifs at h <;>
        · simp only [Option.some.injEq] at h
          subst h
          simp

theorem fnStep_correct {algs : List Span} {st st' : AlignState} {e : Span}
    (h : fnStep algs st e = some st') :
    st.macroFn ≤ st'.macroFn ∧
    (st'.sentenceCorrect = true ↔ st.sentenceCorrect = true ∧ st'.macroFn = st.macroFn) := by
  unfold fnStep at h
  split_ifs at h with c1 c2
  · simp only [Option.some.injEq] at h
    subst h
    simp
  · simp only [Option.some.injEq] at h
    subst h
    simp
  · cases hf : forward algs e.head st.j with
    | none => simp [hf] at h
    | some j =>
      simp only [hf] at h
      cases ht : algs[j]? with
      | none => simp [ht] at h
      | some t =>
        simp only [ht] at h
        split_ifs at h <;>
        · simp only [Option.some.injEq] at h
          subst h
          simp

theorem fpPass_correct (truths : List Span) :
    ∀ (es : List Span) (st st' : AlignState), fpPass truths es st = some st' →
      st.macroFp ≤ st'.macroFp ∧
      (st'.sentenceCorrect = true ↔ st.sentenceCorrect = true ∧ st'.macroFp = st.macroFp) := by
  intro es
  induction es with
  | nil =>
    intro st st' h
    simp only [fpPass, Option.some.injEq] at h
    subst h
    simp
  | cons e es ih =>
    intro st st' h
    simp only [fpPass] at h
    cases hs : fpStep truths st e with
    | none => simp [hs] at h
    | some st1 =>
      simp only [hs, Option.some_bind] at h
      obtain ⟨a1, a2⟩ := fpStep_correct hs
      obtain ⟨b1, b2⟩ := ih st1 st' h
      refine ⟨by omega, ?_⟩
      rw [b2, a2]
      constructor
      · rintro ⟨⟨x, y⟩, z⟩
        exact ⟨x, by omega⟩
      · rintro ⟨x, y⟩
        exact ⟨⟨x, by omega⟩, by omega⟩

theorem fnPass_correct (algs : List Span) :
    ∀ (es : List Span) (st st' : AlignState), fnPass algs es st = some st' →
      st.macroFn ≤ st'.macroFn ∧
      (st'.sentenceCorrect = true ↔ st.sentenceCorrect = true ∧ st'.macroFn = st.macroFn) := by
  intro es
  induction es with
  | nil =>
    intro st st' h
    simp only [fnPass, Option.some.injEq] at h
    subst h
    simp
  | cons e es ih =>
    intro st st' h
    simp only [fnPass] at h
    cases hs : fnStep algs st e with
    | none => simp [hs] at h
    | some st1 =>
      simp only [hs, Option.some_bind] at h
      obtain ⟨a1, a2⟩ := fnStep_correct hs
      obtain ⟨b1, b2⟩ := ih st1 st' h
      refine ⟨by omega, ?_⟩
      rw [b2, a2]
      constructor
      · rintro ⟨⟨x, y⟩, z⟩
        exact ⟨x, by omega⟩
      · rintro ⟨x, y⟩
        exact ⟨⟨x, by omega⟩, by omega⟩

/-- The sentence is tallied correct exactly when neither pass counted an error. -/
theorem align_correct {truths algs : List Span} {al : AlignState}
    (h : align truths algs = some al) :
    al.sentenceCorrect = true ↔ al.macroFp = 0 ∧ al.macroFn = 0 := by
  obtain ⟨st, h1, h2⟩ := align_eq_some h
  obtain ⟨a1, a2⟩ := fpPass_correct truths algs _ _ h1
  obtain ⟨b1, b2⟩ := fnPass_correct algs truths _ _ h2
  obtain ⟨c1, _, _, _⟩ := fpPass_counts truths algs _ _ h1
  obtain ⟨_, d2, _⟩ := fnPass_counts algs truths _ _ h2
  simp only at a1 a2 b1 b2 c1 d2
  rw [b2, a2]
  constructor
  · rintro ⟨⟨_, x⟩, y⟩
    exact ⟨by omega, by omega⟩
  · rintro ⟨x, y⟩
    exact ⟨⟨trivial, by omega⟩, by omega⟩

theorem fnPass_nil_debug :
    ∀ (es : List Span) (st st' : AlignState), fnPass [] es st = some st' →
      st'.debug = st.debug := by
  intro es
  induction es with
  | nil =>
    intro st st' h
    simp only [fnPass, Option.some.injEq] at h
    subst h
    rfl
  | cons e es ih =>
    intro st st' h
    simp only [fnPass] at h
    cases hs : fnStep [] st e with
    | none => simp [hs] at h
    | some st1 =>
      simp only [hs, Option.some_bind] at h
      have := ih st1 st' h
      rw [this]
      unfold fnStep at hs
      split_ifs at hs with c1 c2
      · simp only [Option.some.injEq] at hs
        subst hs
        rfl
      · simp only [Option.some.injEq] at hs
        subst hs
        rfl
      · simp at c2

/-! ## The token loop -/

theorem getBIOES_decodeMarker (word nextWord : String) :
    getBIOES word nextWord = decodeMarker (markerOf word) (markerOf nextWord) := by
  have key : ∀ l : List String,
      (if l.length < 3 then "O" else l.getD 2 "") = (l[2]?).getD "O" := by
    intro l
    rcases l with _ | ⟨a, _ | ⟨b, _ | ⟨c, l⟩⟩⟩ <;> simp
  simp only [getBIOES, markerOf, key, decodeMarker]
  split_ifs <;> simp_all

theorem hasMarker_iff (word : String) :
    hasMarker word ↔ (tokenlize word '\\')[2]? = some (markerOf word) := by
  unfold hasMarker markerOf
  rcases tokenlize word '\\' with _ | ⟨a, _ | ⟨b, _ | ⟨c, l⟩⟩⟩ <;> simp

theorem markerOf_dummyTail : markerOf dummyTail = "y" := by decide

theorem updateEntity_append (i : Nat) (b id : String) (entity : Span) (spans : List Span) :
    updateEntity i b id entity spans =
      ((updateEntity i b id entity []).1, spans ++ (updateEntity i b id entity []).2) := by
  unfold updateEntity
  split_ifs <;> simp

theorem tokenLoop_cons (i : Nat) (a t x : String) (as ts : List String) (st : LoopState)
    (ha : as ≠ []) (ht : ts ≠ []) :
    tokenLoop i (a :: as) (t :: ts) st =
      (tokenStep i a (as.headD x) t (ts.headD x) st).bind (tokenLoop (i + 1) as ts) := by
  cases as with
  | nil => exact absurd rfl ha
  | cons a' as' =>
    cases ts with
    | nil => exact absurd rfl ht
    | cons t' ts' => simp [tokenLoop]

theorem tokenLoop_last (i : Nat) (a t : String) (st : LoopState) :
    tokenLoop i [a] [t] st = some st := by
  simp [tokenLoop]

theorem tokenStep_of_hasMarker (i : Nat) (a an t tn : String) (st : LoopState)
    (ha : hasMarker a) (ht : hasMarker t) :
    ∃ st', tokenStep i a an t tn st = some st' ∧
      st'.truthEntity =
        (updateEntity i (decodeMarker (markerOf t) (markerOf tn)) (markerOf t)
          st.truthEntity []).1 ∧
      st'.truths = st.truths ++
        (updateEntity i (decodeMarker (markerOf t) (markerOf tn)) (markerOf t)
          st.truthEntity []).2 ∧
      st'.algEntity =
        (updateEntity i (decodeMarker (markerOf a) (markerOf an)) (markerOf a)
          st.algEntity []).1 ∧
      st'.algs = st.algs ++
        (updateEntity i (decodeMarker (markerOf a) (markerOf an)) (markerOf a)
          st.algEntity []).2 := by
  rw [hasMarker_iff] at ha ht
  unfold tokenStep
  simp only [ha, ht, getBIOES_decodeMarker]
  refine ⟨_, rfl, ?_, ?_, ?_, ?_⟩
  · simp only
    rw [updateEntity_append]
  · simp only
    rw [updateEntity_append]
  · simp only
    rw [updateEntity_append]
  · simp only
    rw [updateEntity_append]

theorem tokenStep_hasMarker {i : Nat} {a an t tn : String} {st st' : LoopState}
    (h : tokenStep i a an t tn st = some st') : hasMarker a ∧ hasMarker t := by
  unfold tokenStep at h
  cases h1 : (tokenlize a '\\')[2]? with
  | none => simp [h1] at h
  | some x =>
    cases h2 : (tokenlize t '\\')[2]? with
    | none => simp [h1, h2] at h
    | some y =>
      unfold hasMarker
      have e1 := List.getElem?_eq_some.mp h1
      have e2 := List.getElem?_eq_some.mp h2
      obtain ⟨l1, _⟩ := e1
      obtain ⟨l2, _⟩ := e2
      exact ⟨by omega, by omega⟩

theorem headD_append_dummy (ws : List String) :
    markerOf ((ws ++ [dummyTail]).headD dummyTail) = (ws.map markerOf).headD "y" := by
  cases ws with
  | nil => simp [markerOf_dummyTail]
  | cons w ws => simp

/-- On two sequences of equal length whose tokens all have a marker field, the
token loop returns, and each side has pushed the spans `emitted` describes. -/
theorem tokenLoop_padded :
    ∀ (tw aw : List String) (i : Nat) (st : LoopState), tw.length = aw.length →
      (∀ w ∈ tw, hasMarker w) → (∀ w ∈ aw, hasMarker w) →
      ∃ st', tokenLoop i (aw ++ [dummyTail]) (tw ++ [dummyTail]) st = some st' ∧
        st'.truths = st.truths ++ emitted i (tw.map markerOf) st.truthEntity ∧
        st'.algs = st.algs ++ emitted i (aw.map markerOf) st.algEntity := by
  intro tw
  induction tw with
  | nil =>
    intro aw i st hlen _ _
    have : aw = [] := List.length_eq_zero.mp hlen.symm
    subst this
    exact ⟨st, by simp [tokenLoop], by simp [emitted], by simp [emitted]⟩
  | cons t ts ih =>
    intro aw i st hlen htw haw
    cases aw with
    | nil => simp at hlen
    | cons a as =>
      have hlen' : ts.length = as.length := by simpa using hlen
      have ha : hasMarker a := haw a (List.mem_cons_self _ _)
      have ht : hasMarker t := htw t (List.mem_cons_self _ _)
      obtain ⟨st1, e0, e1, e2, e3, e4⟩ :=
        tokenStep_of_hasMarker i a ((as ++ [dummyTail]).headD dummyTail) t
          ((ts ++ [dummyTail]).headD dummyTail) st ha ht
      obtain ⟨st2, f0, f1, f2⟩ := ih as (i + 1) st1 hlen'
        (fun w hw => htw w (List.mem_cons_of_mem _ hw))
        (fun w hw => haw w (List.mem_cons_of_mem _ hw))
      refine ⟨st2, ?_, ?_, ?_⟩
      · rw [List.cons_append, List.cons_append,
          tokenLoop_cons i a t dummyTail _ _ st (by simp) (by simp), e0]
        exact f0
      · rw [f1, e2, e1, headD_append_dummy]
        simp [emitted]
      · rw [f2, e4, e3, headD_append_dummy]
        simp [emitted]

/-- When the token loop returns on two sequences of equal length, every token
has a marker field. -/
theorem tokenLoop_hasMarker :
    ∀ (tw aw : List String) (i : Nat) (st st' : LoopState), tw.length = aw.length →
      tokenLoop i (aw ++ [dummyTail]) (tw ++ [dummyTail]) st = some st' →
      (∀ w ∈ tw, hasMarker w) ∧ (∀ w ∈ aw, hasMarker w) := by
  intro tw
  induction tw with
  | nil =>
    intro aw i st st' hlen _
    have : aw = [] := List.length_eq_zero.mp hlen.symm
    subst this
    simp
  | cons t ts ih =>
    intro aw i st st' hlen h
    cases aw with
    | nil => simp at hlen
    | cons a as =>
      have hlen' : ts.length = as.length := by simpa using hlen
      rw [List.cons_append, List.cons_append,
        tokenLoop_cons i a t dummyTail _ _ st (by simp) (by simp)] at h
      cases hs : tokenStep i a ((as ++ [dummyTail]).headD dummyTail) t
          ((ts ++ [dummyTail]).headD dummyTail) st with
      | none =>
        rw [hs] at h
        simp at h
      | some st1 =>
        rw [hs, Option.some_bind] at h
        obtain ⟨m1, m2⟩ := tokenStep_hasMarker hs
        obtain ⟨r1, r2⟩ := ih as (i + 1) st1 st' hlen' h
        constructor
        · intro w hw
          rcases List.mem_cons.mp hw with rfl | hw
          · exact m2
          · exact r1 w hw
        · intro w hw
          rcases List.mem_cons.mp hw with rfl | hw
          · exact m1
          · exact r2 w hw

theorem consistentFrom_weaken {p : String} {ms : List String}
    (h : consistentFrom p ms = true) : consistentFrom "I" ms = true := by
  cases ms with
  | nil => rfl
  | cons m ms =>
    simp only [consistentFrom, Bool.and_eq_true] at h ⊢
    exact ⟨by simp, h.2⟩

theorem emitted_runs :
    ∀ (ms : List String) (i : Nat) (entity : Span), consistentFrom "I" ms = true →
      emitted i ms entity =
        (if ms.head? = some "I" then
          [⟨entity.head, i + (ms.tail.takeWhile fun x => decide (x = "I")).length, entity.id⟩]
         else []) ++ entityRuns i ms := by
  intro ms
  induction ms with
  | nil => intro i entity _; simp [emitted, entityRuns]
  | cons m rest ih =>
    intro i entity hc
    have hc' : consistentFrom m rest = true := by
      simp only [consistentFrom, Bool.and_eq_true] at hc
      exact hc.2
    have hI : consistentFrom "I" rest = true := consistentFrom_weaken hc'
    cases rest with
    | nil =>
      simp only [emitted, entityRuns, List.headD_nil, decodeMarker, updateEntity]
      by_cases h1 : m = "O"
      · subst h1; simp
      · by_cases h2 : m = "I"
        · subst h2; simp
        · simp [h1, h2]
    | cons n rest' =>
      have ih1 := ih (i + 1)
      rw [emitted]
      simp only [List.headD_cons, decodeMarker, updateEntity]
      by_cases hn : n = "I"
      · subst hn
        by_cases h1 : m = "O"
        · subst h1
          simp [consistentFrom] at hc'
        · by_cases h2 : m = "I"
          · subst h2
            simp [ih1 _ hI, entityRuns]
            omega
          · simp [ih1 _ hI, entityRuns, h1, h2]
            omega
      · by_cases h1 : m = "O"
        · subst h1
          simp [ih1 _ hI, entityRuns, hn]
        · by_cases h2 : m = "I"
          · subst h2
            simp [ih1 _ hI, entityRuns, hn]
          · simp [ih1 _ hI, entityRuns, hn, h1, h2]

theorem emitted_consistent (ms : List String) (entity : Span) (h : Consistent ms) :
    emitted 0 ms entity = entityRuns 0 ms := by
  have hI : consistentFrom "I" ms = true := consistentFrom_weaken h
  rw [emitted_runs ms 0 entity hI]
  cases ms with
  | nil => simp
  | cons m ms =>
    have : m ≠ "I" := by
      intro hm
      subst hm
      simp [Consistent, consistentFrom] at h
    simp [this]

theorem entityRuns_head_ge :
    ∀ (ms : List String) (i : Nat), ∀ s ∈ entityRuns i ms,
      i + (ms.takeWhile fun x => decide (x = "I")).length ≤ s.head := by
  intro ms
  induction ms with
  | nil => intro i s hs; simp [entityRuns] at hs
  | cons m ms ih =>
    intro i s hs
    by_cases h2 : m = "I"
    · subst h2
      simp only [entityRuns, or_true, if_true] at hs
      have := ih (i + 1) s hs
      simp
      omega
    · by_cases h1 : m = "O"
      · subst h1
        simp only [entityRuns, true_or, if_true] at hs
        have := ih (i + 1) s hs
        simp
        omega
      · simp only [entityRuns, h1, h2, or_self, if_false, List.mem_cons] at hs
        simp only [List.takeWhile_cons, h2, decide_False, Bool.false_eq_true, if_false,
          List.length_nil, Nat.add_zero]
        rcases hs with rfl | hs
        · exact Nat.le_refl _
        · have := ih (i + 1) s hs
          omega

/-- The maximal entity runs of any marker sequence form an ordered span list. -/
theorem entityRuns_ordered : ∀ (ms : List String) (i : Nat), Ordered (entityRuns i ms) := by
  intro ms
  induction ms with
  | nil => intro i; simp [entityRuns, Ordered]
  | cons m ms ih =>
    intro i
    by_cases h : m = "O" ∨ m = "I"
    · simp only [entityRuns, h, if_true]
      exact ih (i + 1)
    · simp only [entityRuns, h, if_false]
      obtain ⟨c, p⟩ := ih (i + 1)
      constructor
      · rw [List.chain'_cons']
        refine ⟨fun y hy => ?_, c⟩
        have hy' : y ∈ entityRuns (i + 1) ms := List.mem_of_mem_head? hy
        have := entityRuns_head_ge ms (i + 1) y hy'
        simp only
        omega
      · intro s hs
        rcases List.mem_cons.mp hs with rfl | hs
        · simp
        · exact p s hs

/-! ## Span extraction -/

theorem extract_runs (sb : StatsBIOES) (tw aw : List String)
    (hlen : tw.length = aw.length)
    (htw : ∀ w ∈ tw, hasMarker w) (haw : ∀ w ∈ aw, hasMarker w) :
    ∃ lp, extract sb tw aw = some lp ∧
      (Consistent (tw.map markerOf) → lp.truths = entityRuns 0 (tw.map markerOf)) ∧
      (Consistent (aw.map markerOf) → lp.algs = entityRuns 0 (aw.map markerOf)) := by
  obtain ⟨lp, h0, h1, h2⟩ := tokenLoop_padded tw aw 0 (initLoop sb) hlen htw haw
  refine ⟨lp, h0, fun hc => ?_, fun hc => ?_⟩
  · rw [h1, emitted_consistent _ _ hc]
    simp [initLoop]
  · rw [h2, emitted_consistent _ _ hc]
    simp [initLoop]

/-- C10: on a sentence whose tokens all have a marker field, the token loop
returns, and for a side whose `I`-marked tokens each directly follow a token with
a marker other than `O`, the span list it builds is the list of maximal entity
runs: one span per token whose marker is neither `O` nor `I`, with that marker as
identifier, ending at the last of the `I`-marked tokens that directly follow. -/
theorem extract_entityRuns (sb : StatsBIOES) (tw aw : List String)
    (hlen : tw.length = aw.length)
    (htw : ∀ w ∈ tw, hasMarker w) (haw : ∀ w ∈ aw, hasMarker w) :
    ∃ lp, extract sb tw aw = some lp ∧
      (Consistent (tw.map markerOf) → lp.truths = entityRuns 0 (tw.map markerOf)) ∧
      (Consistent (aw.map markerOf) → lp.algs = entityRuns 0 (aw.map markerOf)) :=
  extract_runs sb tw aw hlen htw haw

/-- C10 on the markers `[Q1, I, I, O]` of the specification: the only span is
`(0, 2, "Q1")`. -/
theorem extract_entityRuns_witness :
    ([ "a\\x\\Q1", "b\\x\\I", "c\\x\\I", "d\\x\\O" ] : List String).length =
      ([ "a\\x\\O", "b\\x\\O", "c\\x\\O", "d\\x\\O" ] : List String).length ∧
    (∀ w ∈ ([ "a\\x\\Q1", "b\\x\\I", "c\\x\\I", "d\\x\\O" ] : List String),
      hasMarker w) ∧
    (∀ w ∈ ([ "a\\x\\O", "b\\x\\O", "c\\x\\O", "d\\x\\O" ] : List String),
      hasMarker w) ∧
    Consistent (([ "a\\x\\Q1", "b\\x\\I", "c\\x\\I", "d\\x\\O" ] : List String).map
      markerOf) ∧
    entityRuns 0 (([ "a\\x\\Q1", "b\\x\\I", "c\\x\\I", "d\\x\\O" ] : List String).map
      markerOf) = [⟨0, 2, "Q1"⟩] ∧
    ∃ lp, extract (fun _ _ => 0) [ "a\\x\\Q1", "b\\x\\I", "c\\x\\I", "d\\x\\O" ]
        [ "a\\x\\O", "b\\x\\O", "c\\x\\O", "d\\x\\O" ] = some lp ∧
      (Consistent (([ "a\\x\\Q1", "b\\x\\I", "c\\x\\I", "d\\x\\O" ] : List String).map
          markerOf) →
        lp.truths = entityRuns 0
          (([ "a\\x\\Q1", "b\\x\\I", "c\\x\\I", "d\\x\\O" ] : List String).map markerOf)) ∧
      (Consistent (([ "a\\x\\O", "b\\x\\O", "c\\x\\O", "d\\x\\O" ] : List String).map
          markerOf) →
        lp.algs = entityRuns 0
          (([ "a\\x\\O", "b\\x\\O", "c\\x\\O", "d\\x\\O" ] : List String).map markerOf)) :=
  ⟨by decide, by decide, by decide, by decide, by decide,
   extract_entityRuns (fun _ _ => 0) _ _ (by decide) (by decide) (by decide)⟩

/-! ## The pointer of the alignment passes on ordered span lists -/

theorem matched_iff_mem (spans : List Span) (e : Span) : matched spans e ↔ e ∈ spans := by
  unfold matched
  constructor
  · rintro ⟨t, ht, h1, h2, h3⟩
    have : t = e := by
      cases t; cases e; simp_all
    exact this ▸ ht
  · intro h
    exact ⟨e, h, rfl, rfl, rfl⟩

theorem Ordered.tail_of_cons {a : Span} {l : List Span} (h : Ordered (a :: l)) : Ordered l :=
  ⟨List.Chain'.tail h.1, fun s hs => h.2 s (List.mem_cons_of_mem _ hs)⟩

theorem Ordered.lt_of_cons {a : Span} {l : List Span} (h : Ordered (a :: l)) :
    ∀ b ∈ l, a.tail < b.head := by
  induction l generalizing a with
  | nil => intro b hb; simp at hb
  | cons c l ih =>
    intro b hb
    have hac : a.tail < c.head := by
      have := h.1
      rw [List.chain'_cons] at this
      exact this.1
    rcases List.mem_cons.mp hb with rfl | hb
    · exact hac
    · have hc : c.head ≤ c.tail := h.2 c (by simp)
      have := ih h.tail_of_cons b hb
      omega

theorem Ordered.pairwise {l : List Span} (h : Ordered l) :
    l.Pairwise fun a b => a.tail < b.head := by
  induction l with
  | nil => exact List.Pairwise.nil
  | cons a l ih => exact List.Pairwise.cons h.lt_of_cons (ih h.tail_of_cons)

theorem forwardLoop_spec (spans : List Span) (h : Nat) :
    ∀ (n j : Nat), n = spans.length - j → j < spans.length → Behind spans j h →
      ∃ j', forwardLoop spans h n j = some j' ∧ j ≤ j' ∧ j' < spans.length ∧
        Behind spans j' h ∧
        ∀ c, spans[j']? = some c → h ≤ c.tail ∨ j' = spans.length - 1 := by
  intro n
  induction n with
  | zero => intro j hn hj _; omega
  | succ n ih =>
    intro j hn hj hb
    have hs : spans[j]? = some spans[j] := List.getElem?_eq_getElem hj
    simp only [forwardLoop, hs]
    by_cases hc : spans[j].tail < h ∧ j < spans.length - 1
    · simp only [hc, and_self, if_true]
      have hb' : Behind spans (j + 1) h := by
        intro s hs'
        rw [List.take_succ, hs] at hs'
        simp only [Option.toList_some, List.mem_append, List.mem_singleton] at hs'
        rcases hs' with hs' | rfl
        · exact hb s hs'
        · exact hc.1
      obtain ⟨j', e1, e2, e3, e4, e5⟩ := ih (j + 1) (by omega) (by omega) hb'
      exact ⟨j', e1, by omega, e3, e4, e5⟩
    · simp only [hc, if_false]
      refine ⟨j, rfl, Nat.le_refl _, hj, hb, fun c hc' => ?_⟩
      rw [hs] at hc'
      cases hc'
      by_cases h1 : spans[j].tail < h
      · right
        have : ¬ (j < spans.length - 1) := fun h2 => hc ⟨h1, h2⟩
        omega
      · left
        omega

theorem forward_spec (spans : List Span) (h j : Nat) (hj : j < spans.length)
    (hb : Behind spans j h) :
    ∃ j', forward spans h j = some j' ∧ j ≤ j' ∧ j' < spans.length ∧
      Behind spans j' h ∧
      ∀ c, spans[j']? = some c → h ≤ c.tail ∨ j' = spans.length - 1 :=
  forwardLoop_spec spans h _ j rfl hj hb

/-- On an ordered list, the span the pointer stops at is the only one that can
cover the position `h`. -/
theorem cover_unique {spans : List Span} (ho : Ordered spans) {j : Nat} {c : Span} {h : Nat}
    (hc : spans[j]? = some c) (hb : Behind spans j h)
    (hstop : h ≤ c.tail ∨ j = spans.length - 1) :
    ∀ s ∈ spans, s.head ≤ h → h ≤ s.tail → s = c := by
  intro s hs h1 h2
  obtain ⟨k, hk, rfl⟩ := List.mem_iff_getElem.mp hs
  obtain ⟨hj, rfl⟩ := List.getElem?_eq_some.mp hc
  rcases Nat.lt_trichotomy k j with hlt | heq | hgt
  · exfalso
    have : spans[k] ∈ spans.take j := by
      apply List.getElem?_mem (n := k)
      rw [List.getElem?_take_of_lt hlt]
      exact List.getElem?_eq_getElem hk
    have := hb _ this
    omega
  · subst heq; rfl
  · exfalso
    have hp := List.pairwise_iff_getElem.mp ho.pairwise j k hj hk hgt
    rcases hstop with h3 | h3
    · omega
    · omega

theorem Behind.mono {spans : List Span} {j h h' : Nat} (hb : Behind spans j h) (hh : h ≤ h') :
    Behind spans j h' := fun s hs => Nat.lt_of_lt_of_le (hb s hs) hh

theorem Behind.zero (spans : List Span) (h : Nat) : Behind spans 0 h := by
  intro s hs
  simp at hs

theorem inKB_eq_false_iff (id : String) : inKB id = false ↔ substr id 0 1 ≠ "Q" := by
  simp [inKB]

/-- One step of the first pass on an ordered gold list, with the pointer behind
the start of the predicted span. -/
theorem fpStep_spec {truths : List Span} (ho : Ordered truths) (st : AlignState) (e : Span)
    (he : e.head ≤ e.tail) (hj : truths ≠ [] → st.j < truths.length)
    (hb : Behind truths st.j e.head) :
    ∃ st', fpStep truths st e = some st' ∧
      (truths ≠ [] → st'.j < truths.length) ∧ Behind truths st'.j e.head ∧
      st'.macroTp = st.macroTp +
        (if (inKB e.id && decide (matched truths e)) = true then 1 else 0) ∧
      st'.macroFp = st.macroFp +
        (if (inKB e.id && !decide (matched truths e) && !decide (carvedOut truths e)) = true
          then 1 else 0) := by
  unfold fpStep
  cases hk : inKB e.id with
  | false => exact ⟨st, by simp, hj, hb, by simp, by simp⟩
  | true =>
    by_cases h0 : truths.length = 0
    · have hnil : truths = [] := List.length_eq_zero.mp h0
      subst hnil
      refine ⟨{ st with macroFp := st.macroFp + 1, sentenceCorrect := false },
        by simp, by simp, by simpa using hb, ?_, ?_⟩
      · simp [matched]
      · simp [matched, carvedOut]
    · have hne : truths ≠ [] := fun hh => h0 (by simp [hh])
      obtain ⟨j', f1, f2, f3, f4, f5⟩ := forward_spec truths e.head st.j (hj hne) hb
      have hc : truths[j']? = some truths[j'] := List.getElem?_eq_getElem f3
      have hmem : truths[j'] ∈ truths := List.getElem?_mem hc
      have huniq := cover_unique ho hc f4 (f5 _ hc)
      have hm : matched truths e ↔
          (truths[j'].head = e.head ∧ truths[j'].tail = e.tail ∧ truths[j'].id = e.id) := by
        constructor
        · rintro ⟨t, ht, h1, h2, h3⟩
          have := huniq t ht (by omega) (by omega)
          subst this
          exact ⟨h1, h2, h3⟩
        · intro h
          exact ⟨_, hmem, h⟩
      have hcv : carvedOut truths e ↔
          (truths[j'].head ≤ e.head ∧ truths[j'].tail ≥ e.tail ∧
            substr truths[j'].id 0 1 ≠ "Q") := by
        constructor
        · rintro ⟨t, ht, h1, h2, h3⟩
          have := huniq t ht (by omega) (by omega)
          subst this
          exact ⟨h2, h3, (inKB_eq_false_iff _).mp h1⟩
        · rintro ⟨h1, h2, h3⟩
          exact ⟨_, hmem, (inKB_eq_false_iff _).mpr h3, h1, h2⟩
      simp only [Bool.not_true, Bool.false_eq_true, if_false, h0, f1, hc]
      by_cases c1 : truths[j'].head = e.head ∧ truths[j'].tail = e.tail ∧ truths[j'].id = e.id
      · have m1 : matched truths e := hm.mpr c1
        rw [if_pos c1]
        exact ⟨_, rfl, fun _ => f3, f4, by simp [m1], by simp [m1]⟩
      · have m1 : ¬ matched truths e := fun hh => c1 (hm.mp hh)
        rw [if_neg c1]
        by_cases c2 : truths[j'].head ≤ e.head ∧ truths[j'].tail ≥ e.tail ∧
            substr truths[j'].id 0 1 ≠ "Q"
        · have m2 : carvedOut truths e := hcv.mpr c2
          rw [if_pos c2]
          exact ⟨_, rfl, fun _ => f3, f4, by simp [m1], by simp [m1, m2]⟩
        · have m2 : ¬ carvedOut truths e := fun hh => c2 (hcv.mp hh)
          rw [if_neg c2]
          exact ⟨_, rfl, fun _ => f3, f4, by simp [m1], by simp [m1, m2]⟩

/-- One step of the second pass on an ordered predicted list, with the pointer
behind the start of the gold span. -/
theorem fnStep_spec {algs : List Span} (ho : Ordered algs) (st : AlignState) (e : Span)
    (he : e.head ≤ e.tail) (hj : algs ≠ [] → st.j < algs.length)
    (hb : Behind algs st.j e.head) :
    ∃ st', fnStep algs st e = some st' ∧
      (algs ≠ [] → st'.j < algs.length) ∧ Behind algs st'.j e.head ∧
      st'.macroFn = st.macroFn +
        (if (inKB e.id && !decide (matched algs e)) = true then 1 else 0) := by
  unfold fnStep
  cases hk : inKB e.id with
  | false => exact ⟨st, by simp, hj, hb, by simp⟩
  | true =>
    by_cases h0 : algs.length = 0
    · have hnil : algs = [] := List.length_eq_zero.mp h0
      subst hnil
      refine ⟨{ st with macroFn := st.macroFn + 1, sentenceCorrect := false },
        by simp, by simp, by simpa using hb, ?_⟩
      simp [matched]
    · have hne : algs ≠ [] := fun hh => h0 (by simp [hh])
      obtain ⟨j', f1, f2, f3, f4, f5⟩ := forward_spec algs e.head st.j (hj hne) hb
      have hc : algs[j']? = some algs[j'] := List.getElem?_eq_getElem f3
      have hmem : algs[j'] ∈ algs := List.getElem?_mem hc
      have huniq := cover_unique ho hc f4 (f5 _ hc)
      have hm : matched algs e ↔
          (algs[j'].head = e.head ∧ algs[j'].tail = e.tail ∧ algs[j'].id = e.id) := by
        constructor
        · rintro ⟨t, ht, h1, h2, h3⟩
          have := huniq t ht (by omega) (by omega)
          subst this
          exact ⟨h1, h2, h3⟩
        · intro h
          exact ⟨_, hmem, h⟩
      simp only [Bool.not_true, Bool.false_eq_true, if_false, h0, f1, hc]
      by_cases c1 : algs[j'].head = e.head ∧ algs[j'].tail = e.tail ∧ algs[j'].id = e.id
      · have m1 : matched algs e := hm.mpr c1
        rw [if_pos c1]
        exact ⟨_, rfl, fun _ => f3, f4, by simp [m1]⟩
      · have m1 : ¬ matched algs e := fun hh => c1 (hm.mp hh)
        rw [if_neg c1]
        exact ⟨_, rfl, fun _ => f3, f4, by simp [m1]⟩

theorem fpPass_spec {truths : List Span} (ho : Ordered truths) :
    ∀ (es : List Span) (st : AlignState), Ordered es →
      (truths ≠ [] → st.j < truths.length) → (∀ e ∈ es, Behind truths st.j e.head) →
      ∃ st', fpPass truths es st = some st' ∧
        st'.macroTp = st.macroTp + tpFull es truths ∧
        st'.macroFp = st.macroFp + fpFull es truths := by
  intro es
  induction es with
  | nil =>
    intro st _ _ _
    exact ⟨st, rfl, by simp [tpFull], by simp [fpFull]⟩
  | cons e es ih =>
    intro st hes hj hb
    obtain ⟨st1, g1, g2, g3, g4, g5⟩ :=
      fpStep_spec ho st e (hes.2 e (List.mem_cons_self _ _)) hj (hb e (List.mem_cons_self _ _))
    have hb1 : ∀ x ∈ es, Behind truths st1.j x.head := by
      intro x hx
      have h1 := hes.lt_of_cons x hx
      have h2 := hes.2 e (List.mem_cons_self _ _)
      exact g3.mono (by omega)
    obtain ⟨st2, k1, k2, k3⟩ := ih st1 hes.tail_of_cons g2 hb1
    refine ⟨st2, ?_, ?_, ?_⟩
    · simp only [fpPass, g1, Option.some_bind]
      exact k1
    · rw [k2, g4]
      simp only [tpFull, List.countP_cons]
      omega
    · rw [k3, g5]
      simp only [fpFull, List.countP_cons]
      omega

theorem fnPass_spec {algs : List Span} (ho : Ordered algs) :
    ∀ (es : List Span) (st : AlignState), Ordered es →
      (algs ≠ [] → st.j < algs.length) → (∀ e ∈ es, Behind algs st.j e.head) →
      ∃ st', fnPass algs es st = some st' ∧
        st'.macroFn = st.macroFn + (es.countP fun e => inKB e.id && !decide (matched algs e)) := by
  intro es
  induction es with
  | nil =>
    intro st _ _ _
    exact ⟨st, rfl, by simp⟩
  | cons e es ih =>
    intro st hes hj hb
    obtain ⟨st1, g1, g2, g3, g4⟩ :=
      fnStep_spec ho st e (hes.2 e (List.mem_cons_self _ _)) hj (hb e (List.mem_cons_self _ _))
    have hb1 : ∀ x ∈ es, Behind algs st1.j x.head := by
      intro x hx
      have h1 := hes.lt_of_cons x hx
      have h2 := hes.2 e (List.mem_cons_self _ _)
      exact g3.mono (by omega)
    obtain ⟨st2, k1, k2⟩ := ih st1 hes.tail_of_cons g2 hb1
    refine ⟨st2, ?_, ?_⟩
    · simp only [fnPass, g1, Option.some_bind]
      exact k1
    · rw [k2, g4]
      simp only [List.countP_cons]
      omega

/-- On ordered span lists the two passes return, with the counts of the full
reconciliation. -/
theorem align_spec {truths algs : List Span} (ht : Ordered truths) (ha : Ordered algs) :
    ∃ al, align truths algs = some al ∧
      al.macroTp = tpFull algs truths ∧ al.macroFp = fpFull algs truths ∧
      al.macroFn = fnFull algs truths := by
  obtain ⟨st1, g1, g2, g3⟩ := fpPass_spec ht algs
    { j := 0, macroTp := 0, macroFp := 0, macroFn := 0, debug := 0, sentenceCorrect := true }
    ha (fun hne => List.length_pos.mpr hne) (fun e _ => Behind.zero _ _)
  obtain ⟨a1, _, _, _⟩ := fpPass_counts truths algs _ _ g1
  obtain ⟨st2, k1, k2⟩ := fnPass_spec ha truths { st1 with j := 0, debug := 0 }
    ht (fun hne => List.length_pos.mpr hne) (fun e _ => Behind.zero _ _)
  obtain ⟨b1, b2, _⟩ := fnPass_counts algs truths _ _ k1
  refine ⟨st2, ?_, ?_, ?_, ?_⟩
  · simp only [align, g1, Option.some_bind]
    exact k1
  · rw [b1]
    simpa using g2
  · rw [b2]
    simpa using g3
  · rw [k2]
    simp only at a1
    simp [fnFull, a1]

/-- A scored sentence whose two tag sequences are consistent: both span lists are
the maximal entity runs, hence ordered. -/
theorem scored_consistent {sb : StatsBIOES} {tw aw : List String} {lp : LoopState}
    {al : AlignState} (hlen : tw.length = aw.length)
    (h : scoreSentence sb tw aw = some (lp, al))
    (hct : Consistent (tw.map markerOf)) (hca : Consistent (aw.map markerOf)) :
    lp.truths = entityRuns 0 (tw.map markerOf) ∧ lp.algs = entityRuns 0 (aw.map markerOf) ∧
    Ordered lp.truths ∧ Ordered lp.algs ∧ align lp.truths lp.algs = some al := by
  obtain ⟨h1, h2⟩ := scoreSentence_eq_some h
  obtain ⟨m1, m2⟩ := tokenLoop_hasMarker tw aw 0 (initLoop sb) lp hlen h1
  obtain ⟨lp', e0, e1, e2⟩ := extract_runs sb tw aw hlen m1 m2
  rw [h1] at e0
  cases e0
  have r1 := e1 hct
  have r2 := e2 hca
  refine ⟨r1, r2, ?_, ?_, h2⟩
  · rw [r1]; exact entityRuns_ordered _ _
  · rw [r2]; exact entityRuns_ordered _ _

theorem Ordered.nodup {l : List Span} (h : Ordered l) : l.Nodup := by
  have hp := h.pairwise
  unfold List.Nodup
  refine List.Pairwise.imp_of_mem ?_ hp
  intro a b ha _ hab heq
  subst heq
  have := h.2 a ha
  omega

/-- Without duplicates, as many spans of the first list occur in the second as
spans of the second occur in the first. -/
theorem countP_matched_comm {algs truths : List Span} (ha : algs.Nodup) (ht : truths.Nodup) :
    (algs.countP fun e => inKB e.id && decide (matched truths e)) =
      truths.countP fun e => inKB e.id && decide (matched algs e) := by
  rw [List.countP_eq_length_filter, List.countP_eq_length_filter]
  apply List.Perm.length_eq
  rw [List.perm_ext_iff_of_nodup (ha.filter _) (ht.filter _)]
  intro e
  simp only [List.mem_filter, Bool.and_eq_true, decide_eq_true_eq, matched_iff_mem]
  tauto

theorem countP_split (p q : Span → Bool) (l : List Span) :
    (l.countP fun e => p e && q e) + (l.countP fun e => p e && !q e) = l.countP p := by
  induction l with
  | nil => simp
  | cons a l ih =>
    simp only [List.countP_cons]
    cases p a <;> cases q a <;> simp <;> omega

theorem countInKB_eq_countP (l : List Span) : countInKB l = l.countP fun e => inKB e.id := by
  rw [countInKB, List.countP_eq_length_filter]

/-! ## Full reconciliation -/

/-- C4: on span lists that are each ordered (every span has start ≤ end and
starts after the span before it ends) the two pointer passes return, with the
counts of the full reconciliation: `tp` the predicted in-KB spans equal to some
gold span, `fp` the predicted in-KB spans that equal no gold span and are not
contained in a gold span without the `Q` prefix, `fn` the gold in-KB spans equal
to no predicted span. -/
theorem align_full_reconciliation (truths algs : List Span)
    (ha : Ordered algs) (ht : Ordered truths) :
    ∃ al, align truths algs = some al ∧
      al.macroTp = tpFull algs truths ∧ al.macroFp = fpFull algs truths ∧
      al.macroFn = fnFull algs truths :=
  align_spec ht ha

/-- C4 on three predicted and three gold spans: one exact match, one predicted
span inside an out-of-KB gold span, one pair that differs in its end index. -/
theorem align_full_reconciliation_witness :
    Ordered [⟨0, 1, "Q1"⟩, ⟨3, 3, "Q2"⟩, ⟨5, 6, "Q3"⟩] ∧
    Ordered [⟨0, 1, "Q1"⟩, ⟨2, 4, "X"⟩, ⟨5, 5, "Q3"⟩] ∧
    tpFull [⟨0, 1, "Q1"⟩, ⟨3, 3, "Q2"⟩, ⟨5, 6, "Q3"⟩]
      [⟨0, 1, "Q1"⟩, ⟨2, 4, "X"⟩, ⟨5, 5, "Q3"⟩] = 1 ∧
    fpFull [⟨0, 1, "Q1"⟩, ⟨3, 3, "Q2"⟩, ⟨5, 6, "Q3"⟩]
      [⟨0, 1, "Q1"⟩, ⟨2, 4, "X"⟩, ⟨5, 5, "Q3"⟩] = 1 ∧
    fnFull [⟨0, 1, "Q1"⟩, ⟨3, 3, "Q2"⟩, ⟨5, 6, "Q3"⟩]
      [⟨0, 1, "Q1"⟩, ⟨2, 4, "X"⟩, ⟨5, 5, "Q3"⟩] = 1 ∧
    ∃ al, align [⟨0, 1, "Q1"⟩, ⟨2, 4, "X"⟩, ⟨5, 5, "Q3"⟩]
        [⟨0, 1, "Q1"⟩, ⟨3, 3, "Q2"⟩, ⟨5, 6, "Q3"⟩] = some al ∧
      al.macroTp = tpFull [⟨0, 1, "Q1"⟩, ⟨3, 3, "Q2"⟩, ⟨5, 6, "Q3"⟩]
        [⟨0, 1, "Q1"⟩, ⟨2, 4, "X"⟩, ⟨5, 5, "Q3"⟩] ∧
      al.macroFp = fpFull [⟨0, 1, "Q1"⟩, ⟨3, 3, "Q2"⟩, ⟨5, 6, "Q3"⟩]
        [⟨0, 1, "Q1"⟩, ⟨2, 4, "X"⟩, ⟨5, 5, "Q3"⟩] ∧
      al.macroFn = fnFull [⟨0, 1, "Q1"⟩, ⟨3, 3, "Q2"⟩, ⟨5, 6, "Q3"⟩]
        [⟨0, 1, "Q1"⟩, ⟨2, 4, "X"⟩, ⟨5, 5, "Q3"⟩] :=
  ⟨by simp [Ordered], by simp [Ordered], by decide, by decide, by decide,
   align_full_reconciliation _ _ (by simp [Ordered]) (by simp [Ordered])⟩

/-! ## Scoring returns -/

theorem forwardLoop_total (spans : List Span) (h : Nat) :
    ∀ (n j : Nat), n = spans.length - j → j < spans.length →
      ∃ j', forwardLoop spans h n j = some j' ∧ j ≤ j' ∧ j' < spans.length := by
  intro n
  induction n with
  | zero => intro j hn hj; omega
  | succ n ih =>
    intro j hn hj
    have hs : spans[j]? = some spans[j] := List.getElem?_eq_getElem hj
    simp only [forwardLoop, hs]
    by_cases hc : spans[j].tail < h ∧ j < spans.length - 1
    · simp only [hc, and_self, if_true]
      obtain ⟨j', e1, e2, e3⟩ := ih (j + 1) (by omega) (by omega)
      exact ⟨j', e1, by omega, e3⟩
    · simp only [hc, if_false]
      exact ⟨j, rfl, Nat.le_refl _, hj⟩

theorem fpStep_total (truths : List Span) (st : AlignState) (e : Span)
    (hj : truths ≠ [] → st.j < truths.length) :
    ∃ st', fpStep truths st e = some st' ∧ st.j ≤ st'.j ∧
      (truths ≠ [] → st'.j < truths.length) := by
  unfold fpStep
  split_ifs with c1 c2
  · exact ⟨st, rfl, Nat.le_refl _, hj⟩
  · exact ⟨_, rfl, Nat.le_refl _, hj⟩
  · have hne : truths ≠ [] := fun hh => c2 (by simp [hh])
    obtain ⟨j', f1, f2, f3⟩ := forwardLoop_total truths e.head _ st.j rfl (hj hne)
    have hc : truths[j']? = some truths[j'] := List.getElem?_eq_getElem f3
    simp only [forward, f1, hc]
    split_ifs
    · exact ⟨_, rfl, f2, fun _ => f3⟩
    · exact ⟨_, rfl, f2, fun _ => f3⟩
    · exact ⟨_, rfl, f2, fun _ => f3⟩

theorem fnStep_total (algs : List Span) (st : AlignState) (e : Span)
    (hj : algs ≠ [] → st.j < algs.length) :
    ∃ st', fnStep algs st e = some st' ∧ st.j ≤ st'.j ∧
      (algs ≠ [] → st'.j < algs.length) := by
  unfold fnStep
  split_ifs with c1 c2
  · exact ⟨st, rfl, Nat.le_refl _, hj⟩
  · exact ⟨_, rfl, Nat.le_refl _, hj⟩
  · have hne : algs ≠ [] := fun hh => c2 (by simp [hh])
    obtain ⟨j', f1, f2, f3⟩ := forwardLoop_total algs e.head _ st.j rfl (hj hne)
    have hc : algs[j']? = some algs[j'] := List.getElem?_eq_getElem f3
    simp only [forward, f1, hc]
    split_ifs
    · exact ⟨_, rfl, f2, fun _ => f3⟩
    · exact ⟨_, rfl, f2, fun _ => f3⟩

theorem fpPass_total (truths : List Span) :
    ∀ (es : List Span) (st : AlignState), (truths ≠ [] → st.j < truths.length) →
      ∃ st', fpPass truths es st = some st' := by
  intro es
  induction es with
  | nil => intro st _; exact ⟨st, rfl⟩
  | cons e es ih =>
    intro st hj
    obtain ⟨st1, g1, _, g3⟩ := fpStep_total truths st e hj
    obtain ⟨st2, k1⟩ := ih st1 g3
    exact ⟨st2, by simp only [fpPass, g1, Option.some_bind]; exact k1⟩

theorem fnPass_total (algs : List Span) :
    ∀ (es : List Span) (st : AlignState), (algs ≠ [] → st.j < algs.length) →
      ∃ st', fnPass algs es st = some st' := by
  intro es
  induction es with
  | nil => intro st _; exact ⟨st, rfl⟩
  | cons e es ih =>
    intro st hj
    obtain ⟨st1, g1, _, g3⟩ := fnStep_total algs st e hj
    obtain ⟨st2, k1⟩ := ih st1 g3
    exact ⟨st2, by simp only [fnPass, g1, Option.some_bind]; exact k1⟩

/-- The two passes return on all span lists. -/
theorem align_total (truths algs : List Span) : ∃ al, align truths algs = some al := by
  obtain ⟨st1, g1⟩ := fpPass_total truths algs
    { j := 0, macroTp := 0, macroFp := 0, macroFn := 0, debug := 0, sentenceCorrect := true }
    (fun hne => List.length_pos.mpr hne)
  obtain ⟨st2, k1⟩ := fnPass_total algs truths { st1 with j := 0, debug := 0 }
    (fun hne => List.length_pos.mpr hne)
  exact ⟨st2, by simp only [align, g1, Option.some_bind]; exact k1⟩

/-- A sentence of equal gold and predicted length is scored exactly when every
token of either side has a marker field. -/
theorem scoreSentence_isSome_iff (sb : StatsBIOES) (tw aw : List String)
    (hlen : tw.length = aw.length) :
    (scoreSentence sb tw aw).isSome = true ↔
      (∀ w ∈ tw, hasMarker w) ∧ (∀ w ∈ aw, hasMarker w) := by
  constructor
  · intro h
    cases hs : scoreSentence sb tw aw with
    | none => simp [hs] at h
    | some p =>
      obtain ⟨h1, _⟩ := @scoreSentence_eq_some sb tw aw p.1 p.2 hs
      exact tokenLoop_hasMarker tw aw 0 (initLoop sb) p.1 hlen h1
  · rintro ⟨htw, haw⟩
    obtain ⟨lp, h0, _, _⟩ := tokenLoop_padded tw aw 0 (initLoop sb) hlen htw haw
    obtain ⟨al, h1⟩ := align_total lp.truths lp.algs
    have h0' : extract sb tw aw = some lp := h0
    simp [scoreSentence, h0', h1]

theorem isSome_of_hasMarker (sb : StatsBIOES) (tw aw : List String)
    (hlen : tw.length = aw.length)
    (htw : ∀ w ∈ tw, hasMarker w) (haw : ∀ w ∈ aw, hasMarker w) :
    (scoreSentence sb tw aw).isSome = true :=
  (scoreSentence_isSome_iff sb tw aw hlen).mpr ⟨htw, haw⟩

/-! ## Counts of the first pass -/

theorem tp_fp_of_scored {sb : StatsBIOES} {tw aw : List String} {lp : LoopState}
    {al : AlignState} (h : scoreSentence sb tw aw = some (lp, al)) :
    al.macroTp + al.macroFp ≤ countInKB lp.algs ∧
    ((∀ e ∈ lp.algs, inKB e.id = true → ¬ carvedOut lp.truths e) →
      al.macroTp + al.macroFp = countInKB lp.algs) := by
  obtain ⟨_, h2⟩ := scoreSentence_eq_some h
  obtain ⟨a, b, _⟩ := align_counts h2
  exact ⟨a, b⟩

/-- C1, as the code has it: a sentence of equal gold and predicted length is
scored when every token has a marker field, and in every scored sentence
`true_positive + false_positive` is at most the number of predicted in-KB
spans, and equal to it when no predicted in-KB span is contained in a gold span
whose identifier lacks the `Q` prefix (the out-of-KB branch of the first pass
counts nothing). -/
theorem scoreSentence_tp_fp (sb : StatsBIOES) (tw aw : List String)
    (hlen : tw.length = aw.length) :
    ((∀ w ∈ tw, hasMarker w) → (∀ w ∈ aw, hasMarker w) →
      (scoreSentence sb tw aw).isSome = true) ∧
    ∀ lp al, scoreSentence sb tw aw = some (lp, al) →
      al.macroTp + al.macroFp ≤ countInKB lp.algs ∧
      ((∀ e ∈ lp.algs, inKB e.id = true → ¬ carvedOut lp.truths e) →
        al.macroTp + al.macroFp = countInKB lp.algs) :=
  ⟨isSome_of_hasMarker sb tw aw hlen, fun _ _ h => tp_fp_of_scored h⟩

/-- C1 as stated fails: gold `w\?\X`, predicted `w\?\Q1` gives one predicted
in-KB span and `true_positive = false_positive = 0`. -/
theorem scoreSentence_tp_fp_counterexample :
    (scoreSentence (fun _ _ => 0) ["w\\?\\X"] ["w\\?\\Q1"]).map
      (fun p => (p.2.macroTp, p.2.macroFp, countInKB p.1.algs)) = some (0, 0, 1) := by
  decide

/-- C1 on gold `w1\?\Q10 w2\?\I w3\?\O` and predicted `w1\?\Q7 w2\?\I w3\?\O`,
where `tp = 0`, `fp = 1` and there is one predicted in-KB span. -/
theorem scoreSentence_tp_fp_witness :
    (["w1\\?\\Q10", "w2\\?\\I", "w3\\?\\O"] : List String).length =
      (["w1\\?\\Q7", "w2\\?\\I", "w3\\?\\O"] : List String).length ∧
    (scoreSentence (fun _ _ => 0) ["w1\\?\\Q10", "w2\\?\\I", "w3\\?\\O"]
        ["w1\\?\\Q7", "w2\\?\\I", "w3\\?\\O"]).map
      (fun p => (p.2.macroTp, p.2.macroFp, countInKB p.1.algs)) = some (0, 1, 1) ∧
    (((∀ w ∈ (["w1\\?\\Q10", "w2\\?\\I", "w3\\?\\O"] : List String), hasMarker w) →
    (∀ w ∈ (["w1\\?\\Q7", "w2\\?\\I", "w3\\?\\O"] : List String), hasMarker w) →
      (scoreSentence (fun _ _ => 0) ["w1\\?\\Q10", "w2\\?\\I", "w3\\?\\O"]
          ["w1\\?\\Q7", "w2\\?\\I", "w3\\?\\O"]).isSome = true) ∧
    ∀ lp al, scoreSentence (fun _ _ => 0) ["w1\\?\\Q10", "w2\\?\\I", "w3\\?\\O"]
        ["w1\\?\\Q7", "w2\\?\\I", "w3\\?\\O"]
        = some (lp, al) →
      al.macroTp + al.macroFp ≤ countInKB lp.algs ∧
      ((∀ e ∈ lp.algs, inKB e.id = true → ¬ carvedOut lp.truths e) →
        al.macroTp + al.macroFp = countInKB lp.algs)) :=
  ⟨by decide, by decide, scoreSentence_tp_fp (fun _ _ => 0) ["w1\\?\\Q10", "w2\\?\\I", "w3\\?\\O"]
      ["w1\\?\\Q7", "w2\\?\\I", "w3\\?\\O"]
      (by decide)⟩

/-! ## A sentence without predicted spans -/

theorem no_prediction_of_scored {sb : StatsBIOES} {tw aw : List String} {lp : LoopState}
    {al : AlignState}
    (h : scoreSentence sb tw aw = some (lp, al)) (hempty : lp.algs = []) :
    al.macroTp = 0 ∧ al.macroFp = 0 ∧ al.macroFn = countInKB lp.truths ∧
    (0 < countInKB lp.truths →
      verdictCode al = NERNED_WRONG ∧ (computeF1 al.macroTp al.macroFp al.macroFn).value = some 0) := by
  obtain ⟨_, h2⟩ := scoreSentence_eq_some h
  obtain ⟨a, _, c⟩ := align_counts h2
  have hcor := align_correct h2
  rw [hempty] at h2 a
  obtain ⟨st, h3, h4⟩ := align_eq_some h2
  have hd := fnPass_nil_debug _ _ _ h4
  simp only at hd
  have a0 : countInKB [] = 0 := rfl
  rw [a0] at a
  have htp : al.macroTp = 0 := by omega
  have hfp : al.macroFp = 0 := by omega
  have hfn : al.macroFn = countInKB lp.truths := by omega
  refine ⟨htp, hfp, hfn, fun hpos => ?_⟩
  constructor
  · have hne : ¬ (al.sentenceCorrect = true) := by
      rw [hcor]
      omega
    simp [verdictCode, hne]
  · rw [htp, hfp, computeF1_zero_tp _ _ (by omega)]
    exact value_fin_zero

/-- C6: a sentence of equal gold and predicted length is scored when every
token has a marker field, and when the predicted span list of a scored sentence
is empty, `tp = 0`, `fp = 0` and `fn` is the number of gold in-KB spans; when
that number is positive the verdict is Wrong and the F1 of the sentence is
`0`. -/
theorem scoreSentence_no_prediction (sb : StatsBIOES) (tw aw : List String)
    (hlen : tw.length = aw.length) :
    ((∀ w ∈ tw, hasMarker w) → (∀ w ∈ aw, hasMarker w) →
      (scoreSentence sb tw aw).isSome = true) ∧
    ∀ lp al, scoreSentence sb tw aw = some (lp, al) → lp.algs = [] →
      al.macroTp = 0 ∧ al.macroFp = 0 ∧ al.macroFn = countInKB lp.truths ∧
      (0 < countInKB lp.truths →
        verdictCode al = NERNED_WRONG ∧ (computeF1 al.macroTp al.macroFp al.macroFn).value = some 0) :=
  ⟨isSome_of_hasMarker sb tw aw hlen, fun _ _ h hempty => no_prediction_of_scored h hempty⟩

/-- C6 on the sentence of the specification: gold entity `Q10` at tokens 0-1, no
predicted entity; the counts are `(0, 0, 1)` and the verdict is Wrong. -/
theorem scoreSentence_no_prediction_witness :
    (["w1\\?\\Q10", "w2\\?\\I"] : List String).length =
      (["w1\\?\\O", "w2\\?\\O"] : List String).length ∧
    (scoreSentence (fun _ _ => 0) ["w1\\?\\Q10", "w2\\?\\I"] ["w1\\?\\O", "w2\\?\\O"]).map
      (fun p => (p.1.truths, p.1.algs, p.2.macroTp, p.2.macroFp, p.2.macroFn, verdictCode p.2)) =
      some ([⟨0, 1, "Q10"⟩], [], 0, 0, 1, NERNED_WRONG) ∧
    (computeF1 0 0 1).value = some 0 ∧
    (((∀ w ∈ (["w1\\?\\Q10", "w2\\?\\I"] : List String), hasMarker w) →
    (∀ w ∈ (["w1\\?\\O", "w2\\?\\O"] : List String), hasMarker w) →
      (scoreSentence (fun _ _ => 0) ["w1\\?\\Q10", "w2\\?\\I"]
          ["w1\\?\\O", "w2\\?\\O"]).isSome = true) ∧
    ∀ lp al, scoreSentence (fun _ _ => 0) ["w1\\?\\Q10", "w2\\?\\I"]
        ["w1\\?\\O", "w2\\?\\O"]
        = some (lp, al) → lp.algs = [] →
      al.macroTp = 0 ∧ al.macroFp = 0 ∧ al.macroFn = countInKB lp.truths ∧
      (0 < countInKB lp.truths →
        verdictCode al = NERNED_WRONG ∧ (computeF1 al.macroTp al.macroFp al.macroFn).value = some 0)) :=
  ⟨by decide, by decide, by simp [computeF1, Double.value],
   scoreSentence_no_prediction (fun _ _ => 0) ["w1\\?\\Q10", "w2\\?\\I"]
       ["w1\\?\\O", "w2\\?\\O"]
       (by decide)⟩

/-! ## Scored sentences with consistent tag sequences -/

theorem tp_fn_of_scored {sb : StatsBIOES} {tw aw : List String} {lp : LoopState}
    {al : AlignState} (hlen : tw.length = aw.length)
    (h : scoreSentence sb tw aw = some (lp, al))
    (hct : Consistent (tw.map markerOf)) (hca : Consistent (aw.map markerOf)) :
    al.macroTp + al.macroFn = countInKB lp.truths := by
  obtain ⟨_, _, ot, oa, hal⟩ := scored_consistent hlen h hct hca
  obtain ⟨al', e0, e1, _, e3⟩ := align_spec ot oa
  rw [hal] at e0
  cases e0
  rw [e1, e3, tpFull, fnFull, countP_matched_comm oa.nodup ot.nodup, countInKB_eq_countP]
  exact countP_split (fun e => inKB e.id) (fun e => decide (matched lp.algs e)) lp.truths

/-- C2, as the code has it: a sentence of equal gold and predicted length is
scored when every token has a marker field, and in every scored sentence whose
gold and predicted tag sequences are consistent (every `I`-marked token directly
follows a token whose marker is not `O`), `true_positive`, counted by the first
pass, plus `false_negative`, counted by the second pass, is the number of gold
in-KB spans. -/
theorem scoreSentence_tp_fn (sb : StatsBIOES) (tw aw : List String)
    (hlen : tw.length = aw.length)
    (hct : Consistent (tw.map markerOf)) (hca : Consistent (aw.map markerOf)) :
    ((∀ w ∈ tw, hasMarker w) → (∀ w ∈ aw, hasMarker w) →
      (scoreSentence sb tw aw).isSome = true) ∧
    ∀ lp al, scoreSentence sb tw aw = some (lp, al) →
      al.macroTp + al.macroFn = countInKB lp.truths :=
  ⟨isSome_of_hasMarker sb tw aw hlen, fun _ _ h => tp_fn_of_scored hlen h hct hca⟩

/-- C2 as stated fails: gold markers `[Q1, I, I]` against predicted markers
`[Q1, O, I]` give `tp = 1` and `fn = 1` with one gold in-KB span. -/
theorem scoreSentence_tp_fn_counterexample :
    (scoreSentence (fun _ _ => 0) ["a\\?\\Q1", "b\\?\\I", "c\\?\\I"]
        ["a\\?\\Q1", "b\\?\\O", "c\\?\\I"]).map
      (fun p => (p.2.macroTp, p.2.macroFn, countInKB p.1.truths)) = some (1, 1, 1) := by
  decide

/-- C2 on gold markers `[Q1, I, O, Q2]` and predicted markers `[Q1, I, Q3, O]`,
where `tp = 1`, `fn = 1` and there are two gold in-KB spans. -/
theorem scoreSentence_tp_fn_witness :
    (["a\\?\\Q1", "b\\?\\I", "c\\?\\O", "d\\?\\Q2"] : List String).length =
      (["a\\?\\Q1", "b\\?\\I", "c\\?\\Q3", "d\\?\\O"] : List String).length ∧
    Consistent ((["a\\?\\Q1", "b\\?\\I", "c\\?\\O", "d\\?\\Q2"] : List String).map markerOf) ∧
    Consistent ((["a\\?\\Q1", "b\\?\\I", "c\\?\\Q3", "d\\?\\O"] : List String).map markerOf) ∧
    (scoreSentence (fun _ _ => 0) ["a\\?\\Q1", "b\\?\\I", "c\\?\\O", "d\\?\\Q2"]
        ["a\\?\\Q1", "b\\?\\I", "c\\?\\Q3", "d\\?\\O"]).map
      (fun p => (p.2.macroTp, p.2.macroFn, countInKB p.1.truths)) = some (1, 1, 2) ∧
    (((∀ w ∈ (["a\\?\\Q1", "b\\?\\I", "c\\?\\O", "d\\?\\Q2"] : List String), hasMarker w) →
    (∀ w ∈ (["a\\?\\Q1", "b\\?\\I", "c\\?\\Q3", "d\\?\\O"] : List String), hasMarker w) →
      (scoreSentence (fun _ _ => 0) ["a\\?\\Q1", "b\\?\\I", "c\\?\\O", "d\\?\\Q2"]
          ["a\\?\\Q1", "b\\?\\I", "c\\?\\Q3", "d\\?\\O"]).isSome = true) ∧
    ∀ lp al, scoreSentence (fun _ _ => 0) ["a\\?\\Q1", "b\\?\\I", "c\\?\\O", "d\\?\\Q2"]
        ["a\\?\\Q1", "b\\?\\I", "c\\?\\Q3", "d\\?\\O"]
        = some (lp, al) →
      al.macroTp + al.macroFn = countInKB lp.truths) :=
  ⟨by decide, by decide, by decide, by decide,
   scoreSentence_tp_fn (fun _ _ => 0) ["a\\?\\Q1", "b\\?\\I", "c\\?\\O", "d\\?\\Q2"]
       ["a\\?\\Q1", "b\\?\\I", "c\\?\\Q3", "d\\?\\O"]
       (by decide) (by decide) (by decide)⟩

theorem verdict_of_scored {sb : StatsBIOES} {tw aw : List String} {lp : LoopState}
    {al : AlignState} (hlen : tw.length = aw.length)
    (h : scoreSentence sb tw aw = some (lp, al))
    (hct : Consistent (tw.map markerOf)) (hca : Consistent (aw.map markerOf)) :
    (verdictCode al = NERNED_CORRECT ↔
      (∀ e ∈ lp.algs, inKB e.id = true → matched lp.truths e ∨ carvedOut lp.truths e) ∧
      (∀ e ∈ lp.truths, inKB e.id = true → matched lp.algs e)) ∧
    (verdictCode al = NERNED_WRONG ↔
      ¬ ((∀ e ∈ lp.algs, inKB e.id = true → matched lp.truths e ∨ carvedOut lp.truths e) ∧
         (∀ e ∈ lp.truths, inKB e.id = true → matched lp.algs e))) := by
  obtain ⟨_, _, ot, oa, hal⟩ := scored_consistent hlen h hct hca
  obtain ⟨al', e0, _, e2, e3⟩ := align_spec ot oa
  rw [hal] at e0
  cases e0
  have hcor := align_correct hal
  have hfp : al.macroFp = 0 ↔
      ∀ e ∈ lp.algs, inKB e.id = true → matched lp.truths e ∨ carvedOut lp.truths e := by
    rw [e2, fpFull, List.countP_eq_zero]
    constructor
    · intro hh e he hk
      have := hh e he
      simp only [hk, Bool.true_and, Bool.and_eq_true, Bool.not_eq_true', decide_eq_false_iff_not,
        not_and, not_not] at this
      by_cases hm : matched lp.truths e
      · exact Or.inl hm
      · exact Or.inr (this hm)
    · intro hh e he
      cases hk : inKB e.id with
      | false => simp
      | true =>
        rcases hh e he hk with hm | hc
        · simp [hm]
        · simp [hc]
  have hfn : al.macroFn = 0 ↔ ∀ e ∈ lp.truths, inKB e.id = true → matched lp.algs e := by
    rw [e3, fnFull, List.countP_eq_zero]
    constructor
    · intro hh e he hk
      have := hh e he
      simpa [hk] using this
    · intro hh e he
      cases hk : inKB e.id with
      | false => simp
      | true => simp [hh e he hk]
  have hiff : al.sentenceCorrect = true ↔
      (∀ e ∈ lp.algs, inKB e.id = true → matched lp.truths e ∨ carvedOut lp.truths e) ∧
      (∀ e ∈ lp.truths, inKB e.id = true → matched lp.algs e) := by
    rw [hcor, hfp, hfn]
  rw [← hiff]
  cases hsc : al.sentenceCorrect <;> simp [verdictCode, hsc, NERNED_CORRECT, NERNED_WRONG]

/-- C3, as the code has it: a sentence of equal gold and predicted length is
scored when every token has a marker field, and in every scored sentence whose
gold and predicted tag sequences are consistent, the verdict is Correct if and
only if every predicted in-KB span equals some gold span or is contained in a
gold span whose identifier lacks the `Q` prefix, and every gold in-KB span equals
some predicted span; otherwise the verdict is Wrong. -/
theorem scoreSentence_verdict (sb : StatsBIOES) (tw aw : List String)
    (hlen : tw.length = aw.length)
    (hct : Consistent (tw.map markerOf)) (hca : Consistent (aw.map markerOf)) :
    ((∀ w ∈ tw, hasMarker w) → (∀ w ∈ aw, hasMarker w) →
      (scoreSentence sb tw aw).isSome = true) ∧
    ∀ lp al, scoreSentence sb tw aw = some (lp, al) →
      (verdictCode al = NERNED_CORRECT ↔
        (∀ e ∈ lp.algs, inKB e.id = true → matched lp.truths e ∨ carvedOut lp.truths e) ∧
        (∀ e ∈ lp.truths, inKB e.id = true → matched lp.algs e)) ∧
      (verdictCode al = NERNED_WRONG ↔
        ¬ ((∀ e ∈ lp.algs, inKB e.id = true → matched lp.truths e ∨ carvedOut lp.truths e) ∧
           (∀ e ∈ lp.truths, inKB e.id = true → matched lp.algs e))) :=
  ⟨isSome_of_hasMarker sb tw aw hlen, fun _ _ h => verdict_of_scored hlen h hct hca⟩

/-- C3 as stated fails in both directions. Gold `w\?\X` against predicted
`w\?\Q1` is tallied Correct although the predicted in-KB span equals no gold
span; gold and predicted both with markers `[Q1, O, I]` are tallied Wrong
although every span of either side equals a span of the other. -/
theorem scoreSentence_verdict_counterexample :
    (scoreSentence (fun _ _ => 0) ["w\\?\\X"] ["w\\?\\Q1"]).map
      (fun p => (verdictCode p.2,
        decide (∀ e ∈ p.1.algs, inKB e.id = true → matched p.1.truths e),
        decide (∀ e ∈ p.1.truths, inKB e.id = true → matched p.1.algs e))) =
      some (NERNED_CORRECT, false, true) ∧
    (scoreSentence (fun _ _ => 0) ["a\\?\\Q1", "b\\?\\O", "c\\?\\I"]
        ["a\\?\\Q1", "b\\?\\O", "c\\?\\I"]).map
      (fun p => (verdictCode p.2,
        decide (∀ e ∈ p.1.algs, inKB e.id = true → matched p.1.truths e),
        decide (∀ e ∈ p.1.truths, inKB e.id = true → matched p.1.algs e))) =
      some (NERNED_WRONG, true, true) := by
  constructor <;> decide

/-- C3 on gold markers `[Q1, I, O, X]` and predicted markers `[Q1, I, O, Q3]`:
the verdict is Correct, the second predicted span lying in an out-of-KB gold
span. -/
theorem scoreSentence_verdict_witness :
    (["a\\?\\Q1", "b\\?\\I", "c\\?\\O", "d\\?\\X"] : List String).length =
      (["a\\?\\Q1", "b\\?\\I", "c\\?\\O", "d\\?\\Q3"] : List String).length ∧
    Consistent ((["a\\?\\Q1", "b\\?\\I", "c\\?\\O", "d\\?\\X"] : List String).map markerOf) ∧
    Consistent ((["a\\?\\Q1", "b\\?\\I", "c\\?\\O", "d\\?\\Q3"] : List String).map markerOf) ∧
    (scoreSentence (fun _ _ => 0) ["a\\?\\Q1", "b\\?\\I", "c\\?\\O", "d\\?\\X"]
        ["a\\?\\Q1", "b\\?\\I", "c\\?\\O", "d\\?\\Q3"]).map
      (fun p => (p.1.truths, p.1.algs, verdictCode p.2)) =
      some ([⟨0, 1, "Q1"⟩, ⟨3, 3, "X"⟩], [⟨0, 1, "Q1"⟩, ⟨3, 3, "Q3"⟩], NERNED_CORRECT) ∧
    (((∀ w ∈ (["a\\?\\Q1", "b\\?\\I", "c\\?\\O", "d\\?\\X"] : List String), hasMarker w) →
    (∀ w ∈ (["a\\?\\Q1", "b\\?\\I", "c\\?\\O", "d\\?\\Q3"] : List String), hasMarker w) →
      (scoreSentence (fun _ _ => 0) ["a\\?\\Q1", "b\\?\\I", "c\\?\\O", "d\\?\\X"]
          ["a\\?\\Q1", "b\\?\\I", "c\\?\\O", "d\\?\\Q3"]).isSome = true) ∧
    ∀ lp al, scoreSentence (fun _ _ => 0) ["a\\?\\Q1", "b\\?\\I", "c\\?\\O", "d\\?\\X"]
        ["a\\?\\Q1", "b\\?\\I", "c\\?\\O", "d\\?\\Q3"]
        = some (lp, al) →
      (verdictCode al = NERNED_CORRECT ↔
        (∀ e ∈ lp.algs, inKB e.id = true → matched lp.truths e ∨ carvedOut lp.truths e) ∧
        (∀ e ∈ lp.truths, inKB e.id = true → matched lp.algs e)) ∧
      (verdictCode al = NERNED_WRONG ↔
        ¬ ((∀ e ∈ lp.algs, inKB e.id = true → matched lp.truths e ∨ carvedOut lp.truths e) ∧
           (∀ e ∈ lp.truths, inKB e.id = true → matched lp.algs e)))) :=
  ⟨by decide, by decide, by decide, by decide,
   scoreSentence_verdict (fun _ _ => 0) ["a\\?\\Q1", "b\\?\\I", "c\\?\\O", "d\\?\\X"]
       ["a\\?\\Q1", "b\\?\\I", "c\\?\\O", "d\\?\\Q3"]
       (by decide) (by decide) (by decide)⟩

/-- C5, as the code has it: a sentence whose predicted token sequence is
identical to its gold token sequence, every token carrying a marker field and
the tag sequence being consistent, is scored Correct with `fp = 0`, `fn = 0` and
`tp` the number of in-KB spans of the sentence. -/
theorem scoreSentence_identical (sb : StatsBIOES) (ws : List String)
    (hm : ∀ w ∈ ws, hasMarker w) (hc : Consistent (ws.map markerOf)) :
    ∃ lp al, scoreSentence sb ws ws = some (lp, al) ∧ lp.algs = lp.truths ∧
      verdictCode al = NERNED_CORRECT ∧ al.macroFp = 0 ∧ al.macroFn = 0 ∧
      al.macroTp = countInKB lp.truths := by
  obtain ⟨lp, e0, e1, e2⟩ := extract_runs sb ws ws rfl hm hm
  have r1 := e1 hc
  have r2 := e2 hc
  have ho : Ordered lp.truths := by rw [r1]; exact entityRuns_ordered _ _
  have hsame : lp.algs = lp.truths := by rw [r1, r2]
  obtain ⟨al, a0, a1, a2, a3⟩ := align_spec ho (hsame ▸ ho)
  have hcor := align_correct a0
  rw [hsame] at a1 a2 a3
  have hfp : al.macroFp = 0 := by
    rw [a2, fpFull, List.countP_eq_zero]
    intro e he
    have : matched lp.truths e := (matched_iff_mem _ _).mpr he
    simp [this]
  have hfn : al.macroFn = 0 := by
    rw [a3, fnFull, List.countP_eq_zero]
    intro e he
    have : matched lp.truths e := (matched_iff_mem _ _).mpr he
    simp [this]
  have htp : al.macroTp = countInKB lp.truths := by
    rw [a1, tpFull, countInKB_eq_countP]
    apply List.countP_congr
    intro e he
    have : matched lp.truths e := (matched_iff_mem _ _).mpr he
    simp [this]
  refine ⟨lp, al, ?_, hsame, ?_, hfp, hfn, htp⟩
  · simp [scoreSentence, e0, a0]
  · have : al.sentenceCorrect = true := hcor.mpr ⟨hfp, hfn⟩
    simp [verdictCode, this]

/-- C5 as stated fails: gold and predicted both `a\?\Q1 b\?\O c\?\I` are
scored Wrong with `(tp, fp, fn) = (1, 1, 1)`. -/
theorem scoreSentence_identical_counterexample :
    (scoreSentence (fun _ _ => 0) ["a\\?\\Q1", "b\\?\\O", "c\\?\\I"]
        ["a\\?\\Q1", "b\\?\\O", "c\\?\\I"]).map
      (fun p => (verdictCode p.2, p.2.macroTp, p.2.macroFp, p.2.macroFn)) =
      some (NERNED_WRONG, 1, 1, 1) ∧
    (∀ w ∈ ([ "a\\?\\Q1", "b\\?\\O", "c\\?\\I" ] : List String), hasMarker w) := by
  constructor <;> decide

/-- C5 on the sentence of the specification, gold and predicted both
`w1\?\Q10 w2\?\I w3\?\O`: the counts are `(1, 0, 0)`. -/
theorem scoreSentence_identical_witness :
    (∀ w ∈ ([ "w1\\?\\Q10", "w2\\?\\I", "w3\\?\\O" ] : List String), hasMarker w) ∧
    Consistent (([ "w1\\?\\Q10", "w2\\?\\I", "w3\\?\\O" ] : List String).map markerOf) ∧
    (∃ lp al,
      scoreSentence (fun _ _ => 0) [ "w1\\?\\Q10", "w2\\?\\I", "w3\\?\\O" ]
        [ "w1\\?\\Q10", "w2\\?\\I", "w3\\?\\O" ] = some (lp, al) ∧
      lp.algs = lp.truths ∧
      verdictCode al = NERNED_CORRECT ∧ al.macroFp = 0 ∧ al.macroFn = 0 ∧
      al.macroTp = countInKB lp.truths) ∧
    (scoreSentence (fun _ _ => 0) [ "w1\\?\\Q10", "w2\\?\\I", "w3\\?\\O" ]
        [ "w1\\?\\Q10", "w2\\?\\I", "w3\\?\\O" ]).map
      (fun p => (p.2.macroTp, p.2.macroFp, p.2.macroFn)) = some (1, 0, 0) :=
  ⟨by decide, by decide,
   scoreSentence_identical (fun _ _ => 0) _ (by decide) (by decide), by decide⟩

/-! ## The verdict code -/

theorem verdictCode_correct_iff (al : AlignState) :
    verdictCode al = NERNED_CORRECT ↔ al.sentenceCorrect = true := by
  cases h : al.sentenceCorrect <;> simp [verdictCode, h, NERNED_CORRECT, NERNED_WRONG]

/-! ## Order of the extracted spans -/

theorem extract_isSome (sb : StatsBIOES) (tw aw : List String)
    (hlen : tw.length = aw.length)
    (htw : ∀ w ∈ tw, hasMarker w) (haw : ∀ w ∈ aw, hasMarker w) :
    (extract sb tw aw).isSome = true := by
  obtain ⟨lp, h0, _, _⟩ := tokenLoop_padded tw aw 0 (initLoop sb) hlen htw haw
  have h0' : extract sb tw aw = some lp := h0
  simp [h0']

/-- The span lists of a sentence on which the token loop returns are the lists
`emitted` describes, and every token has a marker field. -/
theorem extract_emitted {sb : StatsBIOES} {tw aw : List String} {lp : LoopState}
    (hlen : tw.length = aw.length) (h : extract sb tw aw = some lp) :
    lp.truths = emitted 0 (tw.map markerOf) ⟨0, 0, ""⟩ ∧
    lp.algs = emitted 0 (aw.map markerOf) ⟨0, 0, ""⟩ ∧
    (∀ w ∈ tw, hasMarker w) ∧ (∀ w ∈ aw, hasMarker w) := by
  obtain ⟨m1, m2⟩ := tokenLoop_hasMarker tw aw 0 (initLoop sb) lp hlen h
  obtain ⟨lp', e0, e1, e2⟩ := tokenLoop_padded tw aw 0 (initLoop sb) hlen m1 m2
  have h' : tokenLoop 0 (aw ++ [dummyTail]) (tw ++ [dummyTail]) (initLoop sb) = some lp := h
  rw [h'] at e0
  cases e0
  refine ⟨?_, ?_, m1, m2⟩
  · rw [e1]; simp [initLoop]
  · rw [e2]; simp [initLoop]

/-! ## The range of the F1 value -/

theorem updateEntity_length (i : Nat) (b id : String) (entity : Span) :
    (updateEntity i b id entity []).2.length ≤ 1 := by
  unfold updateEntity
  split_ifs <;> simp

theorem emitted_length_le :
    ∀ (ms : List String) (i : Nat) (entity : Span), (emitted i ms entity).length ≤ ms.length := by
  intro ms
  induction ms with
  | nil => intro i entity; simp [emitted]
  | cons m ms ih =>
    intro i entity
    simp only [emitted, List.length_append, List.length_cons]
    have h1 := updateEntity_length i (decodeMarker m (ms.headD "y")) m entity
    have h2 := ih (i + 1) (updateEntity i (decodeMarker m (ms.headD "y")) m entity []).1
    omega

theorem countInKB_le_length (l : List Span) : countInKB l ≤ l.length :=
  List.length_filter_le _ _

theorem value_fin_1022 (m : Nat) :
    (Double.fin m 1022).value = some ((m : ℚ) / 2 ^ 52) := by
  have hs : (1022 + 52 : Nat) = 1074 := rfl
  simp only [Double.value, Option.some.injEq]
  rw [div_eq_div_iff (by positivity) (by positivity), mul_assoc, ← pow_add, hs]

theorem lt_one_of_within (tp fp fn : Nat) (h0 : 0 < tp) (hs : 2 * tp + fp + fn ≤ 2 ^ 48)
    (hpos : 0 < fp + fn) {v : ℚ}
    (w : Within (1 - 1 / 2 ^ 49) (1 + 1 / 2 ^ 49) v
      (2 * (tp : ℚ) / (2 * (tp : ℚ) + (fp : ℚ) + (fn : ℚ)))) : v < 1 := by
  have htp : (0 : ℚ) < tp := by exact_mod_cast h0
  have hfp : (0 : ℚ) ≤ fp := Nat.cast_nonneg _
  have hfn : (0 : ℚ) ≤ fn := Nat.cast_nonneg _
  have hM : (0 : ℚ) < 2 * (tp : ℚ) + (fp : ℚ) + (fn : ℚ) := by positivity
  have hsq : 2 * (tp : ℚ) + (fp : ℚ) + (fn : ℚ) ≤ 2 ^ 48 := by exact_mod_cast hs
  have hone : (1 : ℚ) ≤ (fp : ℚ) + (fn : ℚ) := by exact_mod_cast hpos
  have hH : 2 * (tp : ℚ) / (2 * (tp : ℚ) + (fp : ℚ) + (fn : ℚ)) ≤ 1 - 1 / 2 ^ 48 := by
    rw [div_le_iff₀ hM]
    have e : (1 - 1 / 2 ^ 48) * (2 * (tp : ℚ) + (fp : ℚ) + (fn : ℚ)) =
        (2 * (tp : ℚ) + (fp : ℚ) + (fn : ℚ)) -
          (2 * (tp : ℚ) + (fp : ℚ) + (fn : ℚ)) / 2 ^ 48 := by ring
    have h1 : (2 * (tp : ℚ) + (fp : ℚ) + (fn : ℚ)) / 2 ^ 48 ≤ 1 :=
      (div_le_one (by positivity)).mpr hsq
    rw [e]; linarith
  have h2 : (1 + 1 / 2 ^ 49) * (2 * (tp : ℚ) / (2 * (tp : ℚ) + (fp : ℚ) + (fn : ℚ))) ≤
      (1 + 1 / 2 ^ 49) * (1 - 1 / 2 ^ 48) :=
    mul_le_mul_of_nonneg_left hH (by norm_num)
  have h3 : (1 + 1 / 2 ^ 49 : ℚ) * (1 - 1 / 2 ^ 48) < 1 := by norm_num
  linarith [w.2]

/-- The value of `computeF1` on counts whose sums stay below `2^64`. -/
theorem computeF1_range (tp fp fn : Nat) (h1 : tp + fp < 2 ^ 64) (h2 : tp + fn < 2 ^ 64) :
    ∃ v, (computeF1 tp fp fn).value = some v ∧ 0 ≤ v ∧ v ≤ 1 ∧
      (fp = 0 ∧ fn = 0 → v = 1) ∧
      (2 * tp + fp + fn ≤ 2 ^ 48 → v = 1 → fp = 0 ∧ fn = 0) := by
  rcases Nat.eq_zero_or_pos tp with h0 | hpos
  · subst h0
    by_cases hz : fp = 0 ∧ fn = 0
    · obtain ⟨a, b⟩ := hz
      subst a b
      exact ⟨1, by rw [computeF1_zero]; exact value_one, by norm_num, le_refl _,
        fun _ => rfl, fun _ _ => ⟨rfl, rfl⟩⟩
    · have hp : 0 < fp + fn := by omega
      refine ⟨0, by rw [computeF1_zero_tp fp fn hp]; exact value_fin_zero, le_refl _,
        by norm_num, fun hh => absurd hh hz, fun _ hv => ?_⟩
      norm_num at hv
  · obtain ⟨v, e, p0, p1, p2, w⟩ := computeF1_pos_value tp fp fn hpos h1 h2
    refine ⟨v, e, p0.le, p1, fun hh => p2 hh.1 hh.2, fun hs hv => ?_⟩
    by_contra hc
    have hp : 0 < fp + fn := by omega
    have := lt_one_of_within tp fp fn hpos hs hp w
    linarith

theorem computeF1_absorbed : computeF1 (2 ^ 53) 1 0 = Double.fin (1 <<< 52) 1022 := by
  decide

theorem computeF1_wrapped :
    computeF1 2 (2 ^ 64 - 1) 0 = Double.fin 6004799503160661 1022 := by
  decide

theorem computeF1_wrapped_nan : computeF1 (2 ^ 64 - 1) 1 0 = Double.nan := by
  decide

/-- C19, as the code has it: when the sums `tp + fp` and `tp + fn` are below
`2^64`, the value of `computeF1` is a finite `double` in `[0, 1]`, it is `1` when
`fp = 0` and `fn = 0`, and when `2 * tp + fp + fn ≤ 2^48` it is `1` only when
`fp = 0` and `fn = 0`.  A sentence of equal gold and predicted length is scored
when every token has a marker field, and a scored sentence of fewer than `2^46`
tokens is tallied Correct exactly when its F1 is `1`. -/
theorem computeF1_unit_interval :
    (∀ tp fp fn : Nat, tp + fp < 2 ^ 64 → tp + fn < 2 ^ 64 →
      ∃ v, (computeF1 tp fp fn).value = some v ∧ 0 ≤ v ∧ v ≤ 1 ∧
        (fp = 0 ∧ fn = 0 → v = 1) ∧
        (2 * tp + fp + fn ≤ 2 ^ 48 → v = 1 → fp = 0 ∧ fn = 0)) ∧
    (∀ (sb : StatsBIOES) (tw aw : List String), tw.length = aw.length →
      tw.length < 2 ^ 46 →
      ((∀ w ∈ tw, hasMarker w) → (∀ w ∈ aw, hasMarker w) →
        (scoreSentence sb tw aw).isSome = true) ∧
      ∀ lp al, scoreSentence sb tw aw = some (lp, al) →
        (verdictCode al = NERNED_CORRECT ↔
          (computeF1 al.macroTp al.macroFp al.macroFn).value = some 1)) := by
  refine ⟨computeF1_range, fun sb tw aw hlen hsmall =>
    ⟨isSome_of_hasMarker sb tw aw hlen, ?_⟩⟩
  intro lp al h
  obtain ⟨h1, h2⟩ := scoreSentence_eq_some h
  obtain ⟨e1, e2, _, _⟩ := extract_emitted hlen h1
  obtain ⟨c1, _, c3⟩ := align_counts h2
  have b1 : countInKB lp.algs ≤ aw.length := by
    refine le_trans (countInKB_le_length _) ?_
    rw [e2]
    have := emitted_length_le (aw.map markerOf) 0 ⟨0, 0, ""⟩
    simpa using this
  have b2 : countInKB lp.truths ≤ tw.length := by
    refine le_trans (countInKB_le_length _) ?_
    rw [e1]
    have := emitted_length_le (tw.map markerOf) 0 ⟨0, 0, ""⟩
    simpa using this
  have hp : (2 : Nat) ^ 48 = 4 * 2 ^ 46 := by norm_num
  have hq : (2 : Nat) ^ 46 ≤ 2 ^ 64 := Nat.pow_le_pow_right (by norm_num) (by norm_num)
  obtain ⟨v, e, _, _, r1, r2⟩ := computeF1_range al.macroTp al.macroFp al.macroFn
    (by omega) (by omega)
  rw [verdictCode_correct_iff, align_correct h2, e]
  constructor
  · intro hh
    rw [r1 hh]
  · intro hv
    exact r2 (by omega) (Option.some.inj hv)

/-- The claim C19 fails for large counts: at `(2^53, 1, 0)` the value is `1`
although `fp = 1`; at `(2, 2^64 - 1, 0)` the sum `tp + fp` wraps around to `1`
and the value is `6004799503160661 / 2^52`, which is above `1`; at
`(2^64 - 1, 1, 0)` the sum wraps around to `0` and the result is a NaN. -/
theorem computeF1_unit_interval_counterexample :
    (computeF1 (2 ^ 53) 1 0).value = some 1 ∧
    (computeF1 2 (2 ^ 64 - 1) 0).value = some (6004799503160661 / 2 ^ 52) ∧
    (1 : ℚ) < 6004799503160661 / 2 ^ 52 ∧
    computeF1 (2 ^ 64 - 1) 1 0 = Double.nan := by
  refine ⟨?_, ?_, by norm_num, computeF1_wrapped_nan⟩
  · rw [computeF1_absorbed]; exact value_one
  · rw [computeF1_wrapped]
    have h := value_fin_1022 6004799503160661
    simpa using h

/-- C19 on gold `w1\?\Q10 w2\?\I w3\?\O` against predicted `w1\?\Q7 w2\?\I w3\?\O`:
the sentence is scored Wrong with counts `(0, 1, 1)` and F1 `0`. -/
theorem computeF1_unit_interval_witness :
    (["w1\\?\\Q10", "w2\\?\\I", "w3\\?\\O"] : List String).length =
      (["w1\\?\\Q7", "w2\\?\\I", "w3\\?\\O"] : List String).length ∧
    (["w1\\?\\Q10", "w2\\?\\I", "w3\\?\\O"] : List String).length < 2 ^ 46 ∧
    (scoreSentence (fun _ _ => 0) ["w1\\?\\Q10", "w2\\?\\I", "w3\\?\\O"]
        ["w1\\?\\Q7", "w2\\?\\I", "w3\\?\\O"]).map
      (fun p => (p.2.macroTp, p.2.macroFp, p.2.macroFn, verdictCode p.2)) =
      some (0, 1, 1, NERNED_WRONG) ∧
    (computeF1 0 1 1).value = some 0 ∧
    (((∀ w ∈ (["w1\\?\\Q10", "w2\\?\\I", "w3\\?\\O"] : List String), hasMarker w) →
      (∀ w ∈ (["w1\\?\\Q7", "w2\\?\\I", "w3\\?\\O"] : List String), hasMarker w) →
      (scoreSentence (fun _ _ => 0) ["w1\\?\\Q10", "w2\\?\\I", "w3\\?\\O"]
        ["w1\\?\\Q7", "w2\\?\\I", "w3\\?\\O"]).isSome = true) ∧
    ∀ lp al, scoreSentence (fun _ _ => 0) ["w1\\?\\Q10", "w2\\?\\I", "w3\\?\\O"]
        ["w1\\?\\Q7", "w2\\?\\I", "w3\\?\\O"] = some (lp, al) →
      (verdictCode al = NERNED_CORRECT ↔
        (computeF1 al.macroTp al.macroFp al.macroFn).value = some 1)) :=
  ⟨by decide, by decide, by decide, by simp [computeF1, Double.value],
   computeF1_unit_interval.2 (fun _ _ => 0) ["w1\\?\\Q10", "w2\\?\\I", "w3\\?\\O"]
     ["w1\\?\\Q7", "w2\\?\\I", "w3\\?\\O"] (by decide) (by decide)⟩

/-! ## Order of the extracted spans, continued -/

theorem updateEntity_nil (i : Nat) (b id : String) (entity : Span) (h : entity.head ≤ i) :
    entity.head ≤ (updateEntity i b id entity []).1.head ∧
    (updateEntity i b id entity []).1.head ≤ i ∧
    ∀ s ∈ (updateEntity i b id entity []).2,
      s.head = (updateEntity i b id entity []).1.head ∧ s.tail = i ∧
      s.id = (updateEntity i b id entity []).1.id := by
  unfold updateEntity
  split_ifs <;> simp <;> omega

theorem emitted_sorted :
    ∀ (ms : List String) (i : Nat) (entity : Span), entity.head ≤ i →
      (∀ s ∈ emitted i ms entity, entity.head ≤ s.head ∧ s.head ≤ s.tail ∧ i ≤ s.tail) ∧
      (emitted i ms entity).Pairwise fun a b => a.head ≤ b.head ∧ a.tail < b.tail := by
  intro ms
  induction ms with
  | nil => intro i entity _; simp [emitted]
  | cons m ms ih =>
    intro i entity h
    obtain ⟨u1, u2, u3⟩ := updateEntity_nil i (decodeMarker m (ms.headD "y")) m entity h
    obtain ⟨r1, r2⟩ := ih (i + 1) (updateEntity i (decodeMarker m (ms.headD "y")) m entity []).1
      (by omega)
    simp only [emitted]
    constructor
    · intro s hs
      rcases List.mem_append.mp hs with hs | hs
      · obtain ⟨a, b, _⟩ := u3 s hs
        omega
      · obtain ⟨a, b, c⟩ := r1 s hs
        omega
    · rw [List.pairwise_append]
      refine ⟨?_, r2, ?_⟩
      · have hl : (updateEntity i (decodeMarker m (ms.headD "y")) m entity []).2.length ≤ 1 := by
          unfold updateEntity
          split_ifs <;> simp
        generalize (updateEntity i (decodeMarker m (ms.headD "y")) m entity []).2 = l at hl
        rcases l with _ | ⟨x, _ | ⟨y, l⟩⟩
        · exact List.Pairwise.nil
        · simp
        · simp at hl
      · intro a ha b hb
        obtain ⟨a1, a2, _⟩ := u3 a ha
        obtain ⟨b1, b2, b3⟩ := r1 b hb
        omega

/-- C17: a sentence of equal gold and predicted length passes the token loop
when every token has a marker field, and on both sides every extracted span has
start ≤ end, the starts are non-decreasing along the list and the ends strictly
increasing. -/
theorem extract_spans_sorted (sb : StatsBIOES) (tw aw : List String)
    (hlen : tw.length = aw.length) :
    ((∀ w ∈ tw, hasMarker w) → (∀ w ∈ aw, hasMarker w) →
      (extract sb tw aw).isSome = true) ∧
    ∀ lp, extract sb tw aw = some lp →
      ((∀ s ∈ lp.truths, s.head ≤ s.tail) ∧
        lp.truths.Pairwise (fun a b => a.head ≤ b.head) ∧
        lp.truths.Pairwise (fun a b => a.tail < b.tail)) ∧
      ((∀ s ∈ lp.algs, s.head ≤ s.tail) ∧
        lp.algs.Pairwise (fun a b => a.head ≤ b.head) ∧
        lp.algs.Pairwise (fun a b => a.tail < b.tail)) := by
  refine ⟨extract_isSome sb tw aw hlen, fun lp h => ?_⟩
  obtain ⟨e1, e2, _, _⟩ := extract_emitted hlen h
  obtain ⟨t1, t2⟩ := emitted_sorted (tw.map markerOf) 0 ⟨0, 0, ""⟩ (Nat.le_refl _)
  obtain ⟨a1, a2⟩ := emitted_sorted (aw.map markerOf) 0 ⟨0, 0, ""⟩ (Nat.le_refl _)
  rw [e1, e2]
  exact ⟨⟨fun s hs => (t1 s hs).2.1, t2.imp fun hab => hab.1, t2.imp fun hab => hab.2⟩,
    ⟨fun s hs => (a1 s hs).2.1, a2.imp fun hab => hab.1, a2.imp fun hab => hab.2⟩⟩

/-- C17 on gold markers `[Q1, O, I]` and predicted markers `[O, I, Q2]`, both with
an `I` after an `O`: the gold spans are `(0,0,Q1), (0,2,Q1)`, the predicted spans
`(0,1,""), (2,2,Q2)`. -/
theorem extract_spans_sorted_witness :
    (["a\\?\\Q1", "b\\?\\O", "c\\?\\I"] : List String).length =
      (["a\\?\\O", "b\\?\\I", "c\\?\\Q2"] : List String).length ∧
    (extract (fun _ _ => 0) ["a\\?\\Q1", "b\\?\\O", "c\\?\\I"]
        ["a\\?\\O", "b\\?\\I", "c\\?\\Q2"]).map (fun lp => (lp.truths, lp.algs)) =
      some ([⟨0, 0, "Q1"⟩, ⟨0, 2, "Q1"⟩], [⟨0, 1, ""⟩, ⟨2, 2, "Q2"⟩]) ∧
    (((∀ w ∈ (["a\\?\\Q1", "b\\?\\O", "c\\?\\I"] : List String), hasMarker w) →
      (∀ w ∈ (["a\\?\\O", "b\\?\\I", "c\\?\\Q2"] : List String), hasMarker w) →
      (extract (fun _ _ => 0) ["a\\?\\Q1", "b\\?\\O", "c\\?\\I"]
        ["a\\?\\O", "b\\?\\I", "c\\?\\Q2"]).isSome = true) ∧
    ∀ lp, extract (fun _ _ => 0) ["a\\?\\Q1", "b\\?\\O", "c\\?\\I"]
        ["a\\?\\O", "b\\?\\I", "c\\?\\Q2"] = some lp →
      ((∀ s ∈ lp.truths, s.head ≤ s.tail) ∧
        lp.truths.Pairwise (fun a b => a.head ≤ b.head) ∧
        lp.truths.Pairwise (fun a b => a.tail < b.tail)) ∧
      ((∀ s ∈ lp.algs, s.head ≤ s.tail) ∧
        lp.algs.Pairwise (fun a b => a.head ≤ b.head) ∧
        lp.algs.Pairwise (fun a b => a.tail < b.tail))) :=
  ⟨by decide, by decide,
   extract_spans_sorted (fun _ _ => 0) ["a\\?\\Q1", "b\\?\\O", "c\\?\\I"]
     ["a\\?\\O", "b\\?\\I", "c\\?\\Q2"] (by decide)⟩

/-- C12, as the code has it: a sentence of equal gold and predicted length
passes the token loop when every token has a marker field, and the span list of
a side on which every `I`-marked token directly follows a token whose marker is
not `O` is non-overlapping: each span starts after the span before it ends. -/
theorem extract_nonoverlapping (sb : StatsBIOES) (tw aw : List String)
    (hlen : tw.length = aw.length) :
    ((∀ w ∈ tw, hasMarker w) → (∀ w ∈ aw, hasMarker w) →
      (extract sb tw aw).isSome = true) ∧
    ∀ lp, extract sb tw aw = some lp →
      (Consistent (tw.map markerOf) →
        lp.truths.Chain' (fun a b => a.tail < b.head)) ∧
      (Consistent (aw.map markerOf) →
        lp.algs.Chain' (fun a b => a.tail < b.head)) := by
  refine ⟨extract_isSome sb tw aw hlen, fun lp h => ?_⟩
  obtain ⟨e1, e2, _, _⟩ := extract_emitted hlen h
  constructor
  · intro hc
    rw [e1, emitted_consistent _ _ hc]
    exact (entityRuns_ordered _ _).1
  · intro hc
    rw [e2, emitted_consistent _ _ hc]
    exact (entityRuns_ordered _ _).1

/-- C12 as stated fails: the gold markers `[Q1, O, I]` yield the spans
`(0, 0, Q1)` and `(0, 2, Q1)`, and the second does not start after the end of the
first. -/
theorem extract_nonoverlapping_counterexample :
    (extract (fun _ _ => 0) ["a\\?\\Q1", "b\\?\\O", "c\\?\\I"]
        ["a\\?\\O", "b\\?\\O", "c\\?\\O"]).map (fun lp => lp.truths) =
      some [⟨0, 0, "Q1"⟩, ⟨0, 2, "Q1"⟩] ∧
    ¬ ((⟨0, 0, "Q1"⟩ : Span).tail < (⟨0, 2, "Q1"⟩ : Span).head) := by
  constructor <;> decide

/-- C12 on gold markers `[Q1, I, O, Q2]` and predicted markers `[O, Q3, I, I]`. -/
theorem extract_nonoverlapping_witness :
    (["a\\?\\Q1", "b\\?\\I", "c\\?\\O", "d\\?\\Q2"] : List String).length =
      (["a\\?\\O", "b\\?\\Q3", "c\\?\\I", "d\\?\\I"] : List String).length ∧
    Consistent ((["a\\?\\Q1", "b\\?\\I", "c\\?\\O", "d\\?\\Q2"] : List String).map markerOf) ∧
    Consistent ((["a\\?\\O", "b\\?\\Q3", "c\\?\\I", "d\\?\\I"] : List String).map markerOf) ∧
    (extract (fun _ _ => 0) ["a\\?\\Q1", "b\\?\\I", "c\\?\\O", "d\\?\\Q2"]
        ["a\\?\\O", "b\\?\\Q3", "c\\?\\I", "d\\?\\I"]).map (fun lp => (lp.truths, lp.algs)) =
      some ([⟨0, 1, "Q1"⟩, ⟨3, 3, "Q2"⟩], [⟨1, 3, "Q3"⟩]) ∧
    (((∀ w ∈ (["a\\?\\Q1", "b\\?\\I", "c\\?\\O", "d\\?\\Q2"] : List String), hasMarker w) →
      (∀ w ∈ (["a\\?\\O", "b\\?\\Q3", "c\\?\\I", "d\\?\\I"] : List String), hasMarker w) →
      (extract (fun _ _ => 0) ["a\\?\\Q1", "b\\?\\I", "c\\?\\O", "d\\?\\Q2"]
        ["a\\?\\O", "b\\?\\Q3", "c\\?\\I", "d\\?\\I"]).isSome = true) ∧
    ∀ lp, extract (fun _ _ => 0) ["a\\?\\Q1", "b\\?\\I", "c\\?\\O", "d\\?\\Q2"]
        ["a\\?\\O", "b\\?\\Q3", "c\\?\\I", "d\\?\\I"] = some lp →
      (Consistent ((["a\\?\\Q1", "b\\?\\I", "c\\?\\O", "d\\?\\Q2"] : List String).map
          markerOf) →
        lp.truths.Chain' (fun a b => a.tail < b.head)) ∧
      (Consistent ((["a\\?\\O", "b\\?\\Q3", "c\\?\\I", "d\\?\\I"] : List String).map
          markerOf) →
        lp.algs.Chain' (fun a b => a.tail < b.head))) :=
  ⟨by decide, by decide, by decide, by decide,
   extract_nonoverlapping (fun _ _ => 0) ["a\\?\\Q1", "b\\?\\I", "c\\?\\O", "d\\?\\Q2"]
     ["a\\?\\O", "b\\?\\Q3", "c\\?\\I", "d\\?\\I"] (by decide)⟩

/-! ## A token without a marker field -/

/-- C13 fails on the code: for the gold token `w1`, which has one field,
`getBIOES` yields `O`, but the identifier lookup `tokenlize(word, '\\')[2]` of
line 149 is out of range, so the sentence is not scored. -/
theorem scoreSentence_missing_marker :
    tokenlize "w1" '\\' = ["w1"] ∧
    getBIOES "w1" dummyTail = "O" ∧
    (tokenlize "w1" '\\')[2]? = none ∧
    (scoreSentence (fun _ _ => 0) ["w1"] ["w1\\?\\O"]).isSome = false := by
  refine ⟨by decide, by decide, by decide, by decide⟩

/-! ## The dummy tail -/

theorem decoded_length : ∀ ws : List String, (decoded ws).length = ws.length := by
  intro ws
  induction ws with
  | nil => rfl
  | cons w ws ih => simp [decoded, ih]

/-- C18, as the code has it: the dummy tail carries the marker `y`; as a
successor it acts like a token marked `O`, and it never decodes to `O` itself.
The token loop gives it no symbol: the markers `[B, I, I, O]` decode to
`[B, I, E, O]` and the marker `[S]` to `[S]`. -/
theorem dummyTail_decoding :
    markerOf dummyTail = "y" ∧
    (∀ w, getBIOES w dummyTail = decodeMarker (markerOf w) "O") ∧
    (∀ next, getBIOES dummyTail next ≠ "O") ∧
    (∀ ws, (decoded ws).length = ws.length) ∧
    decoded ["w1\\?\\B", "w2\\?\\I", "w3\\?\\I", "w4\\?\\O"] = ["B", "I", "E", "O"] ∧
    decoded ["w1\\?\\S"] = ["S"] := by
  refine ⟨by decide, ?_, ?_, decoded_length, by decide, by decide⟩
  · intro w
    rw [getBIOES_decodeMarker, markerOf_dummyTail]
    simp [decodeMarker]
  · intro next
    rw [getBIOES_decodeMarker, markerOf_dummyTail]
    have h1 : ¬ ("y" = "O") := by decide
    have h2 : ¬ ("y" = "I") := by decide
    simp only [decodeMarker, h1, h2, if_false]
    split_ifs <;> decide

/-- C18 as stated fails: the marker of the dummy tail is not `O`, the dummy tail
decodes to `S` and not to `O`, and the token loop derives four symbols, not five,
for the markers `[B, I, I, O]` and one, not two, for `[S]`. -/
theorem dummyTail_decoding_counterexample :
    markerOf dummyTail ≠ "O" ∧
    getBIOES dummyTail dummyTail = "S" ∧
    decoded ["w1\\?\\B", "w2\\?\\I", "w3\\?\\I", "w4\\?\\O"] ≠ ["B", "I", "E", "O", "O"] ∧
    decoded ["w1\\?\\S"] ≠ ["S", "O"] := by
  refine ⟨by decide, by decide, by decide, by decide⟩

/-! ## An `E` without an open span -/

theorem symbolPairs_fst : ∀ ws : List String, (symbolPairs ws).map Prod.fst = decoded ws := by
  intro ws
  induction ws with
  | nil => rfl
  | cons w ws ih => simp [symbolPairs, decoded, ih]

theorem headD_map_markerOf (ws : List String) :
    markerOf (ws.headD dummyTail) = (ws.map markerOf).headD "y" := by
  cases ws with
  | nil => simp [markerOf_dummyTail]
  | cons w ws => simp

theorem runSide_emitted :
    ∀ (ws : List String) (i : Nat) (entity : Span) (acc : List Span),
      (runSide i (symbolPairs ws) (entity, acc)).2 = acc ++ emitted i (ws.map markerOf) entity := by
  intro ws
  induction ws with
  | nil => intro i entity acc; simp [symbolPairs, runSide, emitted]
  | cons w ws ih =>
    intro i entity acc
    simp only [symbolPairs, runSide, List.map_cons, emitted]
    rw [updateEntity_append, ih, getBIOES_decodeMarker, headD_map_markerOf]
    simp

theorem runSide_append :
    ∀ (p q : List (String × String)) (i : Nat) (s : Span × List Span),
      runSide i (p ++ q) s = runSide (i + p.length) q (runSide i p s) := by
  intro p
  induction p with
  | nil => intro q i s; simp [runSide]
  | cons x p ih =>
    intro q i s
    obtain ⟨b, id⟩ := x
    show runSide (i + 1) (p ++ q) (updateEntity i b id s.1 s.2) =
      runSide (i + (p.length + 1)) q (runSide (i + 1) p (updateEntity i b id s.1 s.2))
    rw [ih]
    congr 1
    omega

theorem runSide_new :
    ∀ (p : List (String × String)) (i : Nat) (entity : Span) (acc : List Span),
      ∃ new, (runSide i p (entity, acc)).2 = acc ++ new ∧
        ∀ s ∈ new, i ≤ s.tail ∧ s.tail < i + p.length := by
  intro p
  induction p with
  | nil => intro i entity acc; exact ⟨[], by simp [runSide], by simp⟩
  | cons x p ih =>
    intro i entity acc
    obtain ⟨b, id⟩ := x
    simp only [runSide]
    rw [updateEntity_append]
    obtain ⟨new, h1, h2⟩ := ih (i + 1) (updateEntity i b id entity []).1
      (acc ++ (updateEntity i b id entity []).2)
    refine ⟨(updateEntity i b id entity []).2 ++ new, by rw [h1]; simp, ?_⟩
    intro s hs
    rcases List.mem_append.mp hs with hs | hs
    · have : s.tail = i := by
        revert hs
        unfold updateEntity
        split_ifs <;> simp <;> intro h <;> simp [h]
      simp only [List.length_cons]
      omega
    · have := h2 s hs
      simp only [List.length_cons]
      omega

theorem NoOpen_of_snoc {syms : List String} {b : String} (h : NoOpen (syms ++ [b]))
    (hE : b ≠ "E") (hS : b ≠ "S") : NoOpen syms := by
  intro k hk
  have hklt : k < syms.length := by
    rcases Nat.lt_or_ge k syms.length with h1 | h1
    · exact h1
    · rw [List.getElem?_eq_none h1] at hk
      cases hk
  obtain ⟨k', h1, h2⟩ := h k (by rw [List.getElem?_append_left hklt]; exact hk)
  refine ⟨k', h1, ?_⟩
  rcases Nat.lt_or_ge k' syms.length with h3 | h3
  · rw [List.getElem?_append_left h3] at h2
    exact h2
  · exfalso
    rw [List.getElem?_append_right h3] at h2
    rcases Nat.eq_zero_or_pos (k' - syms.length) with h4 | h4
    · rw [h4] at h2
      simp at h2
      rcases h2 with h2 | h2
      · exact hE h2
      · exact hS h2
    · have : ([b] : List String)[k' - syms.length]? = none :=
        List.getElem?_eq_none (by simp; omega)
      rw [this] at h2
      simp at h2

theorem not_NoOpen_snoc_B (syms : List String) : ¬ NoOpen (syms ++ ["B"]) := by
  intro h
  obtain ⟨k', h1, h2⟩ := h syms.length (by simp)
  have : (syms ++ ["B"])[k']? = none := List.getElem?_eq_none (by simp; omega)
  rw [this] at h2
  simp at h2

/-- While no span is open, the entity variable has the start and the identifier
of the span pushed last, or its initial value. -/
theorem runSide_closed (ent0 : Span) :
    ∀ p : List (String × String), NoOpen (p.map Prod.fst) →
      (runSide 0 p (ent0, [])).1.head = ((runSide 0 p (ent0, [])).2.getLast?.getD ent0).head ∧
      (runSide 0 p (ent0, [])).1.id = ((runSide 0 p (ent0, [])).2.getLast?.getD ent0).id := by
  intro p
  induction p using List.reverseRecOn with
  | nil => intro _; simp [runSide]
  | append_singleton p x ih =>
    intro hno
    obtain ⟨b, id⟩ := x
    rw [List.map_append, List.map_singleton] at hno
    rw [runSide_append]
    simp only [runSide, Nat.zero_add]
    by_cases c2 : b = "E" ∨ b = "S"
    · simp [updateEntity, c2]
    · have hE : b ≠ "E" := fun h => c2 (Or.inl h)
      have hS : b ≠ "S" := fun h => c2 (Or.inr h)
      by_cases c1 : b = "B"
      · subst c1
        exact absurd hno (not_NoOpen_snoc_B _)
      · have := ih (NoOpen_of_snoc hno hE hS)
        have c1' : ¬ (b = "B" ∨ b = "S") := by
          rintro (h | h)
          · exact c1 h
          · exact hS h
        simp only [updateEntity, c1', c2, if_false]
        exact this

theorem NoOpen_take {syms : List String} {i : Nat}
    (h : ∀ k < i, syms[k]? = some "B" →
      ∃ k' < i, k < k' ∧ (syms[k']? = some "E" ∨ syms[k']? = some "S")) :
    NoOpen (syms.take i) := by
  intro k hk
  have hki : k < i := by
    rcases Nat.lt_or_ge k i with h1 | h1
    · exact h1
    · rw [List.getElem?_take_eq_none h1] at hk
      cases hk
  rw [List.getElem?_take_of_lt hki] at hk
  obtain ⟨k', h1, h2, h3⟩ := h k hki hk
  exact ⟨k', h2, by rw [List.getElem?_take_of_lt h1]; exact h3⟩

/-- The span one side pushes at an `E` without an open span. -/
theorem side_dangling (ws : List String) (i : Nat) (h : DanglingEnd (decoded ws) i) :
    (emitted 0 (ws.map markerOf) ⟨0, 0, ""⟩).filter (fun s => decide (s.tail = i)) =
      [⟨(lastBefore (emitted 0 (ws.map markerOf) ⟨0, 0, ""⟩) i).head, i,
        (lastBefore (emitted 0 (ws.map markerOf) ⟨0, 0, ""⟩) i).id⟩] := by
  obtain ⟨hE, hB⟩ := h
  have hl : emitted 0 (ws.map markerOf) ⟨0, 0, ""⟩ =
      (runSide 0 (symbolPairs ws) (⟨0, 0, ""⟩, [])).2 := by
    rw [runSide_emitted]; simp
  rw [← symbolPairs_fst] at hE hB
  generalize symbolPairs ws = p at hl hE hB
  have hi : i < p.length := by
    rcases Nat.lt_or_ge i p.length with h1 | h1
    · exact h1
    · rw [List.getElem?_eq_none (by simpa using h1)] at hE
      cases hE
  have hx : (p[i]).1 = "E" := by
    rw [List.getElem?_map, List.getElem?_eq_getElem hi] at hE
    simpa using hE
  have hsplit : p = p.take i ++ p[i] :: p.drop (i + 1) := by
    rw [← List.drop_eq_getElem_cons hi, List.take_append_drop]
  have hlen : (p.take i).length = i := by
    rw [List.length_take]; omega
  have hno : NoOpen ((p.take i).map Prod.fst) := by
    rw [List.map_take]
    exact NoOpen_take hB
  obtain ⟨c1, c2⟩ := runSide_closed ⟨0, 0, ""⟩ (p.take i) hno
  obtain ⟨new0, n1, n2⟩ := runSide_new (p.take i) 0 ⟨0, 0, ""⟩ []
  have hrun : runSide 0 p (⟨0, 0, ""⟩, []) =
      runSide (i + 1) (p.drop (i + 1))
        (⟨(runSide 0 (p.take i) (⟨0, 0, ""⟩, [])).1.head, i,
            (runSide 0 (p.take i) (⟨0, 0, ""⟩, [])).1.id⟩,
         (runSide 0 (p.take i) (⟨0, 0, ""⟩, [])).2 ++
           [⟨(runSide 0 (p.take i) (⟨0, 0, ""⟩, [])).1.head, i,
              (runSide 0 (p.take i) (⟨0, 0, ""⟩, [])).1.id⟩]) := by
    have hpi : p[i] = ("E", (p[i]).2) := Prod.ext hx rfl
    conv_lhs => rw [hsplit]
    rw [runSide_append, hlen, hpi]
    simp [runSide, updateEntity]
  generalize runSide 0 (p.take i) (⟨0, 0, ""⟩, []) = st at c1 c2 n1 hrun
  obtain ⟨new, m1, m2⟩ := runSide_new (p.drop (i + 1)) (i + 1) ⟨st.1.head, i, st.1.id⟩
    (st.2 ++ [⟨st.1.head, i, st.1.id⟩])
  rw [hrun] at hl
  rw [m1] at hl
  simp only [List.nil_append] at n1
  have hbefore : ∀ s ∈ st.2, s.tail < i := by
    intro s hs
    rw [n1] at hs
    have := n2 s hs
    omega
  have hafter : ∀ s ∈ new, i < s.tail := by
    intro s hs
    have := m2 s hs
    omega
  have f1 : (st.2.filter fun s => decide (s.tail = i)) = [] := by
    rw [List.filter_eq_nil_iff]
    intro s hs
    have := hbefore s hs
    simp; omega
  have f2 : (new.filter fun s => decide (s.tail = i)) = [] := by
    rw [List.filter_eq_nil_iff]
    intro s hs
    have := hafter s hs
    simp; omega
  have g1 : (st.2.filter fun s => decide (s.tail < i)) = st.2 := by
    rw [List.filter_eq_self]
    intro s hs
    simpa using hbefore s hs
  have g2 : (new.filter fun s => decide (s.tail < i)) = [] := by
    rw [List.filter_eq_nil_iff]
    intro s hs
    have := hafter s hs
    simp; omega
  have hlast : lastBefore (emitted 0 (ws.map markerOf) ⟨0, 0, ""⟩) i =
      (st.2.getLast?).getD ⟨0, 0, ""⟩ := by
    rw [hl, lastBefore, List.filter_append, List.filter_append, g1, g2]
    simp
  rw [hlast, ← c1, ← c2, hl, List.filter_append, List.filter_append, f1, f2]
  simp

/-- C11, as the code has it: a sentence of equal gold and predicted length
passes the token loop when every token has a marker field, and for every token
`i` of a side that decodes to `E` while no span is open, the one span the side
pushes with end index `i` has the start index and the identifier of the span
pushed last before it, and start index `0` and the empty identifier when it is
the first span of the side. -/
theorem extract_dangling_end (sb : StatsBIOES) (tw aw : List String)
    (hlen : tw.length = aw.length) :
    ((∀ w ∈ tw, hasMarker w) → (∀ w ∈ aw, hasMarker w) →
      (extract sb tw aw).isSome = true) ∧
    ∀ lp, extract sb tw aw = some lp →
      (∀ i, DanglingEnd (decoded tw) i →
        lp.truths.filter (fun s => decide (s.tail = i)) =
          [⟨(lastBefore lp.truths i).head, i, (lastBefore lp.truths i).id⟩]) ∧
      (∀ i, DanglingEnd (decoded aw) i →
        lp.algs.filter (fun s => decide (s.tail = i)) =
          [⟨(lastBefore lp.algs i).head, i, (lastBefore lp.algs i).id⟩]) := by
  refine ⟨extract_isSome sb tw aw hlen, fun lp h => ?_⟩
  obtain ⟨e1, e2, _, _⟩ := extract_emitted hlen h
  rw [e1, e2]
  exact ⟨fun i hi => side_dangling tw i hi, fun i hi => side_dangling aw i hi⟩

/-- C11 as stated fails: with the gold markers `[Q1, O, I]` token `2` decodes to
`E` while no span is open, and the span pushed there is `(0, 2, Q1)`; no span of
the list has start and end index `2`. -/
theorem extract_dangling_end_counterexample :
    decoded ["a\\?\\Q1", "b\\?\\O", "c\\?\\I"] = ["S", "O", "E"] ∧
    DanglingEnd (decoded ["a\\?\\Q1", "b\\?\\O", "c\\?\\I"]) 2 ∧
    (extract (fun _ _ => 0) ["a\\?\\Q1", "b\\?\\O", "c\\?\\I"]
        ["a\\?\\O", "b\\?\\O", "c\\?\\O"]).map
      (fun lp => (lp.truths, decide (∃ s ∈ lp.truths, s.head = 2 ∧ s.tail = 2))) =
      some ([⟨0, 0, "Q1"⟩, ⟨0, 2, "Q1"⟩], false) := by
  refine ⟨by decide, by decide, by decide⟩

/-- C11 on the gold markers `[O, I, Q1, O, I]` and the predicted markers
`[Q2, I, O, I, O]`: the gold side pushes `(0, 1, "")` at token `1` and
`(2, 4, Q1)` at token `4`, the predicted side `(0, 3, Q2)` at token `3`. -/
theorem extract_dangling_end_witness :
    (["a\\?\\O", "b\\?\\I", "c\\?\\Q1", "d\\?\\O", "e\\?\\I"] : List String).length =
      (["a\\?\\Q2", "b\\?\\I", "c\\?\\O", "d\\?\\I", "e\\?\\O"] : List String).length ∧
    DanglingEnd (decoded ["a\\?\\O", "b\\?\\I", "c\\?\\Q1", "d\\?\\O", "e\\?\\I"]) 1 ∧
    DanglingEnd (decoded ["a\\?\\O", "b\\?\\I", "c\\?\\Q1", "d\\?\\O", "e\\?\\I"]) 4 ∧
    DanglingEnd (decoded ["a\\?\\Q2", "b\\?\\I", "c\\?\\O", "d\\?\\I", "e\\?\\O"]) 3 ∧
    (extract (fun _ _ => 0) ["a\\?\\O", "b\\?\\I", "c\\?\\Q1", "d\\?\\O", "e\\?\\I"]
        ["a\\?\\Q2", "b\\?\\I", "c\\?\\O", "d\\?\\I", "e\\?\\O"]).map
      (fun lp => (lp.truths, lp.algs)) =
      some ([⟨0, 1, ""⟩, ⟨2, 2, "Q1"⟩, ⟨2, 4, "Q1"⟩], [⟨0, 1, "Q2"⟩, ⟨0, 3, "Q2"⟩]) ∧
    (((∀ w ∈ (["a\\?\\O", "b\\?\\I", "c\\?\\Q1", "d\\?\\O", "e\\?\\I"] : List String),
        hasMarker w) →
      (∀ w ∈ (["a\\?\\Q2", "b\\?\\I", "c\\?\\O", "d\\?\\I", "e\\?\\O"] : List String),
        hasMarker w) →
      (extract (fun _ _ => 0) ["a\\?\\O", "b\\?\\I", "c\\?\\Q1", "d\\?\\O", "e\\?\\I"]
        ["a\\?\\Q2", "b\\?\\I", "c\\?\\O", "d\\?\\I", "e\\?\\O"]).isSome = true) ∧
    ∀ lp, extract (fun _ _ => 0) ["a\\?\\O", "b\\?\\I", "c\\?\\Q1", "d\\?\\O", "e\\?\\I"]
        ["a\\?\\Q2", "b\\?\\I", "c\\?\\O", "d\\?\\I", "e\\?\\O"] = some lp →
      (∀ i, DanglingEnd (decoded ["a\\?\\O", "b\\?\\I", "c\\?\\Q1", "d\\?\\O", "e\\?\\I"]) i →
        lp.truths.filter (fun s => decide (s.tail = i)) =
          [⟨(lastBefore lp.truths i).head, i, (lastBefore lp.truths i).id⟩]) ∧
      (∀ i, DanglingEnd (decoded ["a\\?\\Q2", "b\\?\\I", "c\\?\\O", "d\\?\\I", "e\\?\\O"]) i →
        lp.algs.filter (fun s => decide (s.tail = i)) =
          [⟨(lastBefore lp.algs i).head, i, (lastBefore lp.algs i).id⟩])) :=
  ⟨by decide, by decide, by decide, by decide, by decide,
   extract_dangling_end (fun _ _ => 0) ["a\\?\\O", "b\\?\\I", "c\\?\\Q1", "d\\?\\O", "e\\?\\I"]
     ["a\\?\\Q2", "b\\?\\I", "c\\?\\O", "d\\?\\I", "e\\?\\O"] (by decide)⟩

/-! ## Token-level counters and flags -/

theorem headD_append_self (ws : List String) (d : String) :
    (ws ++ [d]).headD d = ws.headD d := by
  cases ws <;> simp

theorem tokenStep_stats_flags (i : Nat) (a an t tn : String) (st : LoopState)
    (ha : hasMarker a) (ht : hasMarker t) :
    ∃ st', tokenStep i a an t tn st = some st' ∧
      st'.flags =
        (if getBIOES a an = getBIOES t tn then st.flags
         else (st.flags ||| flagBitMap (getBIOES a an ++ "_fp")) |||
           flagBitMap (getBIOES t tn ++ "_fn")) ∧
      st'.statsBIOES =
        (if getBIOES a an = getBIOES t tn then bump st.statsBIOES (getBIOES a an) "tp"
         else bump (bump st.statsBIOES (getBIOES a an) "fp") (getBIOES t tn) "fn") := by
  rw [hasMarker_iff] at ha ht
  unfold tokenStep
  simp only [ha, ht]
  exact ⟨_, rfl, rfl, rfl⟩

/-- On two sequences of equal length whose tokens all have a marker field, the
token loop leaves the flags and counters that the folds over the decoded symbols
describe. -/
theorem tokenLoop_stats_flags :
    ∀ (tw aw : List String) (i : Nat) (st : LoopState), tw.length = aw.length →
      (∀ w ∈ tw, hasMarker w) → (∀ w ∈ aw, hasMarker w) →
      ∃ st', tokenLoop i (aw ++ [dummyTail]) (tw ++ [dummyTail]) st = some st' ∧
        st'.flags = flagsFold st.flags (List.zip (decoded aw) (decoded tw)) ∧
        st'.statsBIOES = statsFold st.statsBIOES (List.zip (decoded aw) (decoded tw)) := by
  intro tw
  induction tw with
  | nil =>
    intro aw i st hlen _ _
    have : aw = [] := List.length_eq_zero.mp hlen.symm
    subst this
    exact ⟨st, by simp [tokenLoop], by simp [decoded, flagsFold], by simp [decoded, statsFold]⟩
  | cons t ts ih =>
    intro aw i st hlen htw haw
    cases aw with
    | nil => simp at hlen
    | cons a as =>
      have hlen' : ts.length = as.length := by simpa using hlen
      have ha : hasMarker a := haw a (List.mem_cons_self _ _)
      have ht : hasMarker t := htw t (List.mem_cons_self _ _)
      obtain ⟨st1, e0, e1, e2⟩ :=
        tokenStep_stats_flags i a ((as ++ [dummyTail]).headD dummyTail) t
          ((ts ++ [dummyTail]).headD dummyTail) st ha ht
      obtain ⟨st2, f0, f1, f2⟩ := ih as (i + 1) st1 hlen'
        (fun w hw => htw w (List.mem_cons_of_mem _ hw))
        (fun w hw => haw w (List.mem_cons_of_mem _ hw))
      rw [headD_append_self, headD_append_self] at e1 e2
      refine ⟨st2, ?_, ?_, ?_⟩
      · rw [List.cons_append, List.cons_append,
          tokenLoop_cons i a t dummyTail _ _ st (by simp) (by simp), e0]
        exact f0
      · rw [f1, e1]
        rfl
      · rw [f2, e2]
        rfl

/-- The flags and counters of a sentence on which the token loop returns. -/
theorem extract_stats_flags {sb : StatsBIOES} {tw aw : List String} {lp : LoopState}
    (hlen : tw.length = aw.length) (h : extract sb tw aw = some lp) :
    lp.flags = flagsFold 0 (List.zip (decoded aw) (decoded tw)) ∧
    lp.statsBIOES = statsFold sb (List.zip (decoded aw) (decoded tw)) := by
  obtain ⟨m1, m2⟩ := tokenLoop_hasMarker tw aw 0 (initLoop sb) lp hlen h
  obtain ⟨lp', e0, e1, e2⟩ := tokenLoop_stats_flags tw aw 0 (initLoop sb) hlen m1 m2
  have h' : tokenLoop 0 (aw ++ [dummyTail]) (tw ++ [dummyTail]) (initLoop sb) = some lp := h
  rw [h'] at e0
  cases e0
  exact ⟨by rw [e1]; simp [initLoop], by rw [e2]; simp [initLoop]⟩

theorem getBIOES_mem (w n : String) : getBIOES w n ∈ symbolsBIOES := by
  rw [getBIOES_decodeMarker]
  unfold decodeMarker symbolsBIOES
  split_ifs <;> simp

theorem decoded_mem : ∀ (ws : List String), ∀ s ∈ decoded ws, s ∈ symbolsBIOES := by
  intro ws
  induction ws with
  | nil => intro s hs; simp [decoded] at hs
  | cons w ws ih =>
    intro s hs
    simp only [decoded, List.mem_cons] at hs
    rcases hs with rfl | hs
    · exact getBIOES_mem _ _
    · exact ih s hs

theorem flagBitMap_fp {X : String} (h : X ∈ symbolsBIOES) :
    flagBitMap (X ++ "_fp") = 2 ^ fpBit X := by
  simp only [symbolsBIOES, List.mem_cons, List.mem_singleton, List.not_mem_nil, or_false] at h
  rcases h with rfl | rfl | rfl | rfl | rfl <;> decide

theorem flagBitMap_fn {X : String} (h : X ∈ symbolsBIOES) :
    flagBitMap (X ++ "_fn") = 2 ^ fnBit X := by
  simp only [symbolsBIOES, List.mem_cons, List.mem_singleton, List.not_mem_nil, or_false] at h
  rcases h with rfl | rfl | rfl | rfl | rfl <;> decide

theorem fpBit_le (X : String) : fpBit X ≤ 4 := by
  unfold fpBit
  split_ifs <;> omega

theorem fnBit_ge (X : String) : 5 ≤ fnBit X := by
  unfold fnBit
  split_ifs <;> omega

theorem fpBit_inj {X Y : String} (hX : X ∈ symbolsBIOES) (hY : Y ∈ symbolsBIOES)
    (h : fpBit X = fpBit Y) : X = Y := by
  simp only [symbolsBIOES, List.mem_cons, List.mem_singleton, List.not_mem_nil, or_false] at hX hY
  rcases hX with rfl | rfl | rfl | rfl | rfl <;> rcases hY with rfl | rfl | rfl | rfl | rfl <;>
    first
    | rfl
    | (exfalso; revert h; decide)

theorem fnBit_inj {X Y : String} (hX : X ∈ symbolsBIOES) (hY : Y ∈ symbolsBIOES)
    (h : fnBit X = fnBit Y) : X = Y := by
  simp only [symbolsBIOES, List.mem_cons, List.mem_singleton, List.not_mem_nil, or_false] at hX hY
  rcases hX with rfl | rfl | rfl | rfl | rfl <;> rcases hY with rfl | rfl | rfl | rfl | rfl <;>
    first
    | rfl
    | (exfalso; revert h; decide)

theorem and_two_pow_ne_zero (x k : Nat) : x &&& 2 ^ k ≠ 0 ↔ x.testBit k = true := by
  constructor
  · intro h
    by_contra hb
    apply h
    apply Nat.eq_of_testBit_eq
    intro i
    rw [Nat.testBit_and, Nat.testBit_two_pow, Nat.zero_testBit]
    by_cases hki : k = i
    · subst hki
      simp [hb]
    · simp [hki]
  · intro hb h
    have : (x &&& 2 ^ k).testBit k = true := by
      rw [Nat.testBit_and, Nat.testBit_two_pow_self, hb]
      rfl
    rw [h, Nat.zero_testBit] at this
    cases this

/-- The bits of the flags after the fold: those set before, and for every token
whose two symbols differ the `_fp` bit of the predicted and the `_fn` bit of the
gold symbol. -/
theorem flagsFold_testBit :
    ∀ (pairs : List (String × String)) (f n : Nat),
      (∀ p ∈ pairs, p.1 ∈ symbolsBIOES ∧ p.2 ∈ symbolsBIOES) →
      ((flagsFold f pairs).testBit n = true ↔
        f.testBit n = true ∨ ∃ p ∈ pairs, p.1 ≠ p.2 ∧ (n = fpBit p.1 ∨ n = fnBit p.2)) := by
  intro pairs
  induction pairs with
  | nil => intro f n _; simp [flagsFold]
  | cons x pairs ih =>
    intro f n hmem
    obtain ⟨a, t⟩ := x
    obtain ⟨ha, ht⟩ := hmem (a, t) (List.mem_cons_self _ _)
    simp only at ha ht
    have ih' := fun f' => ih f' n fun p hp => hmem p (List.mem_cons_of_mem _ hp)
    simp only [flagsFold]
    rw [ih']
    by_cases hat : a = t
    · subst hat
      simp
    · simp only [hat, if_false, Nat.testBit_or, flagBitMap_fp ha, flagBitMap_fn ht,
        Nat.testBit_two_pow, Bool.or_eq_true, decide_eq_true_eq, List.mem_cons,
        exists_eq_or_imp, ne_eq, not_false_eq_true, true_and]
      constructor
      · rintro (((h | h) | h) | h)
        · exact Or.inl h
        · exact Or.inr (Or.inl (Or.inl h.symm))
        · exact Or.inr (Or.inl (Or.inr h.symm))
        · exact Or.inr (Or.inr h)
      · rintro (h | (h | h) | h)
        · exact Or.inl (Or.inl (Or.inl h))
        · exact Or.inl (Or.inl (Or.inr h.symm))
        · exact Or.inl (Or.inr h.symm)
        · exact Or.inr h

theorem zip_decoded_mem (aw tw : List String) :
    ∀ p ∈ List.zip (decoded aw) (decoded tw), p.1 ∈ symbolsBIOES ∧ p.2 ∈ symbolsBIOES := by
  intro p hp
  obtain ⟨a, t⟩ := p
  have := List.of_mem_zip hp
  exact ⟨decoded_mem aw a this.1, decoded_mem tw t this.2⟩

theorem eq_iff_zip_eq : ∀ (l₁ l₂ : List String), l₁.length = l₂.length →
    (l₁ = l₂ ↔ ∀ p ∈ List.zip l₁ l₂, p.1 = p.2) := by
  intro l₁
  induction l₁ with
  | nil =>
    intro l₂ h
    have : l₂ = [] := List.length_eq_zero.mp h.symm
    subst this
    simp
  | cons a l₁ ih =>
    intro l₂ h
    cases l₂ with
    | nil => simp at h
    | cons b l₂ =>
      have h' : l₁.length = l₂.length := by simpa using h
      simp only [List.cons.injEq, List.zip_cons_cons, List.mem_cons, forall_eq_or_imp, ih l₂ h']

/-- The bitmask of a sentence in terms of the decoded symbols of its tokens. -/
theorem flagsFold_spec (aw tw : List String) (hlen : tw.length = aw.length) :
    (∀ X ∈ symbolsBIOES,
      (flagsFold 0 (List.zip (decoded aw) (decoded tw)) &&& flagBitMap (X ++ "_fp") ≠ 0 ↔
        ∃ p ∈ List.zip (decoded aw) (decoded tw), p.1 = X ∧ p.2 ≠ X) ∧
      (flagsFold 0 (List.zip (decoded aw) (decoded tw)) &&& flagBitMap (X ++ "_fn") ≠ 0 ↔
        ∃ p ∈ List.zip (decoded aw) (decoded tw), p.2 = X ∧ p.1 ≠ X)) ∧
    (flagsFold 0 (List.zip (decoded aw) (decoded tw)) = 0 ↔ decoded aw = decoded tw) := by
  have hmem := zip_decoded_mem aw tw
  have key := fun n => flagsFold_testBit (List.zip (decoded aw) (decoded tw)) 0 n hmem
  constructor
  · intro X hX
    constructor
    · rw [flagBitMap_fp hX, and_two_pow_ne_zero, key]
      simp only [Nat.zero_testBit, Bool.false_eq_true, false_or]
      constructor
      · rintro ⟨p, hp, hne, h | h⟩
        · have := fpBit_inj hX (hmem p hp).1 h
          exact ⟨p, hp, this.symm, fun h2 => hne (by rw [h2, this])⟩
        · have h1 := fpBit_le X
          have h2 := fnBit_ge p.2
          omega
      · rintro ⟨p, hp, h1, h2⟩
        exact ⟨p, hp, fun h3 => h2 (by rw [← h3, h1]), Or.inl (by rw [h1])⟩
    · rw [flagBitMap_fn hX, and_two_pow_ne_zero, key]
      simp only [Nat.zero_testBit, Bool.false_eq_true, false_or]
      constructor
      · rintro ⟨p, hp, hne, h | h⟩
        · have h1 := fpBit_le p.1
          have h2 := fnBit_ge X
          omega
        · have := fnBit_inj hX (hmem p hp).2 h
          exact ⟨p, hp, this.symm, fun h2 => hne (by rw [h2, this])⟩
      · rintro ⟨p, hp, h1, h2⟩
        exact ⟨p, hp, fun h3 => h2 (by rw [h3, h1]), Or.inr (by rw [h1])⟩
  · rw [eq_iff_zip_eq _ _ (by rw [decoded_length, decoded_length, hlen])]
    constructor
    · intro h0 p hp
      by_contra hne
      have := (key (fpBit p.1)).mpr (Or.inr ⟨p, hp, hne, Or.inl rfl⟩)
      rw [h0, Nat.zero_testBit] at this
      cases this
    · intro hall
      apply Nat.eq_of_testBit_eq
      intro n
      rw [Nat.zero_testBit]
      by_contra hb
      have hb' : (flagsFold 0 (List.zip (decoded aw) (decoded tw))).testBit n = true := by
        simpa using hb
      rw [key] at hb'
      simp only [Nat.zero_testBit, Bool.false_eq_true, false_or] at hb'
      obtain ⟨p, hp, hne, _⟩ := hb'
      exact hne (hall p hp)

/-- C15: a sentence of equal gold and predicted length is scored when every
token has a marker field.  The ten values of `flagBitMap` are single bits and
pairwise distinct.  In the bitmask of a scored sentence the bit of `X_fp` is set
exactly when some token has the predicted symbol `X` and another gold symbol, the
bit of `X_fn` exactly when some token has the gold symbol `X` and another
predicted symbol, and the bitmask is `0` exactly when the predicted and the gold
symbols agree on every token. -/
theorem scoreSentence_flags (sb : StatsBIOES) (tw aw : List String)
    (hlen : tw.length = aw.length) :
    ((∀ w ∈ tw, hasMarker w) → (∀ w ∈ aw, hasMarker w) →
      (scoreSentence sb tw aw).isSome = true) ∧
    (flagKeys.map flagBitMap).Nodup ∧
    (∀ k ∈ flagKeys, ∃ n, flagBitMap k = 2 ^ n) ∧
    ∀ lp al, scoreSentence sb tw aw = some (lp, al) →
      (∀ X ∈ symbolsBIOES,
        (lp.flags &&& flagBitMap (X ++ "_fp") ≠ 0 ↔
          ∃ p ∈ List.zip (decoded aw) (decoded tw), p.1 = X ∧ p.2 ≠ X) ∧
        (lp.flags &&& flagBitMap (X ++ "_fn") ≠ 0 ↔
          ∃ p ∈ List.zip (decoded aw) (decoded tw), p.2 = X ∧ p.1 ≠ X)) ∧
      (lp.flags = 0 ↔ decoded aw = decoded tw) := by
  refine ⟨isSome_of_hasMarker sb tw aw hlen, by decide, ?_, ?_⟩
  · intro k hk
    simp only [flagKeys, List.mem_cons, List.mem_singleton, List.not_mem_nil, or_false] at hk
    rcases hk with rfl | rfl | rfl | rfl | rfl | rfl | rfl | rfl | rfl | rfl
    · exact ⟨0, by decide⟩
    · exact ⟨1, by decide⟩
    · exact ⟨2, by decide⟩
    · exact ⟨3, by decide⟩
    · exact ⟨4, by decide⟩
    · exact ⟨5, by decide⟩
    · exact ⟨6, by decide⟩
    · exact ⟨7, by decide⟩
    · exact ⟨8, by decide⟩
    · exact ⟨9, by decide⟩
  · intro lp al h
    obtain ⟨h1, _⟩ := scoreSentence_eq_some h
    obtain ⟨e1, _⟩ := extract_stats_flags hlen h1
    rw [e1]
    exact flagsFold_spec aw tw hlen

/-- C15 on gold markers `[Q1, I, O]` against predicted markers `[Q1, O, O]`: the
gold symbols are `[B, E, O]`, the predicted symbols `[S, O, O]`, and the bitmask
`337` has the bits of `S_fp`, `O_fp`, `B_fn` and `E_fn`. -/
theorem scoreSentence_flags_witness :
    (["a\\?\\Q1", "b\\?\\I", "c\\?\\O"] : List String).length =
      (["a\\?\\Q1", "b\\?\\O", "c\\?\\O"] : List String).length ∧
    decoded ["a\\?\\Q1", "b\\?\\I", "c\\?\\O"] = ["B", "E", "O"] ∧
    decoded ["a\\?\\Q1", "b\\?\\O", "c\\?\\O"] = ["S", "O", "O"] ∧
    (scoreSentence (fun _ _ => 0) ["a\\?\\Q1", "b\\?\\I", "c\\?\\O"]
        ["a\\?\\Q1", "b\\?\\O", "c\\?\\O"]).map (fun p => p.1.flags) = some 337 ∧
    (337 : Nat) = 2 ^ 0 + 2 ^ 4 + 2 ^ 6 + 2 ^ 8 ∧
    (((∀ w ∈ (["a\\?\\Q1", "b\\?\\I", "c\\?\\O"] : List String), hasMarker w) →
      (∀ w ∈ (["a\\?\\Q1", "b\\?\\O", "c\\?\\O"] : List String), hasMarker w) →
      (scoreSentence (fun _ _ => 0) ["a\\?\\Q1", "b\\?\\I", "c\\?\\O"]
        ["a\\?\\Q1", "b\\?\\O", "c\\?\\O"]).isSome = true) ∧
    (flagKeys.map flagBitMap).Nodup ∧
    (∀ k ∈ flagKeys, ∃ n, flagBitMap k = 2 ^ n) ∧
    ∀ lp al, scoreSentence (fun _ _ => 0) ["a\\?\\Q1", "b\\?\\I", "c\\?\\O"]
        ["a\\?\\Q1", "b\\?\\O", "c\\?\\O"] = some (lp, al) →
      (∀ X ∈ symbolsBIOES,
        (lp.flags &&& flagBitMap (X ++ "_fp") ≠ 0 ↔
          ∃ p ∈ List.zip (decoded ["a\\?\\Q1", "b\\?\\O", "c\\?\\O"])
            (decoded ["a\\?\\Q1", "b\\?\\I", "c\\?\\O"]), p.1 = X ∧ p.2 ≠ X) ∧
        (lp.flags &&& flagBitMap (X ++ "_fn") ≠ 0 ↔
          ∃ p ∈ List.zip (decoded ["a\\?\\Q1", "b\\?\\O", "c\\?\\O"])
            (decoded ["a\\?\\Q1", "b\\?\\I", "c\\?\\O"]), p.2 = X ∧ p.1 ≠ X)) ∧
      (lp.flags = 0 ↔
        decoded ["a\\?\\Q1", "b\\?\\O", "c\\?\\O"] =
          decoded ["a\\?\\Q1", "b\\?\\I", "c\\?\\O"])) :=
  ⟨by decide, by decide, by decide, by decide, by decide,
   scoreSentence_flags (fun _ _ => 0) ["a\\?\\Q1", "b\\?\\I", "c\\?\\O"]
     ["a\\?\\Q1", "b\\?\\O", "c\\?\\O"] (by decide)⟩

/-! ## The loop over the records -/

/-- The counts of the two passes do not depend on the counters the token loop
starts from. -/
theorem scoreSentence_countsOf {sb : StatsBIOES} {r : Record} {lp : LoopState}
    {al : AlignState} (hs : isScored r = true)
    (h : scoreSentence sb r.truthWords r.algWords = some (lp, al)) :
    countsOf r = (al.macroTp, al.macroFp, al.macroFn) := by
  have hlen : r.truthWords.length = r.algWords.length := by
    simp only [isScored, decide_eq_true_eq] at hs
    exact hs.symm
  obtain ⟨h1, h2⟩ := scoreSentence_eq_some h
  obtain ⟨e1, e2, m1, m2⟩ := extract_emitted hlen h1
  have hsome := isSome_of_hasMarker (fun _ _ => 0) r.truthWords r.algWords hlen m1 m2
  cases h0 : scoreSentence (fun _ _ => 0) r.truthWords r.algWords with
  | none => rw [h0] at hsome; cases hsome
  | some p =>
    obtain ⟨k1, k2⟩ := @scoreSentence_eq_some _ _ _ p.1 p.2 h0
    obtain ⟨f1, f2, _, _⟩ := extract_emitted hlen k1
    rw [f1, f2, ← e1, ← e2, h2] at k2
    cases k2
    simp [countsOf, h0]

theorem evaluateRecord_cases {st st' : EvalState} {r : Record}
    (h : evaluateRecord st r = some st') :
    (isScored r = false ∧
      st' = { st with
        num_total := st.num_total + 1,
        fNerNed := st.fNerNed ++ [(r.lineIdx, r.linePos, NERNED_MISMATCH)],
        num_mismatch := st.num_mismatch + 1 }) ∨
    (isScored r = true ∧ ∃ lp al,
      scoreSentence st.statsBIOES r.truthWords r.algWords = some (lp, al) ∧
      st' = { statsBIOES := lp.statsBIOES,
              num_total := st.num_total + 1,
              num_correct := if al.sentenceCorrect then st.num_correct + 1 else st.num_correct,
              num_wrong := if al.sentenceCorrect then st.num_wrong else st.num_wrong + 1,
              num_mismatch := st.num_mismatch,
              microTp := st.microTp + al.macroTp,
              microFp := st.microFp + al.macroFp,
              microFn := st.microFn + al.macroFn,
              macroF1InKB :=
                Double.add st.macroF1InKB (computeF1 al.macroTp al.macroFp al.macroFn),
              fNerNed := st.fNerNed ++ [(r.lineIdx, r.linePos, verdictCode al)],
              fNer := st.fNer ++ [(r.lineIdx, r.linePos, lp.flags)] }) := by
  unfold evaluateRecord at h
  by_cases hl : r.algWords.length = r.truthWords.length
  · right
    simp only [hl, ne_eq, not_true_eq_false, if_false] at h
    refine ⟨by simp [isScored, hl], ?_⟩
    cases hs : scoreSentence st.statsBIOES r.truthWords r.algWords with
    | none => rw [hs] at h; cases h
    | some p =>
      obtain ⟨lp, al⟩ := p
      rw [hs] at h
      simp only [Option.some.injEq] at h
      exact ⟨lp, al, rfl, h.symm⟩
  · left
    simp only [hl, ne_eq, not_false_eq_true, if_true, Option.some.injEq] at h
    exact ⟨by simp [isScored, hl], h.symm⟩

theorem scoredRecords_cons (r : Record) (rs : List Record) :
    scoredRecords (r :: rs) = if isScored r = true then r :: scoredRecords rs
      else scoredRecords rs := by
  simp only [scoredRecords, List.filter_cons]

theorem evaluateLoop_isSome :
    ∀ (rs : List Record) (st : EvalState),
      (∀ r ∈ scoredRecords rs,
        (∀ w ∈ r.truthWords, hasMarker w) ∧ (∀ w ∈ r.algWords, hasMarker w)) →
      (evaluateLoop rs st).isSome = true := by
  intro rs
  induction rs with
  | nil => intro st _; rfl
  | cons r rs ih =>
    intro st hm
    have hrest : ∀ x ∈ scoredRecords rs,
        (∀ w ∈ x.truthWords, hasMarker w) ∧ (∀ w ∈ x.algWords, hasMarker w) := by
      intro x hx
      apply hm
      rw [scoredRecords_cons]
      split_ifs
      · exact List.mem_cons_of_mem _ hx
      · exact hx
    have hstep : ∃ st1, evaluateRecord st r = some st1 := by
      unfold evaluateRecord
      by_cases hl : r.algWords.length = r.truthWords.length
      · have hr : r ∈ scoredRecords (r :: rs) := by
          rw [scoredRecords_cons]
          simp [isScored, hl]
        obtain ⟨m1, m2⟩ := hm r hr
        have hsome := isSome_of_hasMarker st.statsBIOES r.truthWords r.algWords hl.symm m1 m2
        cases hs : scoreSentence st.statsBIOES r.truthWords r.algWords with
        | none => rw [hs] at hsome; cases hsome
        | some p =>
          simp only [hl, ne_eq, not_true_eq_false, if_false]
          rw [hs]
          exact ⟨_, rfl⟩
      · simp [hl]
    obtain ⟨st1, h1⟩ := hstep
    simp only [evaluateLoop, h1, Option.some_bind]
    exact ih st1 hrest

/-- The sentence tallies, the pooled counts and the macro sum after the loop. -/
theorem evaluateLoop_counts :
    ∀ (rs : List Record) (st0 st : EvalState), evaluateLoop rs st0 = some st →
      st.num_total = st0.num_total + rs.length ∧
      st.num_mismatch + (scoredRecords rs).length = st0.num_mismatch + rs.length ∧
      st.microTp = st0.microTp + ((scoredRecords rs).map fun r => (countsOf r).1).sum ∧
      st.microFp = st0.microFp + ((scoredRecords rs).map fun r => (countsOf r).2.1).sum ∧
      st.microFn = st0.microFn + ((scoredRecords rs).map fun r => (countsOf r).2.2).sum ∧
      st.macroF1InKB =
        ((scoredRecords rs).map fun r =>
          computeF1 (countsOf r).1 (countsOf r).2.1 (countsOf r).2.2).foldl Double.add
          st0.macroF1InKB := by
  intro rs
  induction rs with
  | nil =>
    intro st0 st h
    simp only [evaluateLoop, Option.some.injEq] at h
    subst h
    simp [scoredRecords]
  | cons r rs ih =>
    intro st0 st h
    simp only [evaluateLoop] at h
    cases h1 : evaluateRecord st0 r with
    | none => rw [h1] at h; cases h
    | some st1 =>
      rw [h1, Option.some_bind] at h
      obtain ⟨i1, i2, i3, i4, i5, i6⟩ := ih st1 st h
      rcases evaluateRecord_cases h1 with ⟨hs, rfl⟩ | ⟨hs, lp, al, hsc, rfl⟩
      · rw [scoredRecords_cons]
        simp only [hs, Bool.false_eq_true, if_false, List.length_cons]
        simp only at i1 i2 i3 i4 i5 i6
        exact ⟨by omega, by omega, i3, i4, i5, i6⟩
      · have hc := scoreSentence_countsOf hs hsc
        rw [scoredRecords_cons]
        simp only [hs, if_true, List.length_cons, List.map_cons, List.sum_cons, hc]
        simp only at i1 i2 i3 i4 i5 i6
        refine ⟨by omega, by omega, by omega, by omega, by omega, ?_⟩
        rw [i6, List.foldl_cons]

/-- The lines of the two per-sentence outputs after the loop, without their
codes. -/
theorem evaluateLoop_lines :
    ∀ (rs : List Record) (st0 st : EvalState), evaluateLoop rs st0 = some st →
      st.fNerNed.map (fun l => (l.1, l.2.1)) =
        st0.fNerNed.map (fun l => (l.1, l.2.1)) ++ rs.map (fun r => (r.lineIdx, r.linePos)) ∧
      st.fNer.map (fun l => (l.1, l.2.1)) =
        st0.fNer.map (fun l => (l.1, l.2.1)) ++
          (scoredRecords rs).map (fun r => (r.lineIdx, r.linePos)) := by
  intro rs
  induction rs with
  | nil =>
    intro st0 st h
    simp only [evaluateLoop, Option.some.injEq] at h
    subst h
    simp [scoredRecords]
  | cons r rs ih =>
    intro st0 st h
    simp only [evaluateLoop] at h
    cases h1 : evaluateRecord st0 r with
    | none => rw [h1] at h; cases h
    | some st1 =>
      rw [h1, Option.some_bind] at h
      obtain ⟨i1, i2⟩ := ih st1 st h
      rcases evaluateRecord_cases h1 with ⟨hs, rfl⟩ | ⟨hs, lp, al, hsc, rfl⟩
      · rw [scoredRecords_cons]
        simp only [hs, Bool.false_eq_true, if_false]
        simp only at i1 i2
        exact ⟨by rw [i1]; simp, i2⟩
      · rw [scoredRecords_cons]
        simp only [hs, if_true]
        simp only at i1 i2
        exact ⟨by rw [i1]; simp, by rw [i2]; simp⟩

/-- C14: the loop over the records returns when every token of every scored
record has a marker field, and when at least one record is scored,
`num_total - num_mismatch` is the number of scored records, the micro F1 is
`computeF1` of the sums of the per-sentence `tp`, `fp` and `fn` over the scored
records, and the macro F1 is the sum of the per-sentence `computeF1` over the
scored records, accumulated in `double` in the order of the input, divided by
`num_total - num_mismatch`. -/
theorem evaluateLoop_finalize (rs : List Record) :
    ((∀ r ∈ scoredRecords rs,
        (∀ w ∈ r.truthWords, hasMarker w) ∧ (∀ w ∈ r.algWords, hasMarker w)) →
      (evaluateLoop rs initEval).isSome = true) ∧
    ∀ st, evaluateLoop rs initEval = some st → scoredRecords rs ≠ [] →
      st.num_total - st.num_mismatch = (scoredRecords rs).length ∧
      0 < st.num_total - st.num_mismatch ∧
      (finalize st).1 =
        computeF1 ((scoredRecords rs).map fun r => (countsOf r).1).sum
          ((scoredRecords rs).map fun r => (countsOf r).2.1).sum
          ((scoredRecords rs).map fun r => (countsOf r).2.2).sum ∧
      (finalize st).2 =
        Double.div
          (sumDouble ((scoredRecords rs).map fun r =>
            computeF1 (countsOf r).1 (countsOf r).2.1 (countsOf r).2.2))
          (Double.ofNat (st.num_total - st.num_mismatch)) := by
  refine ⟨evaluateLoop_isSome rs initEval, fun st h hne => ?_⟩
  obtain ⟨i1, i2, i3, i4, i5, i6⟩ := evaluateLoop_counts rs initEval st h
  have hpos : 0 < (scoredRecords rs).length := List.length_pos.mpr hne
  simp only [initEval, Nat.zero_add] at i1 i2 i3 i4 i5
  simp only [initEval] at i6
  refine ⟨by omega, by omega, ?_, ?_⟩
  · simp only [finalize, i3, i4, i5]
  · simp only [finalize, i6, sumDouble]

theorem finalize_example :
    (evaluateLoop [⟨0, 0, ["w1\\?\\Q10", "w2\\?\\I"], ["w1\\?\\O", "w2\\?\\O"]⟩,
        ⟨1, 24, ["a\\?\\O"], ["a\\?\\O", "b\\?\\O"]⟩,
        ⟨2, 40, ["c\\?\\Q1"], ["c\\?\\Q1"]⟩] initEval).map finalize =
      some (Double.fin 6004799503160661 1021, Double.fin (1 <<< 52) 1021) := by
  decide

/-- C14 on three records: gold markers `[Q10, I]` against predicted `[O, O]`, a
record with one gold and two predicted tokens, and gold `[Q1]` against predicted
`[Q1]`.  The per-sentence counts are `(0, 0, 1)` and `(1, 0, 0)`, so the micro F1
is `computeF1 1 0 1`, the `double` `6004799503160661 / 2^53` next to `2/3`, and
the macro F1 is `(0.0 + 1.0) / 2.0`, the `double` `2^52 / 2^53 = 0.5`. -/
theorem evaluateLoop_finalize_witness :
    scoredRecords [⟨0, 0, ["w1\\?\\Q10", "w2\\?\\I"], ["w1\\?\\O", "w2\\?\\O"]⟩,
        ⟨1, 24, ["a\\?\\O"], ["a\\?\\O", "b\\?\\O"]⟩,
        ⟨2, 40, ["c\\?\\Q1"], ["c\\?\\Q1"]⟩] ≠ [] ∧
    (evaluateLoop [⟨0, 0, ["w1\\?\\Q10", "w2\\?\\I"], ["w1\\?\\O", "w2\\?\\O"]⟩,
        ⟨1, 24, ["a\\?\\O"], ["a\\?\\O", "b\\?\\O"]⟩,
        ⟨2, 40, ["c\\?\\Q1"], ["c\\?\\Q1"]⟩] initEval).map
      (fun st => (st.microTp, st.microFp, st.microFn, st.num_total, st.num_mismatch)) =
      some (1, 0, 1, 3, 1) ∧
    (evaluateLoop [⟨0, 0, ["w1\\?\\Q10", "w2\\?\\I"], ["w1\\?\\O", "w2\\?\\O"]⟩,
        ⟨1, 24, ["a\\?\\O"], ["a\\?\\O", "b\\?\\O"]⟩,
        ⟨2, 40, ["c\\?\\Q1"], ["c\\?\\Q1"]⟩] initEval).map finalize =
      some (Double.fin 6004799503160661 1021, Double.fin (1 <<< 52) 1021) ∧
    (((∀ r ∈ scoredRecords [⟨0, 0, ["w1\\?\\Q10", "w2\\?\\I"], ["w1\\?\\O", "w2\\?\\O"]⟩,
          ⟨1, 24, ["a\\?\\O"], ["a\\?\\O", "b\\?\\O"]⟩,
          ⟨2, 40, ["c\\?\\Q1"], ["c\\?\\Q1"]⟩],
        (∀ w ∈ r.truthWords, hasMarker w) ∧ (∀ w ∈ r.algWords, hasMarker w)) →
      (evaluateLoop [⟨0, 0, ["w1\\?\\Q10", "w2\\?\\I"], ["w1\\?\\O", "w2\\?\\O"]⟩,
        ⟨1, 24, ["a\\?\\O"], ["a\\?\\O", "b\\?\\O"]⟩,
        ⟨2, 40, ["c\\?\\Q1"], ["c\\?\\Q1"]⟩] initEval).isSome = true) ∧
    ∀ st, evaluateLoop [⟨0, 0, ["w1\\?\\Q10", "w2\\?\\I"], ["w1\\?\\O", "w2\\?\\O"]⟩,
        ⟨1, 24, ["a\\?\\O"], ["a\\?\\O", "b\\?\\O"]⟩,
        ⟨2, 40, ["c\\?\\Q1"], ["c\\?\\Q1"]⟩] initEval = some st →
      scoredRecords [⟨0, 0, ["w1\\?\\Q10", "w2\\?\\I"], ["w1\\?\\O", "w2\\?\\O"]⟩,
        ⟨1, 24, ["a\\?\\O"], ["a\\?\\O", "b\\?\\O"]⟩,
        ⟨2, 40, ["c\\?\\Q1"], ["c\\?\\Q1"]⟩] ≠ [] →
      st.num_total - st.num_mismatch =
        (scoredRecords [⟨0, 0, ["w1\\?\\Q10", "w2\\?\\I"], ["w1\\?\\O", "w2\\?\\O"]⟩,
          ⟨1, 24, ["a\\?\\O"], ["a\\?\\O", "b\\?\\O"]⟩,
          ⟨2, 40, ["c\\?\\Q1"], ["c\\?\\Q1"]⟩]).length ∧
      0 < st.num_total - st.num_mismatch ∧
      (finalize st).1 =
        computeF1
          ((scoredRecords [⟨0, 0, ["w1\\?\\Q10", "w2\\?\\I"], ["w1\\?\\O", "w2\\?\\O"]⟩,
            ⟨1, 24, ["a\\?\\O"], ["a\\?\\O", "b\\?\\O"]⟩,
            ⟨2, 40, ["c\\?\\Q1"], ["c\\?\\Q1"]⟩]).map fun r => (countsOf r).1).sum
          ((scoredRecords [⟨0, 0, ["w1\\?\\Q10", "w2\\?\\I"], ["w1\\?\\O", "w2\\?\\O"]⟩,
            ⟨1, 24, ["a\\?\\O"], ["a\\?\\O", "b\\?\\O"]⟩,
            ⟨2, 40, ["c\\?\\Q1"], ["c\\?\\Q1"]⟩]).map fun r => (countsOf r).2.1).sum
          ((scoredRecords [⟨0, 0, ["w1\\?\\Q10", "w2\\?\\I"], ["w1\\?\\O", "w2\\?\\O"]⟩,
            ⟨1, 24, ["a\\?\\O"], ["a\\?\\O", "b\\?\\O"]⟩,
            ⟨2, 40, ["c\\?\\Q1"], ["c\\?\\Q1"]⟩]).map fun r => (countsOf r).2.2).sum ∧
      (finalize st).2 =
        Double.div
          (sumDouble
            ((scoredRecords [⟨0, 0, ["w1\\?\\Q10", "w2\\?\\I"], ["w1\\?\\O", "w2\\?\\O"]⟩,
              ⟨1, 24, ["a\\?\\O"], ["a\\?\\O", "b\\?\\O"]⟩,
              ⟨2, 40, ["c\\?\\Q1"], ["c\\?\\Q1"]⟩]).map fun r =>
            computeF1 (countsOf r).1 (countsOf r).2.1 (countsOf r).2.2))
          (Double.ofNat (st.num_total - st.num_mismatch))) :=
  ⟨by simp [scoredRecords, isScored], by decide, finalize_example,
   evaluateLoop_finalize [⟨0, 0, ["w1\\?\\Q10", "w2\\?\\I"], ["w1\\?\\O", "w2\\?\\O"]⟩,
     ⟨1, 24, ["a\\?\\O"], ["a\\?\\O", "b\\?\\O"]⟩,
     ⟨2, 40, ["c\\?\\Q1"], ["c\\?\\Q1"]⟩]⟩

/-! ## The per-sentence outputs -/

/-- C16, as the code has it: the loop over the records returns when every token
of every scored record has a marker field; the verdict log has one line per
record read, as many as `num_total`, and the tagging-flag output has one line
per scored record, as many as `num_total - num_mismatch`, both in the order of
the input. -/
theorem evaluateLoop_outputs (rs : List Record) :
    ((∀ r ∈ scoredRecords rs,
        (∀ w ∈ r.truthWords, hasMarker w) ∧ (∀ w ∈ r.algWords, hasMarker w)) →
      (evaluateLoop rs initEval).isSome = true) ∧
    ∀ st, evaluateLoop rs initEval = some st →
      st.num_total = rs.length ∧
      st.fNerNed.map (fun l => (l.1, l.2.1)) = rs.map (fun r => (r.lineIdx, r.linePos)) ∧
      st.fNer.map (fun l => (l.1, l.2.1)) =
        (scoredRecords rs).map (fun r => (r.lineIdx, r.linePos)) ∧
      st.fNerNed.length = st.num_total ∧
      st.fNer.length = st.num_total - st.num_mismatch := by
  refine ⟨evaluateLoop_isSome rs initEval, fun st h => ?_⟩
  obtain ⟨i1, i2, _⟩ := evaluateLoop_counts rs initEval st h
  obtain ⟨l1, l2⟩ := evaluateLoop_lines rs initEval st h
  simp only [initEval, Nat.zero_add] at i1 i2
  simp only [initEval, List.map_nil, List.nil_append] at l1 l2
  have n1 := congrArg List.length l1
  have n2 := congrArg List.length l2
  simp only [List.length_map] at n1 n2
  exact ⟨i1, l1, l2, by omega, by omega⟩

/-- C16 as stated fails: after one record with one gold and two predicted
tokens `num_total` is `1` and the verdict log has one line, but the tagging-flag
output has none. -/
theorem evaluateLoop_outputs_counterexample :
    (evaluateLoop [⟨0, 0, ["a\\?\\O"], ["a\\?\\O", "b\\?\\O"]⟩] initEval).map
      (fun st => (st.num_total, st.fNerNed, st.fNer)) =
      some (1, [(0, 0, NERNED_MISMATCH)], []) := by
  decide

/-- C16 on three records, the second with one gold and two predicted tokens:
three verdict lines, two tagging-flag lines. -/
theorem evaluateLoop_outputs_witness :
    (evaluateLoop [⟨0, 0, ["w1\\?\\Q10", "w2\\?\\I"], ["w1\\?\\O", "w2\\?\\O"]⟩,
        ⟨1, 24, ["a\\?\\O"], ["a\\?\\O", "b\\?\\O"]⟩,
        ⟨2, 40, ["c\\?\\Q1"], ["c\\?\\Q1"]⟩] initEval).map
      (fun st => (st.num_total, st.num_mismatch, st.fNerNed)) =
      some (3, 1, [(0, 0, NERNED_WRONG), (1, 24, NERNED_MISMATCH), (2, 40, NERNED_CORRECT)]) ∧
    (evaluateLoop [⟨0, 0, ["w1\\?\\Q10", "w2\\?\\I"], ["w1\\?\\O", "w2\\?\\O"]⟩,
        ⟨1, 24, ["a\\?\\O"], ["a\\?\\O", "b\\?\\O"]⟩,
        ⟨2, 40, ["c\\?\\Q1"], ["c\\?\\Q1"]⟩] initEval).map (fun st => st.fNer) =
      some [(0, 0, 336), (2, 40, 0)] ∧
    (((∀ r ∈ scoredRecords [⟨0, 0, ["w1\\?\\Q10", "w2\\?\\I"], ["w1\\?\\O", "w2\\?\\O"]⟩,
          ⟨1, 24, ["a\\?\\O"], ["a\\?\\O", "b\\?\\O"]⟩,
          ⟨2, 40, ["c\\?\\Q1"], ["c\\?\\Q1"]⟩],
        (∀ w ∈ r.truthWords, hasMarker w) ∧ (∀ w ∈ r.algWords, hasMarker w)) →
      (evaluateLoop [⟨0, 0, ["w1\\?\\Q10", "w2\\?\\I"], ["w1\\?\\O", "w2\\?\\O"]⟩,
        ⟨1, 24, ["a\\?\\O"], ["a\\?\\O", "b\\?\\O"]⟩,
        ⟨2, 40, ["c\\?\\Q1"], ["c\\?\\Q1"]⟩] initEval).isSome = true) ∧
    ∀ st, evaluateLoop [⟨0, 0, ["w1\\?\\Q10", "w2\\?\\I"], ["w1\\?\\O", "w2\\?\\O"]⟩,
        ⟨1, 24, ["a\\?\\O"], ["a\\?\\O", "b\\?\\O"]⟩,
        ⟨2, 40, ["c\\?\\Q1"], ["c\\?\\Q1"]⟩] initEval = some st →
      st.num_total =
        ([⟨0, 0, ["w1\\?\\Q10", "w2\\?\\I"], ["w1\\?\\O", "w2\\?\\O"]⟩,
          ⟨1, 24, ["a\\?\\O"], ["a\\?\\O", "b\\?\\O"]⟩,
          ⟨2, 40, ["c\\?\\Q1"], ["c\\?\\Q1"]⟩] : List Record).length ∧
      st.fNerNed.map (fun l => (l.1, l.2.1)) =
        ([⟨0, 0, ["w1\\?\\Q10", "w2\\?\\I"], ["w1\\?\\O", "w2\\?\\O"]⟩,
          ⟨1, 24, ["a\\?\\O"], ["a\\?\\O", "b\\?\\O"]⟩,
          ⟨2, 40, ["c\\?\\Q1"], ["c\\?\\Q1"]⟩] : List Record).map
          (fun r => (r.lineIdx, r.linePos)) ∧
      st.fNer.map (fun l => (l.1, l.2.1)) =
        (scoredRecords [⟨0, 0, ["w1\\?\\Q10", "w2\\?\\I"], ["w1\\?\\O", "w2\\?\\O"]⟩,
          ⟨1, 24, ["a\\?\\O"], ["a\\?\\O", "b\\?\\O"]⟩,
          ⟨2, 40, ["c\\?\\Q1"], ["c\\?\\Q1"]⟩]).map (fun r => (r.lineIdx, r.linePos)) ∧
      st.fNerNed.length = st.num_total ∧
      st.fNer.length = st.num_total - st.num_mismatch) :=
  ⟨by decide, by decide,
   evaluateLoop_outputs [⟨0, 0, ["w1\\?\\Q10", "w2\\?\\I"], ["w1\\?\\O", "w2\\?\\O"]⟩,
     ⟨1, 24, ["a\\?\\O"], ["a\\?\\O", "b\\?\\O"]⟩,
     ⟨2, 40, ["c\\?\\Q1"], ["c\\?\\Q1"]⟩]⟩

/-! ## The token-level counters -/

theorem evaluateRecord_tally {st st' : EvalState} {r : Record}
    (h : evaluateRecord st r = some st') :
    st'.num_total = st.num_total + 1 ∧
    ((st'.num_correct = st.num_correct + 1 ∧ st'.num_wrong = st.num_wrong ∧
        st'.num_mismatch = st.num_mismatch) ∨
      (st'.num_correct = st.num_correct ∧ st'.num_wrong = st.num_wrong + 1 ∧
        st'.num_mismatch = st.num_mismatch) ∨
      (st'.num_correct = st.num_correct ∧ st'.num_wrong = st.num_wrong ∧
        st'.num_mismatch = st.num_mismatch + 1)) := by
  rcases evaluateRecord_cases h with ⟨_, rfl⟩ | ⟨_, lp, al, _, rfl⟩
  · exact ⟨rfl, Or.inr (Or.inr ⟨rfl, rfl, rfl⟩)⟩
  · cases hc : al.sentenceCorrect
    · exact ⟨rfl, Or.inr (Or.inl (by simp [hc]))⟩
    · exact ⟨rfl, Or.inl (by simp [hc])⟩

theorem evaluateLoop_tally :
    ∀ (rs : List Record) (st0 st : EvalState), evaluateLoop rs st0 = some st →
      st.num_total + (st0.num_correct + st0.num_wrong + st0.num_mismatch) =
        st0.num_total + (st.num_correct + st.num_wrong + st.num_mismatch) := by
  intro rs
  induction rs with
  | nil =>
    intro st0 st h
    simp only [evaluateLoop, Option.some.injEq] at h
    subst h
    omega
  | cons r rs ih =>
    intro st0 st h
    simp only [evaluateLoop] at h
    cases h1 : evaluateRecord st0 r with
    | none => rw [h1] at h; cases h
    | some st1 =>
      rw [h1, Option.some_bind] at h
      have i1 := ih st1 st h
      obtain ⟨t1, t2⟩ := evaluateRecord_tally h1
      rcases t2 with ⟨a, b, c⟩ | ⟨a, b, c⟩ | ⟨a, b, c⟩ <;> omega

/-- C21: the loop over the records returns when every token of every scored
record has a marker field, and after it
`num_total = num_correct + num_wrong + num_mismatch`; every record adds `1` to
`num_total` and to exactly one of `num_correct`, `num_wrong` and `num_mismatch`,
leaving the other two as they were. -/
theorem evaluateLoop_tallies (rs : List Record) :
    ((∀ r ∈ scoredRecords rs,
        (∀ w ∈ r.truthWords, hasMarker w) ∧ (∀ w ∈ r.algWords, hasMarker w)) →
      (evaluateLoop rs initEval).isSome = true) ∧
    (∀ st, evaluateLoop rs initEval = some st →
      st.num_total = st.num_correct + st.num_wrong + st.num_mismatch) ∧
    ∀ (st st' : EvalState) (r : Record), evaluateRecord st r = some st' →
      st'.num_total = st.num_total + 1 ∧
      ((st'.num_correct = st.num_correct + 1 ∧ st'.num_wrong = st.num_wrong ∧
          st'.num_mismatch = st.num_mismatch) ∨
        (st'.num_correct = st.num_correct ∧ st'.num_wrong = st.num_wrong + 1 ∧
          st'.num_mismatch = st.num_mismatch) ∨
        (st'.num_correct = st.num_correct ∧ st'.num_wrong = st.num_wrong ∧
          st'.num_mismatch = st.num_mismatch + 1)) := by
  refine ⟨evaluateLoop_isSome rs initEval, fun st h => ?_, fun st st' r h => evaluateRecord_tally h⟩
  have := evaluateLoop_tally rs initEval st h
  simp only [initEval] at this
  omega

/-- C21 on three records, one scored Wrong, one of unequal token counts and one
scored Correct: the tallies are `3 = 1 + 1 + 1`. -/
theorem evaluateLoop_tallies_witness :
    (evaluateLoop [⟨0, 0, ["w1\\?\\Q10", "w2\\?\\I"], ["w1\\?\\O", "w2\\?\\O"]⟩,
        ⟨1, 24, ["a\\?\\O"], ["a\\?\\O", "b\\?\\O"]⟩,
        ⟨2, 40, ["c\\?\\Q1"], ["c\\?\\Q1"]⟩] initEval).map
      (fun st => (st.num_total, st.num_correct, st.num_wrong, st.num_mismatch)) =
      some (3, 1, 1, 1) ∧
    (((∀ r ∈ scoredRecords [⟨0, 0, ["w1\\?\\Q10", "w2\\?\\I"], ["w1\\?\\O", "w2\\?\\O"]⟩,
          ⟨1, 24, ["a\\?\\O"], ["a\\?\\O", "b\\?\\O"]⟩,
          ⟨2, 40, ["c\\?\\Q1"], ["c\\?\\Q1"]⟩],
        (∀ w ∈ r.truthWords, hasMarker w) ∧ (∀ w ∈ r.algWords, hasMarker w)) →
      (evaluateLoop [⟨0, 0, ["w1\\?\\Q10", "w2\\?\\I"], ["w1\\?\\O", "w2\\?\\O"]⟩,
        ⟨1, 24, ["a\\?\\O"], ["a\\?\\O", "b\\?\\O"]⟩,
        ⟨2, 40, ["c\\?\\Q1"], ["c\\?\\Q1"]⟩] initEval).isSome = true) ∧
    (∀ st, evaluateLoop [⟨0, 0, ["w1\\?\\Q10", "w2\\?\\I"], ["w1\\?\\O", "w2\\?\\O"]⟩,
        ⟨1, 24, ["a\\?\\O"], ["a\\?\\O", "b\\?\\O"]⟩,
        ⟨2, 40, ["c\\?\\Q1"], ["c\\?\\Q1"]⟩] initEval = some st →
      st.num_total = st.num_correct + st.num_wrong + st.num_mismatch) ∧
    ∀ (st st' : EvalState) (r : Record), evaluateRecord st r = some st' →
      st'.num_total = st.num_total + 1 ∧
      ((st'.num_correct = st.num_correct + 1 ∧ st'.num_wrong = st.num_wrong ∧
          st'.num_mismatch = st.num_mismatch) ∨
        (st'.num_correct = st.num_correct ∧ st'.num_wrong = st.num_wrong + 1 ∧
          st'.num_mismatch = st.num_mismatch) ∨
        (st'.num_correct = st.num_correct ∧ st'.num_wrong = st.num_wrong ∧
          st'.num_mismatch = st.num_mismatch + 1))) :=
  ⟨by decide,
   evaluateLoop_tallies [⟨0, 0, ["w1\\?\\Q10", "w2\\?\\I"], ["w1\\?\\O", "w2\\?\\O"]⟩,
     ⟨1, 24, ["a\\?\\O"], ["a\\?\\O", "b\\?\\O"]⟩,
     ⟨2, 40, ["c\\?\\Q1"], ["c\\?\\Q1"]⟩]⟩

/-! ## Begin and Inside symbols are followed by Inside or End -/

theorem getBIOES_open_next (w n : String)
    (h : getBIOES w n = "B" ∨ getBIOES w n = "I") : markerOf n = "I" := by
  rw [getBIOES_decodeMarker] at h
  unfold decodeMarker at h
  by_contra hn
  have e1 : ¬ ("O" = "B") := by decide
  have e2 : ¬ ("O" = "I") := by decide
  have e3 : ¬ ("E" = "B") := by decide
  have e4 : ¬ ("E" = "I") := by decide
  have e5 : ¬ ("S" = "B") := by decide
  have e6 : ¬ ("S" = "I") := by decide
  simp only [hn, if_false] at h
  split_ifs at h <;> simp_all

theorem getBIOES_inside_marker (w n : String) (h : markerOf w = "I") :
    getBIOES w n = "I" ∨ getBIOES w n = "E" := by
  rw [getBIOES_decodeMarker, h]
  unfold decodeMarker
  have e1 : ¬ ("I" = "O") := by decide
  simp only [e1, if_false, if_true]
  split_ifs
  · exact Or.inl rfl
  · exact Or.inr rfl

theorem decoded_next :
    ∀ (ws : List String) (k : Nat),
      ((decoded ws)[k]? = some "B" ∨ (decoded ws)[k]? = some "I") →
      ((decoded ws)[k + 1]? = some "I" ∨ (decoded ws)[k + 1]? = some "E") := by
  intro ws
  induction ws with
  | nil => intro k h; simp [decoded] at h
  | cons w ws ih =>
    intro k h
    cases k with
    | succ k =>
      simp only [decoded, List.getElem?_cons_succ] at h ⊢
      exact ih k h
    | zero =>
      simp only [decoded, List.getElem?_cons_zero, Option.some.injEq] at h
      have hm := getBIOES_open_next w _ h
      cases ws with
      | nil =>
        simp only [List.headD_nil, markerOf_dummyTail] at hm
        exact absurd hm (by decide)
      | cons w' ws' =>
        simp only [List.headD_cons] at hm
        simp only [decoded, List.getElem?_cons_succ, List.getElem?_cons_zero,
          Option.some.injEq]
        exact getBIOES_inside_marker w' _ hm

theorem closed_of_next (syms : List String)
    (hnext : ∀ k : Nat, (syms[k]? = some "B" ∨ syms[k]? = some "I") →
      (syms[k + 1]? = some "I" ∨ syms[k + 1]? = some "E")) :
    ∀ (n k : Nat), syms.length - k ≤ n →
      (syms[k]? = some "B" ∨ syms[k]? = some "I") →
      ∃ k' : Nat, k < k' ∧ syms[k']? = some "E" ∧
        ∀ m : Nat, k < m → m < k' → syms[m]? = some "I" := by
  intro n
  induction n with
  | zero =>
    intro k hk h
    have hnone : syms[k]? = none := List.getElem?_eq_none (by omega)
    rw [hnone] at h
    rcases h with h | h <;> cases h
  | succ n ih =>
    intro k hk h
    have hlt : k < syms.length := by
      by_contra hc
      have hnone : syms[k]? = none := List.getElem?_eq_none (by omega)
      rw [hnone] at h
      rcases h with h | h <;> cases h
    rcases hnext k h with h1 | h1
    · obtain ⟨k', a, b, c⟩ := ih (k + 1) (by omega) (Or.inr h1)
      refine ⟨k', by omega, b, fun m hm1 hm2 => ?_⟩
      by_cases hmk : m = k + 1
      · rw [hmk]; exact h1
      · exact c m (by omega) hm2
    · exact ⟨k + 1, by omega, h1, fun m hm1 hm2 => by omega⟩

/-- C22: in the symbols `getBIOES` derives for the tokens of a sentence, where
the successor of the last token is the dummy tail, the symbol after a `B` or an
`I` is an `I` or an `E`; the symbol of the last token is neither `B` nor `I`;
and every `B` is followed, inside the sentence, by an `E` with only `I` symbols
between the two. -/
theorem decoded_begin_closed (ws : List String) :
    (∀ k : Nat, ((decoded ws)[k]? = some "B" ∨ (decoded ws)[k]? = some "I") →
      ((decoded ws)[k + 1]? = some "I" ∨ (decoded ws)[k + 1]? = some "E")) ∧
    (decoded ws).getLast? ≠ some "B" ∧ (decoded ws).getLast? ≠ some "I" ∧
    ∀ k : Nat, (decoded ws)[k]? = some "B" →
      ∃ k' : Nat, k < k' ∧ k' < ws.length ∧ (decoded ws)[k']? = some "E" ∧
        ∀ m : Nat, k < m → m < k' → (decoded ws)[m]? = some "I" := by
  have hlast : ∀ s : String, s = "B" ∨ s = "I" → (decoded ws).getLast? ≠ some s := by
    intro s hs hl
    rw [List.getLast?_eq_getElem?] at hl
    have hpos : 0 < (decoded ws).length := by
      by_contra hc
      have hnone : (decoded ws)[(decoded ws).length - 1]? = none :=
        List.getElem?_eq_none (by omega)
      rw [hnone] at hl
      cases hl
    have hn := decoded_next ws ((decoded ws).length - 1)
      (by rcases hs with rfl | rfl
          · exact Or.inl hl
          · exact Or.inr hl)
    have hnone : (decoded ws)[(decoded ws).length - 1 + 1]? = none :=
      List.getElem?_eq_none (by omega)
    rw [hnone] at hn
    rcases hn with hn | hn <;> cases hn
  refine ⟨decoded_next ws, hlast "B" (Or.inl rfl), hlast "I" (Or.inr rfl), fun k hk => ?_⟩
  obtain ⟨k', a, b, c⟩ :=
    closed_of_next (decoded ws) (decoded_next ws) ((decoded ws).length - k) k
      (Nat.le_refl _) (Or.inl hk)
  refine ⟨k', a, ?_, b, c⟩
  by_contra hc
  have hnone : (decoded ws)[k']? = none :=
    List.getElem?_eq_none (by rw [decoded_length]; omega)
  rw [hnone] at b
  cases b

/-- C22 on the markers `Q1 I I O Q2`: the symbols are `B I E O S`, and the `B`
at position `0` is closed by the `E` at position `2`. -/
theorem decoded_begin_closed_witness :
    decoded ["a\\?\\Q1", "b\\?\\I", "c\\?\\I", "d\\?\\O", "e\\?\\Q2"] =
      ["B", "I", "E", "O", "S"] ∧
    ((∀ k : Nat,
        ((decoded ["a\\?\\Q1", "b\\?\\I", "c\\?\\I", "d\\?\\O", "e\\?\\Q2"])[k]? = some "B" ∨
          (decoded ["a\\?\\Q1", "b\\?\\I", "c\\?\\I", "d\\?\\O", "e\\?\\Q2"])[k]? = some "I") →
        ((decoded ["a\\?\\Q1", "b\\?\\I", "c\\?\\I", "d\\?\\O", "e\\?\\Q2"])[k + 1]? = some "I" ∨
          (decoded ["a\\?\\Q1", "b\\?\\I", "c\\?\\I", "d\\?\\O", "e\\?\\Q2"])[k + 1]? =
            some "E")) ∧
      (decoded ["a\\?\\Q1", "b\\?\\I", "c\\?\\I", "d\\?\\O", "e\\?\\Q2"]).getLast? ≠ some "B" ∧
      (decoded ["a\\?\\Q1", "b\\?\\I", "c\\?\\I", "d\\?\\O", "e\\?\\Q2"]).getLast? ≠ some "I" ∧
      ∀ k : Nat,
        (decoded ["a\\?\\Q1", "b\\?\\I", "c\\?\\I", "d\\?\\O", "e\\?\\Q2"])[k]? = some "B" →
        ∃ k' : Nat, k < k' ∧
          k' < ["a\\?\\Q1", "b\\?\\I", "c\\?\\I", "d\\?\\O", "e\\?\\Q2"].length ∧
          (decoded ["a\\?\\Q1", "b\\?\\I", "c\\?\\I", "d\\?\\O", "e\\?\\Q2"])[k']? = some "E" ∧
          ∀ m : Nat, k < m → m < k' →
            (decoded ["a\\?\\Q1", "b\\?\\I", "c\\?\\I", "d\\?\\O", "e\\?\\Q2"])[m]? =
              some "I") :=
  ⟨by decide, decoded_begin_closed ["a\\?\\Q1", "b\\?\\I", "c\\?\\I", "d\\?\\O", "e\\?\\Q2"]⟩

/-! ## The pointer of the two passes -/

theorem fpPass_append (truths : List Span) :
    ∀ (es1 es2 : List Span) (st : AlignState),
      fpPass truths (es1 ++ es2) st = (fpPass truths es1 st).bind (fpPass truths es2) := by
  intro es1
  induction es1 with
  | nil => intro es2 st; rfl
  | cons e es ih =>
    intro es2 st
    simp only [List.cons_append, fpPass]
    cases fpStep truths st e with
    | none => rfl
    | some st1 => simp only [Option.some_bind]; exact ih es2 st1

theorem fnPass_append (algs : List Span) :
    ∀ (es1 es2 : List Span) (st : AlignState),
      fnPass algs (es1 ++ es2) st = (fnPass algs es1 st).bind (fnPass algs es2) := by
  intro es1
  induction es1 with
  | nil => intro es2 st; rfl
  | cons e es ih =>
    intro es2 st
    simp only [List.cons_append, fnPass]
    cases fnStep algs st e with
    | none => rfl
    | some st1 => simp only [Option.some_bind]; exact ih es2 st1

theorem fpPass_pointer (truths : List Span) :
    ∀ (es : List Span) (st : AlignState), (truths ≠ [] → st.j < truths.length) →
      ∃ st', fpPass truths es st = some st' ∧ st.j ≤ st'.j ∧
        (truths ≠ [] → st'.j < truths.length) := by
  intro es
  induction es with
  | nil => intro st hj; exact ⟨st, rfl, Nat.le_refl _, hj⟩
  | cons e es ih =>
    intro st hj
    obtain ⟨st1, g1, g2, g3⟩ := fpStep_total truths st e hj
    obtain ⟨st2, k1, k2, k3⟩ := ih st1 g3
    exact ⟨st2, by simp only [fpPass, g1, Option.some_bind]; exact k1, by omega, k3⟩

theorem fnPass_pointer (algs : List Span) :
    ∀ (es : List Span) (st : AlignState), (algs ≠ [] → st.j < algs.length) →
      ∃ st', fnPass algs es st = some st' ∧ st.j ≤ st'.j ∧
        (algs ≠ [] → st'.j < algs.length) := by
  intro es
  induction es with
  | nil => intro st hj; exact ⟨st, rfl, Nat.le_refl _, hj⟩
  | cons e es ih =>
    intro st hj
    obtain ⟨st1, g1, g2, g3⟩ := fnStep_total algs st e hj
    obtain ⟨st2, k1, k2, k3⟩ := ih st1 g3
    exact ⟨st2, by simp only [fnPass, g1, Option.some_bind]; exact k1, by omega, k3⟩

/-- C23: on all span lists both passes return, so that no `truths[j]` or
`algs[j]` is read out of range.  In the first pass over `algs`, the pointer
after any number of predicted spans is at most the pointer after more of them,
and is below `truths.size()` when `truths` is not empty; in the second pass over
`truths`, which starts again from `j = 0`, the same holds with `algs`.  The
inner `while` loop started at a pointer in range ends at a pointer that is not
smaller and is in range, so that every index it reads is in range. -/
theorem align_pointer_in_range (truths algs : List Span) :
    (∃ al, align truths algs = some al) ∧
    (∀ es1 es2 es3 : List Span, algs = es1 ++ es2 ++ es3 →
      ∃ st1 st2,
        fpPass truths es1
          { j := 0, macroTp := 0, macroFp := 0, macroFn := 0, debug := 0,
            sentenceCorrect := true } = some st1 ∧
        fpPass truths (es1 ++ es2)
          { j := 0, macroTp := 0, macroFp := 0, macroFn := 0, debug := 0,
            sentenceCorrect := true } = some st2 ∧
        st1.j ≤ st2.j ∧ (truths ≠ [] → st2.j < truths.length)) ∧
    (∀ (es1 es2 es3 : List Span) (st : AlignState), truths = es1 ++ es2 ++ es3 →
      ∃ st1 st2,
        fnPass algs es1 { st with j := 0, debug := 0 } = some st1 ∧
        fnPass algs (es1 ++ es2) { st with j := 0, debug := 0 } = some st2 ∧
        st1.j ≤ st2.j ∧ (algs ≠ [] → st2.j < algs.length)) ∧
    (∀ head j : Nat, j < truths.length →
      ∃ j', forward truths head j = some j' ∧ j ≤ j' ∧ j' < truths.length) ∧
    (∀ head j : Nat, j < algs.length →
      ∃ j', forward algs head j = some j' ∧ j ≤ j' ∧ j' < algs.length) := by
  refine ⟨align_total truths algs, ?_, ?_, ?_, ?_⟩
  · intro es1 es2 _ _
    obtain ⟨st1, g1, _, g3⟩ := fpPass_pointer truths es1
      { j := 0, macroTp := 0, macroFp := 0, macroFn := 0, debug := 0, sentenceCorrect := true }
      (fun hne => List.length_pos.mpr hne)
    obtain ⟨st2, k1, k2, k3⟩ := fpPass_pointer truths es2 st1 g3
    exact ⟨st1, st2, g1, by rw [fpPass_append, g1, Option.some_bind]; exact k1, k2, k3⟩
  · intro es1 es2 _ st _
    obtain ⟨st1, g1, _, g3⟩ := fnPass_pointer algs es1 { st with j := 0, debug := 0 }
      (fun hne => List.length_pos.mpr hne)
    obtain ⟨st2, k1, k2, k3⟩ := fnPass_pointer algs es2 st1 g3
    exact ⟨st1, st2, g1, by rw [fnPass_append, g1, Option.some_bind]; exact k1, k2, k3⟩
  · intro head j hj
    exact forwardLoop_total truths head _ j rfl hj
  · intro head j hj
    exact forwardLoop_total algs head _ j rfl hj

/-- C23 on three gold spans and two predictions: the first pass moves the
pointer into `truths` from `0` to `1` and then to `2`, the second pass ends with
the pointer `1` into `algs`. -/
theorem align_pointer_in_range_witness :
    (fpPass [⟨0, 0, "Q1"⟩, ⟨2, 3, "Q2"⟩, ⟨5, 5, "Q3"⟩] [⟨2, 3, "Q2"⟩]
        ⟨0, 0, 0, 0, 0, true⟩).map (fun st => st.j) = some 1 ∧
    (fpPass [⟨0, 0, "Q1"⟩, ⟨2, 3, "Q2"⟩, ⟨5, 5, "Q3"⟩] [⟨2, 3, "Q2"⟩, ⟨7, 8, "Q4"⟩]
        ⟨0, 0, 0, 0, 0, true⟩).map (fun st => st.j) = some 2 ∧
    (align [⟨0, 0, "Q1"⟩, ⟨2, 3, "Q2"⟩, ⟨5, 5, "Q3"⟩] [⟨2, 3, "Q2"⟩, ⟨7, 8, "Q4"⟩]).map
        (fun st => st.j) = some 1 ∧
    ((∃ al, align [⟨0, 0, "Q1"⟩, ⟨2, 3, "Q2"⟩, ⟨5, 5, "Q3"⟩]
        [⟨2, 3, "Q2"⟩, ⟨7, 8, "Q4"⟩] = some al) ∧
    (∀ es1 es2 es3 : List Span, [⟨2, 3, "Q2"⟩, ⟨7, 8, "Q4"⟩] = es1 ++ es2 ++ es3 →
      ∃ st1 st2,
        fpPass [⟨0, 0, "Q1"⟩, ⟨2, 3, "Q2"⟩, ⟨5, 5, "Q3"⟩] es1
          { j := 0, macroTp := 0, macroFp := 0, macroFn := 0, debug := 0,
            sentenceCorrect := true } = some st1 ∧
        fpPass [⟨0, 0, "Q1"⟩, ⟨2, 3, "Q2"⟩, ⟨5, 5, "Q3"⟩] (es1 ++ es2)
          { j := 0, macroTp := 0, macroFp := 0, macroFn := 0, debug := 0,
            sentenceCorrect := true } = some st2 ∧
        st1.j ≤ st2.j ∧
        (([⟨0, 0, "Q1"⟩, ⟨2, 3, "Q2"⟩, ⟨5, 5, "Q3"⟩] : List Span) ≠ [] →
          st2.j < ([⟨0, 0, "Q1"⟩, ⟨2, 3, "Q2"⟩, ⟨5, 5, "Q3"⟩] : List Span).length)) ∧
    (∀ (es1 es2 es3 : List Span) (st : AlignState),
      [⟨0, 0, "Q1"⟩, ⟨2, 3, "Q2"⟩, ⟨5, 5, "Q3"⟩] = es1 ++ es2 ++ es3 →
      ∃ st1 st2,
        fnPass [⟨2, 3, "Q2"⟩, ⟨7, 8, "Q4"⟩] es1 { st with j := 0, debug := 0 } = some st1 ∧
        fnPass [⟨2, 3, "Q2"⟩, ⟨7, 8, "Q4"⟩] (es1 ++ es2) { st with j := 0, debug := 0 } =
          some st2 ∧
        st1.j ≤ st2.j ∧
        (([⟨2, 3, "Q2"⟩, ⟨7, 8, "Q4"⟩] : List Span) ≠ [] →
          st2.j < ([⟨2, 3, "Q2"⟩, ⟨7, 8, "Q4"⟩] : List Span).length)) ∧
    (∀ head j : Nat, j < ([⟨0, 0, "Q1"⟩, ⟨2, 3, "Q2"⟩, ⟨5, 5, "Q3"⟩] : List Span).length →
      ∃ j', forward [⟨0, 0, "Q1"⟩, ⟨2, 3, "Q2"⟩, ⟨5, 5, "Q3"⟩] head j = some j' ∧ j ≤ j' ∧
        j' < ([⟨0, 0, "Q1"⟩, ⟨2, 3, "Q2"⟩, ⟨5, 5, "Q3"⟩] : List Span).length) ∧
    (∀ head j : Nat, j < ([⟨2, 3, "Q2"⟩, ⟨7, 8, "Q4"⟩] : List Span).length →
      ∃ j', forward [⟨2, 3, "Q2"⟩, ⟨7, 8, "Q4"⟩] head j = some j' ∧ j ≤ j' ∧
        j' < ([⟨2, 3, "Q2"⟩, ⟨7, 8, "Q4"⟩] : List Span).length)) :=
  ⟨by decide, by decide, by decide,
   align_pointer_in_range [⟨0, 0, "Q1"⟩, ⟨2, 3, "Q2"⟩, ⟨5, 5, "Q3"⟩]
     [⟨2, 3, "Q2"⟩, ⟨7, 8, "Q4"⟩]⟩

end NerNed
